import Mathlib

/-!
# Unscented Kalman filter: `src/src/ukf.cpp`

A shallow embedding of the class `UKF` of `ukf.cpp` (CTRV motion model, lidar update) and
the properties its specification states about it.

Conventions of the embedding.

* `double` is read as an element of a linearly ordered field `K`; the definitions are
  generic in `K` (they run over `ℚ`) and the theorems are stated over `ℝ`, those about
  binary64 arithmetic over `ℚ`.
* The functions of `<cmath>` and of Eigen that the code calls are parameters of the
  definitions that use them: `pi` (`M_PI`), `sqrt`, `sin`, `cos` and `llt`
  (`P_aug.llt().matrixL()`).  The theorems instantiate them with `Real.pi`, `Real.sqrt`,
  `Real.sin`, `Real.cos`, and constrain `llt` by the contract of the Cholesky
  factorisation where a claim needs it.
* `n_x_ = 5` and `n_aug_ = 7` are assigned once, by the constructor, and fix the shapes of
  every vector and matrix of the class; they are constants of the embedding.
* Where the truth of a claim depends on the rounding of binary64 arithmetic, the code is
  taken in an arithmetic that rounds the result of every operation with a function `fl`
  (`whileSubFl`, `weightedMeanFl`, `innovationCovarianceFl`, ...), instantiated with
  `roundDouble`, round-to-nearest-even to 53 bits over `ℚ`; `fl = id` gives the exact
  definitions back.
* A `while` loop is a function with a fuel argument that returns `none` when the fuel runs
  out; `MatrixXd::inverse()` returns `none` on a singular matrix.
-/

open Matrix

set_option linter.unusedTactic false
set_option linter.unreachableTactic false
set_option linter.unnecessarySeqFocus false

/-- State dimension, `n_x_ = 5` (ukf.cpp line 70). -/
abbrev n_x_ : ℕ := 5

/-- Augmented state dimension, `n_aug_ = 7` (ukf.cpp line 73). -/
abbrev n_aug_ : ℕ := 7

/-- Sensor tag of a measurement record (`MeasurementPackage::SensorType`). -/
inductive SensorType where
  | LASER
  | RADAR
  deriving DecidableEq, Repr

/-- Modelled from the spec: the measurement record of `measurement_package.h`, which is not
among the sources: "sensor type tag, raw measurement vector (2-dim for position sensor,
3-dim for range sensor), timestamp".  `raw_measurements_` is a dynamically sized
`VectorXd`. -/
structure MeasurementPackage (K : Type) where
  timestamp_ : Int
  sensor_type_ : SensorType
  raw_measurements_ : List K

/-- The fields of class `UKF` that `ukf.cpp` reads or writes. -/
structure UKF (K : Type) where
  use_laser_ : Bool
  use_radar_ : Bool
  x_ : Fin n_x_ → K
  P_ : Matrix (Fin n_x_) (Fin n_x_) K
  std_a_ : K
  std_yawdd_ : K
  std_laspx_ : K
  std_laspy_ : K
  std_radr_ : K
  std_radphi_ : K
  std_radrd_ : K
  is_initialized_ : Bool
  lambda_ : K
  Xsig_pred_ : Matrix (Fin n_x_) (Fin (2 * n_aug_ + 1)) K
  weights_ : Fin (2 * n_aug_ + 1) → K

section Defs

variable {K : Type} [LinearOrderedField K]

/-- The weights of lines 82-88 as a function of `n_aug_` and `lambda_`:
`weights_(0) = lambda_ / (lambda_ + n_aug_)` and every later entry is
`0.5 / (lambda_ + n_aug_)`. -/
def setWeights (n_aug : ℕ) (lambda : K) : Fin (2 * n_aug + 1) → K :=
  fun i => if i.val = 0 then lambda / (lambda + (n_aug : K)) else 0.5 / (lambda + (n_aug : K))

/-- The constructor `UKF::UKF()` (lines 10-88).  `Xsig_pred_` is allocated without being
initialised; its contents are the argument `Xsig_uninit`. -/
def UKF.ctor (Xsig_uninit : Matrix (Fin n_x_) (Fin (2 * n_aug_ + 1)) K) : UKF K where
  use_laser_ := true
  use_radar_ := true
  x_ := ![0, 0, 0, 0, 0]
  P_ := !![1, 0, 0, 0, 0;
           0, 1, 0, 0, 0;
           0, 0, 1, 0, 0;
           0, 0, 0, 1, 0;
           0, 0, 0, 0, 1]
  std_a_ := 30
  std_yawdd_ := 30
  std_laspx_ := 0.15
  std_laspy_ := 0.15
  std_radr_ := 0.3
  std_radphi_ := 0.03
  std_radrd_ := 0.3
  is_initialized_ := false
  lambda_ := 3 - (n_aug_ : K)
  Xsig_pred_ := Xsig_uninit
  weights_ := setWeights n_aug_ (3 - (n_aug_ : K))

/-- The loop `while (d > M_PI) d -= 2.0 * M_PI;` (lines 213, 300), with fuel, in exact
arithmetic; `whileSubFl` is the same loop with rounding. -/
def whileSub (pi : K) : ℕ → K → Option K
  | 0, d => if d > pi then none else some d
  | fuel + 1, d => if d > pi then whileSub pi fuel (d - 2 * pi) else some d

/-- The loop `while (d < -M_PI) d += 2.0 * M_PI;` (lines 214, 301), with fuel, in exact
arithmetic; `whileAddFl` is the same loop with rounding. -/
def whileAdd (pi : K) : ℕ → K → Option K
  | 0, d => if d < -pi then none else some d
  | fuel + 1, d => if d < -pi then whileAdd pi fuel (d + 2 * pi) else some d

/-- The two normalisation loops in sequence (lines 213-214 and 300-301). -/
def normalizeAngle (pi : K) (fuel : ℕ) (d : K) : Option K :=
  (whileSub pi fuel d).bind (whileAdd pi fuel)

/-- The difference vector with its yaw entry normalised: `x_diff` after lines 213-214. -/
def normalizeYaw (pi : K) (fuel : ℕ) (x_diff : Fin n_x_ → K) : Option (Fin n_x_ → K) :=
  (normalizeAngle pi fuel (x_diff 3)).map (fun a => Function.update x_diff 3 a)

/-- The augmented mean of lines 120-126. -/
def UKF.x_aug (s : UKF K) : Fin n_aug_ → K :=
  fun i => if h : i.val < n_x_ then s.x_ ⟨i.val, h⟩ else 0

/-- The augmented covariance of lines 129-135. -/
def UKF.P_aug (s : UKF K) : Matrix (Fin n_aug_) (Fin n_aug_) K :=
  fun i j =>
    if h : i.val < n_x_ ∧ j.val < n_x_ then s.P_ ⟨i.val, h.1⟩ ⟨j.val, h.2⟩
    else if i.val = n_x_ + 0 ∧ j.val = n_x_ + 0 then s.std_a_ * s.std_a_
    else if i.val = n_x_ + 1 ∧ j.val = n_x_ + 1 then s.std_yawdd_ * s.std_yawdd_
    else 0

/-- The augmented sigma points of lines 138-147; `llt` is `P_aug.llt().matrixL()`. -/
def UKF.Xsig_aug (sqrt : K → K)
    (llt : Matrix (Fin n_aug_) (Fin n_aug_) K → Matrix (Fin n_aug_) (Fin n_aug_) K)
    (s : UKF K) : Matrix (Fin n_aug_) (Fin (2 * n_aug_ + 1)) K :=
  let A := llt s.P_aug
  fun r c =>
    if c.val = 0 then s.x_aug r
    else if h : c.val - 1 < n_aug_ then
      s.x_aug r + sqrt (s.lambda_ + (n_aug_ : K)) * A r ⟨c.val - 1, h⟩
    else
      s.x_aug r - sqrt (s.lambda_ + (n_aug_ : K)) * A r ⟨c.val - 1 - n_aug_,
        by have := c.isLt; simp only [n_aug_] at this ⊢; omega⟩

/-- The body of the loop of lines 154-195: one augmented sigma point through the CTRV
process model. -/
def predictSigmaPoint (sin cos : K → K) (delta_t : K) (xa : Fin n_aug_ → K) : Fin n_x_ → K :=
  let px := xa 0
  let py := xa 1
  let v := xa 2
  let psi := xa 3
  let psi_d := xa 4
  let nu_a := xa 5
  let nu_psi_dd := xa 6
  let x : Fin n_x_ → K := ![px, py, v, psi, psi_d]
  let atol : K := 1e-3
  let s1 : Fin n_x_ → K :=
    if |psi_d| > atol then
      ![v / psi_d * (sin (psi + psi_d * delta_t) - sin psi),
        v / psi_d * (-cos (psi + psi_d * delta_t) + cos psi),
        0,
        psi_d * delta_t,
        0]
    else
      ![v * cos psi * delta_t,
        v * sin psi * delta_t,
        0,
        psi_d * delta_t,
        0]
  let s2 : Fin n_x_ → K :=
    ![0.5 * (delta_t * delta_t) * cos psi * nu_a,
      0.5 * (delta_t * delta_t) * sin psi * nu_a,
      delta_t * nu_a,
      0.5 * (delta_t * delta_t) * nu_psi_dd,
      delta_t * nu_psi_dd]
  x + s1 + s2

/-- The arc-motion increment `s1` of lines 173-177, the branch taken when
`fabs(psi_d) > atol`. -/
def arcMotion (sin cos : K → K) (delta_t v psi psi_d : K) : Fin n_x_ → K :=
  ![v / psi_d * (sin (psi + psi_d * delta_t) - sin psi),
    v / psi_d * (-cos (psi + psi_d * delta_t) + cos psi),
    0,
    psi_d * delta_t,
    0]

/-- The straight-line increment `s1` of lines 180-184, the branch taken otherwise. -/
def lineMotion (sin cos : K → K) (delta_t v psi psi_d : K) : Fin n_x_ → K :=
  ![v * cos psi * delta_t,
    v * sin psi * delta_t,
    0,
    psi_d * delta_t,
    0]

/-- The noise contribution `s2` of lines 187-192. -/
def processNoise (sin cos : K → K) (delta_t psi nu_a nu_psi_dd : K) : Fin n_x_ → K :=
  ![0.5 * (delta_t * delta_t) * cos psi * nu_a,
    0.5 * (delta_t * delta_t) * sin psi * nu_a,
    delta_t * nu_a,
    0.5 * (delta_t * delta_t) * nu_psi_dd,
    delta_t * nu_psi_dd]

/-- Division as a partial operation: undefined when the divisor is 0. -/
def checkedDiv (a b : K) : Option K :=
  if b = 0 then none else some (a / b)

/-- The body of the loop of lines 154-195 with the two divisions `v / psi_d` of lines 173
and 174 checked: the result is `none` if a division by 0 is evaluated. -/
def predictSigmaPointChecked (sin cos : K → K) (delta_t : K) (xa : Fin n_aug_ → K) :
    Option (Fin n_x_ → K) :=
  let px := xa 0
  let py := xa 1
  let v := xa 2
  let psi := xa 3
  let psi_d := xa 4
  let nu_a := xa 5
  let nu_psi_dd := xa 6
  let x : Fin n_x_ → K := ![px, py, v, psi, psi_d]
  let atol : K := 1e-3
  let s1 : Option (Fin n_x_ → K) :=
    if |psi_d| > atol then
      (checkedDiv v psi_d).bind fun q0 =>
        (checkedDiv v psi_d).map fun q1 =>
          ![q0 * (sin (psi + psi_d * delta_t) - sin psi),
            q1 * (-cos (psi + psi_d * delta_t) + cos psi),
            0,
            psi_d * delta_t,
            0]
    else
      some ![v * cos psi * delta_t,
        v * sin psi * delta_t,
        0,
        psi_d * delta_t,
        0]
  let s2 : Fin n_x_ → K :=
    ![0.5 * (delta_t * delta_t) * cos psi * nu_a,
      0.5 * (delta_t * delta_t) * sin psi * nu_a,
      delta_t * nu_a,
      0.5 * (delta_t * delta_t) * nu_psi_dd,
      delta_t * nu_psi_dd]
  s1.map fun s1 => x + s1 + s2

/-- The predicted mean of lines 202-205. -/
def weightedMean {n : ℕ} (w : Fin (2 * n_aug_ + 1) → K)
    (X : Matrix (Fin n) (Fin (2 * n_aug_ + 1)) K) : Fin n → K :=
  (List.finRange (2 * n_aug_ + 1)).foldl (fun acc i => acc + w i • (fun r => X r i)) 0

/-- The predicted covariance of lines 208-217. -/
def predictCovariance (pi : K) (fuel : ℕ) (w : Fin (2 * n_aug_ + 1) → K)
    (X : Matrix (Fin n_x_) (Fin (2 * n_aug_ + 1)) K) (x : Fin n_x_ → K) :
    Option (Matrix (Fin n_x_) (Fin n_x_) K) :=
  (List.finRange (2 * n_aug_ + 1)).foldlM
    (fun acc i =>
      (normalizeYaw pi fuel (fun r => X r i - x r)).map
        (fun x_diff => acc + w i • vecMulVec x_diff x_diff))
    0

/-- The predicted sigma points of lines 154-195: column `i` of `Xsig_pred_` is column `i`
of `Xsig_aug` through the process model. -/
def UKF.predictSigmaPoints (sqrt sin cos : K → K)
    (llt : Matrix (Fin n_aug_) (Fin n_aug_) K → Matrix (Fin n_aug_) (Fin n_aug_) K)
    (s : UKF K) (delta_t : K) : Matrix (Fin n_x_) (Fin (2 * n_aug_ + 1)) K :=
  let Xsig_aug := s.Xsig_aug sqrt llt
  fun r i => predictSigmaPoint sin cos delta_t (fun k => Xsig_aug k i) r

/-- The method `UKF::Prediction(delta_t)` (lines 99-218). -/
def UKF.Prediction (pi : K) (sqrt sin cos : K → K)
    (llt : Matrix (Fin n_aug_) (Fin n_aug_) K → Matrix (Fin n_aug_) (Fin n_aug_) K)
    (fuel : ℕ) (s : UKF K) (delta_t : K) : Option (UKF K) :=
  let Xsig_pred := s.predictSigmaPoints sqrt sin cos llt delta_t
  let x := weightedMean s.weights_ Xsig_pred
  (predictCovariance pi fuel s.weights_ Xsig_pred x).map
    (fun P => { s with x_ := x, P_ := P, Xsig_pred_ := Xsig_pred })

/-- The call `S.inverse()` (line 307) on a 2x2 matrix over a field: the inverse exists
exactly when the determinant is non-zero. -/
def inverse (S : Matrix (Fin 2) (Fin 2) K) : Option (Matrix (Fin 2) (Fin 2) K) :=
  let det := S 0 0 * S 1 1 - S 0 1 * S 1 0
  if det = 0 then none
  else some !![S 1 1 / det, -(S 0 1) / det; -(S 1 0) / det, S 0 0 / det]

/-- The sigma points in measurement space, lines 257-265: `Zsig`. -/
def measurementSigma (Xsig_pred : Matrix (Fin n_x_) (Fin (2 * n_aug_ + 1)) K) :
    Matrix (Fin 2) (Fin (2 * n_aug_ + 1)) K :=
  fun r i => ![Xsig_pred 0 i, Xsig_pred 1 i] r

/-- The measurement noise `R` of lines 274-277. -/
def UKF.R (s : UKF K) : Matrix (Fin 2) (Fin 2) K :=
  !![s.std_laspx_ * s.std_laspx_, 0; 0, s.std_laspy_ * s.std_laspy_]

/-- The innovation covariance `S` of lines 279-284. -/
def innovationCovariance (w : Fin (2 * n_aug_ + 1) → K)
    (Zsig : Matrix (Fin 2) (Fin (2 * n_aug_ + 1)) K) (z_pred : Fin 2 → K)
    (R : Matrix (Fin 2) (Fin 2) K) : Matrix (Fin 2) (Fin 2) K :=
  (List.finRange (2 * n_aug_ + 1)).foldl
    (fun acc i =>
      let z_diff : Fin 2 → K := fun r => Zsig r i - z_pred r
      acc + w i • vecMulVec z_diff z_diff)
    0 + R

/-- The cross correlation `Tc` of lines 294-304. -/
def crossCorrelation (pi : K) (fuel : ℕ) (w : Fin (2 * n_aug_ + 1) → K)
    (Xsig_pred : Matrix (Fin n_x_) (Fin (2 * n_aug_ + 1)) K) (x : Fin n_x_ → K)
    (Zsig : Matrix (Fin 2) (Fin (2 * n_aug_ + 1)) K) (z_pred : Fin 2 → K) :
    Option (Matrix (Fin n_x_) (Fin 2) K) :=
  (List.finRange (2 * n_aug_ + 1)).foldlM
    (fun acc i =>
      let z_diff : Fin 2 → K := fun r => Zsig r i - z_pred r
      (normalizeYaw pi fuel (fun r => Xsig_pred r i - x r)).map
        (fun x_diff => acc + w i • vecMulVec x_diff z_diff))
    0

/-- The method `UKF::UpdateLidar(meas_package)` (lines 220-314).  The raw measurement has to
be a vector of size `n_z = 2` for `z - z_pred` to be defined. -/
def UKF.UpdateLidar (pi : K) (fuel : ℕ) (s : UKF K) (meas_package : MeasurementPackage K) :
    Option (UKF K) :=
  match meas_package.raw_measurements_ with
  | [z_px, z_py] =>
    let z : Fin 2 → K := ![z_px, z_py]
    let Zsig := measurementSigma s.Xsig_pred_
    let z_pred := weightedMean s.weights_ Zsig
    let S := innovationCovariance s.weights_ Zsig z_pred s.R
    (crossCorrelation pi fuel s.weights_ s.Xsig_pred_ s.x_ Zsig z_pred).bind fun Tc =>
      (inverse S).map fun Sinv =>
        let K_ := Tc * Sinv
        let z_diff : Fin 2 → K := z - z_pred
        { s with x_ := s.x_ + K_ *ᵥ z_diff, P_ := s.P_ - K_ * S * K_ᵀ }
  | _ => none

/-- The method `UKF::UpdateRadar(meas_package)` (lines 316-323): an empty body. -/
def UKF.UpdateRadar (s : UKF K) (_meas_package : MeasurementPackage K) : UKF K := s

/-- The method `UKF::ProcessMeasurement(meas_package)` (lines 92-97): an empty body. -/
def UKF.ProcessMeasurement (s : UKF K) (_meas_package : MeasurementPackage K) : UKF K := s

/-- The loop `while (d > M_PI) d -= 2.0 * M_PI;` (lines 213, 300) in an arithmetic that
rounds the result of every operation with `fl`, with fuel.  `whileSub` is the case
`fl = id`. -/
def whileSubFl (fl : K → K) (pi : K) : ℕ → K → Option K
  | 0, d => if d > pi then none else some d
  | fuel + 1, d => if d > pi then whileSubFl fl pi fuel (fl (d - fl (2 * pi))) else some d

/-- The loop `while (d < -M_PI) d += 2.0 * M_PI;` (lines 214, 301) in an arithmetic that
rounds the result of every operation with `fl`, with fuel.  `whileAdd` is the case
`fl = id`. -/
def whileAddFl (fl : K → K) (pi : K) : ℕ → K → Option K
  | 0, d => if d < -pi then none else some d
  | fuel + 1, d => if d < -pi then whileAddFl fl pi fuel (fl (d + fl (2 * pi))) else some d

/-- The two normalisation loops in sequence (lines 213-214 and 300-301), with rounding. -/
def normalizeAngleFl (fl : K → K) (pi : K) (fuel : ℕ) (d : K) : Option K :=
  (whileSubFl fl pi fuel d).bind (whileAddFl fl pi fuel)

/-- The weights of lines 82-88 in an arithmetic that rounds the result of every operation
with `fl`.  `setWeights` is the case `fl = id`. -/
def setWeightsFl (fl : K → K) (n_aug : ℕ) (lambda : K) : Fin (2 * n_aug + 1) → K :=
  fun i => if i.val = 0 then fl (lambda / fl (lambda + (n_aug : K)))
    else fl (0.5 / fl (lambda + (n_aug : K)))

/-- The loop `z_pred += weights_(i) * Zsig.col(i)` of lines 268-271, started from zero, in
an arithmetic that rounds the result of every operation with `fl`.  `weightedMean` is the
case `fl = id`. -/
def weightedMeanFl (fl : K → K) {n : ℕ} (w : Fin (2 * n_aug_ + 1) → K)
    (X : Matrix (Fin n) (Fin (2 * n_aug_ + 1)) K) : Fin n → K :=
  (List.finRange (2 * n_aug_ + 1)).foldl
    (fun acc i => fun r => fl (acc r + fl (w i * X r i))) 0

/-- The innovation covariance `S` of lines 279-284 in an arithmetic that rounds the result
of every operation with `fl`: `z_diff = Zsig.col(i) - z_pred`, then
`S += (weights_(i) * z_diff) * z_diff.transpose()` for every column, then `S += R`.
`innovationCovariance` is the case `fl = id`. -/
def innovationCovarianceFl (fl : K → K) (w : Fin (2 * n_aug_ + 1) → K)
    (Zsig : Matrix (Fin 2) (Fin (2 * n_aug_ + 1)) K) (z_pred : Fin 2 → K)
    (R : Matrix (Fin 2) (Fin 2) K) : Matrix (Fin 2) (Fin 2) K :=
  let S : Matrix (Fin 2) (Fin 2) K :=
    (List.finRange (2 * n_aug_ + 1)).foldl
      (fun acc i =>
        let z_diff : Fin 2 → K := fun r => fl (Zsig r i - z_pred r)
        fun a b => fl (acc a b + fl (fl (w i * z_diff a) * z_diff b)))
      0
  fun a b => fl (S a b + R a b)

end Defs

/-! ## Definitions that follow the specification

The closed forms of the specification, to be compared with the loops above. -/

section SpecDefs

variable {K : Type} [LinearOrderedField K]

/-- A computation with fuel returns, from some amount of fuel on, a value satisfying `Q`. -/
def EventuallyReturns {α : Type} (f : ℕ → Option α) (Q : α → Prop) : Prop :=
  ∃ N, ∀ fuel, N ≤ fuel → ∃ a, f fuel = some a ∧ Q a

/-- Specification §4.2: sigma point `i` in measurement space, its first two components. -/
def spec_z (s : UKF K) (i : Fin (2 * n_aug_ + 1)) : Fin 2 → K :=
  ![s.Xsig_pred_ 0 i, s.Xsig_pred_ 1 i]

/-- Specification §4.2: the weighted mean `z_pred = Σ w_i z_i`. -/
def spec_z_pred (s : UKF K) : Fin 2 → K :=
  ∑ i, s.weights_ i • spec_z s i

/-- Specification §4.2: the weighted covariance of the sigma points in measurement space,
`Σ w_i (z_i − z_pred)(z_i − z_pred)^T`. -/
def spec_Pzz (s : UKF K) : Matrix (Fin 2) (Fin 2) K :=
  ∑ i, s.weights_ i • vecMulVec (spec_z s i - spec_z_pred s) (spec_z s i - spec_z_pred s)

/-- Specification §4.2: `S = Σ w_i (z_i − z_pred)(z_i − z_pred)^T + R` with
`R = diag(std_px², std_py²)`. -/
def spec_S (s : UKF K) : Matrix (Fin 2) (Fin 2) K :=
  spec_Pzz s + diagonal ![s.std_laspx_ ^ 2, s.std_laspy_ ^ 2]

/-- Specification §4.2: `Tc = Σ w_i (x_i − x)(z_i − z_pred)^T`, where the heading component
of `x_i − x` is replaced by its normalised value `yaw i`. -/
def spec_Tc (s : UKF K) (yaw : Fin (2 * n_aug_ + 1) → K) : Matrix (Fin n_x_) (Fin 2) K :=
  ∑ i, s.weights_ i •
    vecMulVec (Function.update (fun r => s.Xsig_pred_ r i - s.x_ r) 3 (yaw i))
      (spec_z s i - spec_z_pred s)

/-! ## Auxiliary definitions

Index maps for the sigma-point columns, the contract of the Cholesky routine, and the
concrete inputs at which the theorems below evaluate the code. -/

/-- A filter holding the mean `x`, the covariance `P` and the sigma points `X`, every other
field as the constructor sets it. -/
def UKF.ofState (x : Fin n_x_ → K) (P : Matrix (Fin n_x_) (Fin n_x_) K)
    (X : Matrix (Fin n_x_) (Fin (2 * n_aug_ + 1)) K) : UKF K :=
  { UKF.ctor X with x_ := x, P_ := P }

/-- Column `i + 1` of the sigma-point matrices, for `i < n_aug_` (line 145). -/
def colPlus (j : Fin n_aug_) : Fin (2 * n_aug_ + 1) :=
  ⟨j.val + 1, by have := j.isLt; simp only [n_aug_] at this ⊢; omega⟩

/-- Column `i + 1 + n_aug_` of the sigma-point matrices, for `i < n_aug_` (line 146). -/
def colMinus (j : Fin n_aug_) : Fin (2 * n_aug_ + 1) :=
  ⟨j.val + 1 + n_aug_, by have := j.isLt; simp only [n_aug_] at this ⊢; omega⟩

/-- The first `n_x_` indices of an augmented vector: `head(n_x_)`, `topLeftCorner`. -/
def headIdx (r : Fin n_x_) : Fin n_aug_ :=
  ⟨r.val, by have := r.isLt; simp only [n_x_, n_aug_] at this ⊢; omega⟩

/-- The contract of `llt().matrixL()`: `A` is lower triangular with a positive diagonal and
`A A^T = M`. -/
def IsCholeskyFactor (A M : Matrix (Fin n_aug_) (Fin n_aug_) K) : Prop :=
  (∀ i j, i < j → A i j = 0) ∧ (∀ i, 0 < A i i) ∧ A * Aᵀ = M

/-- The weighted sum of outer products that `Prediction` leaves in `P_`, given the
normalised yaw differences `yaw`. -/
def spec_P (w : Fin (2 * n_aug_ + 1) → K) (X : Matrix (Fin n_x_) (Fin (2 * n_aug_ + 1)) K)
    (x : Fin n_x_ → K) (yaw : Fin (2 * n_aug_ + 1) → K) : Matrix (Fin n_x_) (Fin n_x_) K :=
  ∑ i, w i • vecMulVec (Function.update (fun r => X r i - x r) 3 (yaw i))
    (Function.update (fun r => X r i - x r) 3 (yaw i))

/-- The covariance of the counterexample to the covariance round trip: heading variance
`25`, every other variance `1`. -/
def roundTripCov : Matrix (Fin n_x_) (Fin n_x_) K :=
  diagonal ![1, 1, 1, 25, 1]

/-- The Cholesky factor of the augmented covariance of a freshly constructed filter:
`diag(1, 1, 1, 1, 1, 30, 30)`. -/
def ctorCholesky : Matrix (Fin n_aug_) (Fin n_aug_) K :=
  fun i j => if i = j then (if i.val < n_x_ then 1 else 30) else 0

/-- The start of the scenario of the specification: a freshly constructed filter whose mean
has been set to `(1.0, 1.0, 0, 0, 0)`. -/
def scenarioStart (X : Matrix (Fin n_x_) (Fin (2 * n_aug_ + 1)) K) : UKF K :=
  { UKF.ctor X with x_ := ![1, 1, 0, 0, 0] }

/-- The measurement of the scenario: position `(1.1, 1.0)`. -/
def scenarioMeasurement (t : Int) : MeasurementPackage K :=
  ⟨t, SensorType.LASER, [1.1, 1.0]⟩

/-- In the scenario, the `px` offset of predicted sigma point `j + 1`, in units of
`sqrt 3`: `1` for the `px` direction, `delta_t = 0.1` for the speed direction,
`0.5 * delta_t² * 30 = 0.15` for the acceleration-noise direction. -/
def scenarioDx (j : Fin n_aug_) : K :=
  if j.val = 0 then 1 else if j.val = 2 then 1 / 10 else if j.val = 5 then 3 / 20 else 0

/-- In the scenario, the `py` offset of predicted sigma point `j + 1`, in units of
`sqrt 3`. -/
def scenarioDy (j : Fin n_aug_) : K :=
  if j.val = 1 then 1 else 0

/-- The Cholesky factor of the counterexample to positive semi-definiteness, as a function
of `pi` and `r = sqrt 3`: the identity, except that the heading row is
`(pi/r, pi/r, pi/r, pi/r, 0, 0, 0)`, the turn-rate entry is `1/(1000 r)` and the two noise
entries are `30`. -/
def wrapCholesky (pi r : K) : Matrix (Fin n_aug_) (Fin n_aug_) K :=
  fun i j =>
    if i.val = 3 then (if j.val ≤ 3 then pi / r else 0)
    else if i = j then
      (if i.val < 3 then 1 else if i.val = 4 then 1 / (1000 * r) else 30)
    else 0

/-- The covariance of the counterexample to positive semi-definiteness: the top-left 5x5
block of `wrapCholesky pi r * (wrapCholesky pi r)^T`. -/
def wrapCov (pi r : K) : Matrix (Fin n_x_) (Fin n_x_) K :=
  !![1, 0, 0, pi / r, 0;
     0, 1, 0, pi / r, 0;
     0, 0, 1, pi / r, 0;
     pi / r, pi / r, pi / r, 4 * (pi / r * (pi / r)), 0;
     0, 0, 0, 0, 1 / (1000 * r) * (1 / (1000 * r))]

/-- The mean of the counterexample to positive semi-definiteness: speed `12`, everything
else `0`. -/
def wrapMean : Fin n_x_ → K := ![0, 0, 12, 0, 0]

/-- In the counterexample, `px` of predicted sigma point `j + 1` after `delta_t = 1`. -/
def wrapPxPlus (r : K) (j : Fin n_aug_) : K :=
  if j.val = 0 then r - 12 else if j.val = 1 then -12 else if j.val = 2 then -(12 + r)
  else if j.val = 3 then -12 else if j.val = 4 then 12 else if j.val = 5 then 12 + 15 * r
  else 12

/-- In the counterexample, `px` of predicted sigma point `j + 1 + n_aug_` after
`delta_t = 1`. -/
def wrapPxMinus (r : K) (j : Fin n_aug_) : K :=
  if j.val = 0 then -r - 12 else if j.val = 1 then -12 else if j.val = 2 then -(12 - r)
  else if j.val = 3 then -12 else if j.val = 4 then 12 else if j.val = 5 then 12 - 15 * r
  else 12

/-- The measurement matrix of the linear Kalman update, `H = [I_2 | 0]` (2x5). -/
def measurementMatrix : Matrix (Fin 2) (Fin n_x_) K :=
  fun r c => if r.val = c.val then 1 else 0

/-- The weighted covariance of the sigma points `X` about `x`, without normalisation:
`Σ w_i (x_i − x)(x_i − x)^T`. -/
def weightedCovariance (w : Fin (2 * n_aug_ + 1) → K)
    (X : Matrix (Fin n_x_) (Fin (2 * n_aug_ + 1)) K) (x : Fin n_x_ → K) :
    Matrix (Fin n_x_) (Fin n_x_) K :=
  ∑ i, w i • vecMulVec (fun r => X r i - x r) (fun r => X r i - x r)

/-- The innovation covariance of the linear Kalman filter, `S = H P_ H^T + R`. -/
def linearS (s : UKF K) : Matrix (Fin 2) (Fin 2) K :=
  measurementMatrix * s.P_ * measurementMatrixᵀ + s.R

/-- Sigma points spread along `px` only: column `1` at `px = 1`, column `8` at `px = -1`,
every other entry zero. -/
def spreadSigma : Matrix (Fin n_x_) (Fin (2 * n_aug_ + 1)) K :=
  fun r i => if r.val = 0 then (if i.val = 1 then 1 else if i.val = 8 then -1 else 0) else 0

/-- A filter holding the sigma points `spreadSigma`, their weighted mean `0` and their
weighted covariance. -/
def spreadState : UKF K :=
  UKF.ofState 0 (weightedCovariance (setWeights n_aug_ (3 - (n_aug_ : K))) spreadSigma 0)
    spreadSigma

/-- A filter holding the sigma points `spreadSigma` and a mean whose heading is `-3.5`:
every heading difference `Xsig_pred_(3, i) - x_(3)` is `3.5`, above `π`. -/
def wrappedState : UKF K :=
  UKF.ofState ![0, 0, 0, -3.5, 0] 1 spreadSigma

end SpecDefs

/-! ## Binary64 arithmetic

The rounding of IEEE 754 binary64 (`double`) arithmetic, for the claims whose truth depends
on it. -/

/-- Rounding of a rational to the nearest integer, ties to the even one. -/
def roundHalfEven (q : ℚ) : ℤ :=
  if q - ⌊q⌋ < 1 / 2 then ⌊q⌋
  else if 1 / 2 < q - ⌊q⌋ then ⌊q⌋ + 1
  else if ⌊q⌋ % 2 = 0 then ⌊q⌋ else ⌊q⌋ + 1

/-- Rounding to the nearest number with a 53-bit significand, ties to even: with
`2^e ≤ |q| < 2^(e+1)` the result is the multiple of `2^(e-52)` nearest to `q`.  This is the
rounding that binary64 arithmetic applies to the exact result of `+`, `-`, `*`, `/` as long
as the result is in the normal range (`2^-1022 ≤ |q| < 2^1024`). -/
def roundDouble (q : ℚ) : ℚ :=
  if q = 0 then 0
  else roundHalfEven (q / 2 ^ (Int.log 2 |q| - 52)) * 2 ^ (Int.log 2 |q| - 52)

/-- The constant `M_PI` of `<cmath>` as a binary64 number: `884279719003555 / 2^48`, the
nearest one to `π`. -/
def M_PI : ℚ := 884279719003555 / 281474976710656

section Angle

open Real

theorem whileSub_of_le (fuel : ℕ) {d : ℝ} (h : d ≤ π) : whileSub π fuel d = some d := by
  cases fuel <;> simp [whileSub, not_lt.mpr h]

theorem whileAdd_of_le (fuel : ℕ) {d : ℝ} (h : -π ≤ d) : whileAdd π fuel d = some d := by
  cases fuel <;> simp [whileAdd, not_lt.mpr h]

/-- With `n` units of fuel the first loop handles every `d ≤ π + n * (2π)`, and more fuel
does not change what it returns. -/
theorem whileSub_enough (n : ℕ) : ∀ d : ℝ, d ≤ π + n * (2 * π) →
    ∃ a, ∀ fuel, n ≤ fuel → whileSub π fuel d = some a := by
  induction n with
  | zero =>
    intro d hd
    exact ⟨d, fun fuel _ => whileSub_of_le fuel (by simpa using hd)⟩
  | succ n ih =>
    intro d hd
    by_cases h : d > π
    · obtain ⟨a, ha⟩ := ih (d - 2 * π) (by push_cast at hd; linarith)
      refine ⟨a, fun fuel hf => ?_⟩
      obtain ⟨f, rfl⟩ : ∃ f, fuel = f + 1 := ⟨fuel - 1, by omega⟩
      simp only [whileSub, if_pos h]
      exact ha f (by omega)
    · exact ⟨d, fun fuel _ => whileSub_of_le fuel (not_lt.mp h)⟩

theorem whileAdd_enough (n : ℕ) : ∀ d : ℝ, -π - n * (2 * π) ≤ d →
    ∃ a, ∀ fuel, n ≤ fuel → whileAdd π fuel d = some a := by
  induction n with
  | zero =>
    intro d hd
    exact ⟨d, fun fuel _ => whileAdd_of_le fuel (by simpa using hd)⟩
  | succ n ih =>
    intro d hd
    by_cases h : d < -π
    · obtain ⟨a, ha⟩ := ih (d + 2 * π) (by push_cast at hd; linarith)
      refine ⟨a, fun fuel hf => ?_⟩
      obtain ⟨f, rfl⟩ : ∃ f, fuel = f + 1 := ⟨fuel - 1, by omega⟩
      simp only [whileAdd, if_pos h]
      exact ha f (by omega)
    · exact ⟨d, fun fuel _ => whileAdd_of_le fuel (not_lt.mp h)⟩

theorem whileSub_total (d : ℝ) : ∃ N a, ∀ fuel, N ≤ fuel → whileSub π fuel d = some a := by
  obtain ⟨n, hn⟩ := exists_nat_ge ((d - π) / (2 * π))
  have h2 : (0 : ℝ) < 2 * π := by positivity
  have : d ≤ π + n * (2 * π) := by
    have := (div_le_iff₀ h2).mp hn
    linarith
  obtain ⟨a, ha⟩ := whileSub_enough n d this
  exact ⟨n, a, ha⟩

theorem whileAdd_total (d : ℝ) : ∃ N a, ∀ fuel, N ≤ fuel → whileAdd π fuel d = some a := by
  obtain ⟨n, hn⟩ := exists_nat_ge ((-π - d) / (2 * π))
  have h2 : (0 : ℝ) < 2 * π := by positivity
  have : -π - n * (2 * π) ≤ d := by
    have := (div_le_iff₀ h2).mp hn
    linarith
  obtain ⟨a, ha⟩ := whileAdd_enough n d this
  exact ⟨n, a, ha⟩

/-- Enough fuel makes the two loops return, and the value does not depend on the fuel. -/
theorem normalizeAngle_total (d : ℝ) :
    ∃ N a, ∀ fuel, N ≤ fuel → normalizeAngle π fuel d = some a := by
  obtain ⟨N1, a1, h1⟩ := whileSub_total d
  obtain ⟨N2, a2, h2⟩ := whileAdd_total a1
  refine ⟨max N1 N2, a2, fun fuel hf => ?_⟩
  simp [normalizeAngle, h1 fuel (le_trans (le_max_left _ _) hf),
    h2 fuel (le_trans (le_max_right _ _) hf)]

/-- On `[-π, π]` neither loop runs. -/
theorem normalizeAngle_of_mem (fuel : ℕ) {d : ℝ} (h1 : -π ≤ d) (h2 : d ≤ π) :
    normalizeAngle π fuel d = some d := by
  simp [normalizeAngle, whileSub_of_le fuel h2, whileAdd_of_le fuel h1]

theorem whileSub_le (fuel : ℕ) : ∀ {d a : ℝ}, whileSub π fuel d = some a → a ≤ π := by
  induction fuel with
  | zero =>
    intro d a h
    by_cases hd : d > π
    · simp [whileSub, hd] at h
    · simp only [whileSub, if_neg hd, Option.some.injEq] at h
      linarith [not_lt.mp hd]
  | succ f ih =>
    intro d a h
    by_cases hd : d > π
    · simp only [whileSub, if_pos hd] at h
      exact ih h
    · simp only [whileSub, if_neg hd, Option.some.injEq] at h
      linarith [not_lt.mp hd]

theorem whileAdd_bounds (fuel : ℕ) : ∀ {d a : ℝ}, d ≤ π → whileAdd π fuel d = some a →
    -π ≤ a ∧ a ≤ π := by
  induction fuel with
  | zero =>
    intro d a hle h
    by_cases hd : d < -π
    · simp [whileAdd, hd] at h
    · simp only [whileAdd, if_neg hd, Option.some.injEq] at h
      subst h
      exact ⟨not_lt.mp hd, hle⟩
  | succ f ih =>
    intro d a hle h
    by_cases hd : d < -π
    · simp only [whileAdd, if_pos hd] at h
      exact ih (by linarith) h
    · simp only [whileAdd, if_neg hd, Option.some.injEq] at h
      subst h
      exact ⟨not_lt.mp hd, hle⟩

/-- Whatever the two loops return lies in the closed interval `[-π, π]`. -/
theorem normalizeAngle_bounds {fuel : ℕ} {d a : ℝ} (h : normalizeAngle π fuel d = some a) :
    -π ≤ a ∧ a ≤ π := by
  unfold normalizeAngle at h
  cases h1 : whileSub π fuel d with
  | none => simp [h1] at h
  | some b =>
    rw [h1] at h
    exact whileAdd_bounds fuel (whileSub_le fuel h1) h

end Angle

/-! ## Accumulation loops as sums -/

section Loops

theorem foldl_add_eq_sum {α M : Type} [AddCommMonoid M] (f : α → M) :
    ∀ (l : List α) (acc : M),
      l.foldl (fun acc i => acc + f i) acc = acc + (l.map f).sum := by
  intro l
  induction l with
  | nil => intro acc; simp
  | cons a l ih => intro acc; simp [ih, add_assoc]

theorem foldl_finRange_eq_sum {n : ℕ} {M : Type} [AddCommMonoid M] (f : Fin n → M) :
    (List.finRange n).foldl (fun acc i => acc + f i) 0 = ∑ i, f i := by
  rw [foldl_add_eq_sum, zero_add, Fin.sum_univ_def]

/-- A loop whose body may fail: when every iteration succeeds, the loop returns the sum. -/
theorem foldlM_add_eq_sum {α β M : Type} [AddCommMonoid M] (g : α → Option β)
    (h : α → β → M) (y : α → β) :
    ∀ (l : List α) (acc : M), (∀ i ∈ l, g i = some (y i)) →
      l.foldlM (fun acc i => (g i).map (fun b => acc + h i b)) acc
        = some (acc + (l.map (fun i => h i (y i))).sum) := by
  intro l
  induction l with
  | nil => intro acc _; simp
  | cons a l ih =>
    intro acc hl
    have ha : g a = some (y a) := hl a (List.mem_cons_self _ _)
    simp only [List.foldlM_cons, ha, Option.map_some', Option.bind_eq_bind, Option.some_bind,
      List.map_cons, List.sum_cons]
    rw [ih _ (fun i hi => hl i (List.mem_cons_of_mem _ hi)), add_assoc]

/-- A loop whose body may fail returns only if every iteration succeeds. -/
theorem foldlM_add_isSome {α β M : Type} [AddCommMonoid M] (g : α → Option β)
    (h : α → β → M) :
    ∀ (l : List α) (acc r : M),
      l.foldlM (fun acc i => (g i).map (fun b => acc + h i b)) acc = some r →
      ∀ i ∈ l, ∃ b, g i = some b := by
  intro l
  induction l with
  | nil => intro acc r _ i hi; simp at hi
  | cons a l ih =>
    intro acc r hr i hi
    cases hg : g a with
    | none => simp [List.foldlM_cons, hg] at hr
    | some b =>
      simp only [List.foldlM_cons, hg, Option.map_some', Option.bind_eq_bind,
        Option.some_bind] at hr
      rcases List.mem_cons.mp hi with rfl | hi
      · exact ⟨b, hg⟩
      · exact ih _ _ hr i hi

theorem foldlM_finRange_eq_sum {n : ℕ} {β M : Type} [AddCommMonoid M] (g : Fin n → Option β)
    (h : Fin n → β → M) (y : Fin n → β) (hy : ∀ i, g i = some (y i)) :
    (List.finRange n).foldlM (fun acc i => (g i).map (fun b => acc + h i b)) 0
      = some (∑ i, h i (y i)) := by
  rw [foldlM_add_eq_sum g h y _ _ (fun i _ => hy i), zero_add, Fin.sum_univ_def]

theorem foldlM_finRange_isSome {n : ℕ} {β M : Type} [AddCommMonoid M] (g : Fin n → Option β)
    (h : Fin n → β → M) (r : M)
    (hr : (List.finRange n).foldlM (fun acc i => (g i).map (fun b => acc + h i b)) 0 = some r) :
    ∃ y : Fin n → β, ∀ i, g i = some (y i) := by
  have := foldlM_add_isSome g h _ _ _ hr
  choose y hy using fun i => this i (List.mem_finRange i)
  exact ⟨y, hy⟩

variable {K : Type} [LinearOrderedField K]

theorem weightedMean_eq_sum {n : ℕ} (w : Fin (2 * n_aug_ + 1) → K)
    (X : Matrix (Fin n) (Fin (2 * n_aug_ + 1)) K) :
    weightedMean w X = ∑ i, w i • (fun r => X r i) := by
  unfold weightedMean
  exact foldl_finRange_eq_sum _

theorem weightedMean_apply {n : ℕ} (w : Fin (2 * n_aug_ + 1) → K)
    (X : Matrix (Fin n) (Fin (2 * n_aug_ + 1)) K) (r : Fin n) :
    weightedMean w X r = ∑ i, w i * X r i := by
  rw [weightedMean_eq_sum, Finset.sum_apply]
  simp

theorem innovationCovariance_eq_sum (w : Fin (2 * n_aug_ + 1) → K)
    (Zsig : Matrix (Fin 2) (Fin (2 * n_aug_ + 1)) K) (z_pred : Fin 2 → K)
    (R : Matrix (Fin 2) (Fin 2) K) :
    innovationCovariance w Zsig z_pred R
      = ∑ i, w i • vecMulVec (fun r => Zsig r i - z_pred r) (fun r => Zsig r i - z_pred r)
        + R := by
  unfold innovationCovariance
  rw [foldl_finRange_eq_sum]

theorem predictCovariance_eq_sum (pi : K) (fuel : ℕ) (w : Fin (2 * n_aug_ + 1) → K)
    (X : Matrix (Fin n_x_) (Fin (2 * n_aug_ + 1)) K) (x : Fin n_x_ → K)
    (nd : Fin (2 * n_aug_ + 1) → Fin n_x_ → K)
    (h : ∀ i, normalizeYaw pi fuel (fun r => X r i - x r) = some (nd i)) :
    predictCovariance pi fuel w X x = some (∑ i, w i • vecMulVec (nd i) (nd i)) := by
  unfold predictCovariance
  exact foldlM_finRange_eq_sum _ (fun i x_diff => w i • vecMulVec x_diff x_diff) nd h

theorem crossCorrelation_eq_sum (pi : K) (fuel : ℕ) (w : Fin (2 * n_aug_ + 1) → K)
    (X : Matrix (Fin n_x_) (Fin (2 * n_aug_ + 1)) K) (x : Fin n_x_ → K)
    (Zsig : Matrix (Fin 2) (Fin (2 * n_aug_ + 1)) K) (z_pred : Fin 2 → K)
    (nd : Fin (2 * n_aug_ + 1) → Fin n_x_ → K)
    (h : ∀ i, normalizeYaw pi fuel (fun r => X r i - x r) = some (nd i)) :
    crossCorrelation pi fuel w X x Zsig z_pred
      = some (∑ i, w i • vecMulVec (nd i) (fun r => Zsig r i - z_pred r)) := by
  unfold crossCorrelation
  exact foldlM_finRange_eq_sum _
    (fun i x_diff => w i • vecMulVec x_diff (fun r => Zsig r i - z_pred r)) nd h

end Loops

/-! ## The position update, `UKF::UpdateLidar` -/

section Lidar

open Real

variable {K : Type} [LinearOrderedField K]

omit [LinearOrderedField K] in
theorem measurementSigma_col (X : Matrix (Fin n_x_) (Fin (2 * n_aug_ + 1)) K)
    (i : Fin (2 * n_aug_ + 1)) :
    (fun r => measurementSigma X r i) = ![X 0 i, X 1 i] := by
  funext r
  rfl

theorem UKF.R_eq_diagonal (s : UKF K) :
    s.R = diagonal ![s.std_laspx_ ^ 2, s.std_laspy_ ^ 2] := by
  ext i j
  fin_cases i <;> fin_cases j <;> simp [UKF.R, pow_two]

theorem weightedMean_measurementSigma (s : UKF K) :
    weightedMean s.weights_ (measurementSigma s.Xsig_pred_) = spec_z_pred s := by
  rw [weightedMean_eq_sum]
  unfold spec_z_pred spec_z
  simp only [measurementSigma_col]

theorem innovationCovariance_eq_spec (s : UKF K) :
    innovationCovariance s.weights_ (measurementSigma s.Xsig_pred_)
      (weightedMean s.weights_ (measurementSigma s.Xsig_pred_)) s.R = spec_S s := by
  rw [innovationCovariance_eq_sum, weightedMean_measurementSigma, UKF.R_eq_diagonal]
  unfold spec_S spec_Pzz
  congr 1

/-- The 2x2 inverse of the code is the matrix inverse whenever the determinant is not 0. -/
theorem inverse_eq_inv (S : Matrix (Fin 2) (Fin 2) K) (h : S.det ≠ 0) :
    inverse S = some S⁻¹ := by
  have hd : S 0 0 * S 1 1 - S 0 1 * S 1 0 ≠ 0 := by
    rwa [Matrix.det_fin_two] at h
  unfold inverse
  simp only [if_neg hd, Option.some.injEq]
  rw [Matrix.inv_def, Matrix.adjugate_fin_two, Ring.inverse_eq_inv', Matrix.det_fin_two]
  ext i j
  fin_cases i <;> fin_cases j <;> simp [div_eq_inv_mul]

theorem inverse_eq_none (S : Matrix (Fin 2) (Fin 2) K) (h : S.det = 0) :
    inverse S = none := by
  have hd : S 0 0 * S 1 1 - S 0 1 * S 1 0 = 0 := by
    rwa [Matrix.det_fin_two] at h
  unfold inverse
  simp only [if_pos hd]

/-- Enough fuel normalises all fifteen yaw differences at once. -/
theorem normalizeAngle_family (d : Fin (2 * n_aug_ + 1) → ℝ) :
    ∃ N, ∃ yaw : Fin (2 * n_aug_ + 1) → ℝ,
      ∀ fuel, N ≤ fuel → ∀ i, normalizeAngle π fuel (d i) = some (yaw i) := by
  choose N yaw h using fun i => normalizeAngle_total (d i)
  refine ⟨Finset.univ.sup N, yaw, fun fuel hf i => h i fuel ?_⟩
  exact le_trans (Finset.le_sup (Finset.mem_univ i)) hf

theorem crossCorrelation_eq_spec (pi : K) (fuel : ℕ) (s : UKF K)
    (yaw : Fin (2 * n_aug_ + 1) → K)
    (hy : ∀ i, normalizeAngle pi fuel (s.Xsig_pred_ 3 i - s.x_ 3) = some (yaw i)) :
    crossCorrelation pi fuel s.weights_ s.Xsig_pred_ s.x_ (measurementSigma s.Xsig_pred_)
      (weightedMean s.weights_ (measurementSigma s.Xsig_pred_)) = some (spec_Tc s yaw) := by
  rw [crossCorrelation_eq_sum pi fuel s.weights_ s.Xsig_pred_ s.x_ _ _
    (fun i => Function.update (fun r => s.Xsig_pred_ r i - s.x_ r) 3 (yaw i))
    (fun i => by simp [normalizeYaw, hy i])]
  rw [weightedMean_measurementSigma]
  rfl

/-- What `UpdateLidar` returns once the yaw differences are normalised and `S` is
invertible. -/
theorem UpdateLidar_eq (pi : K) (fuel : ℕ) (s : UKF K) (yaw : Fin (2 * n_aug_ + 1) → K)
    (hy : ∀ i, normalizeAngle pi fuel (s.Xsig_pred_ 3 i - s.x_ 3) = some (yaw i))
    (hS : (spec_S s).det ≠ 0) (t : ℤ) (ty : SensorType) (z_px z_py : K) :
    s.UpdateLidar pi fuel ⟨t, ty, [z_px, z_py]⟩ =
      some { s with
        x_ := s.x_ + (spec_Tc s yaw * (spec_S s)⁻¹) *ᵥ (![z_px, z_py] - spec_z_pred s)
        P_ := s.P_ - (spec_Tc s yaw * (spec_S s)⁻¹) * spec_S s
                * (spec_Tc s yaw * (spec_S s)⁻¹)ᵀ } := by
  simp only [UKF.UpdateLidar]
  rw [crossCorrelation_eq_spec pi fuel s yaw hy, innovationCovariance_eq_spec,
    inverse_eq_inv _ hS, weightedMean_measurementSigma]
  rfl

theorem spec_S_ctor_zero : spec_S (UKF.ctor (0 : Matrix (Fin n_x_) (Fin (2 * n_aug_ + 1)) ℝ))
    = diagonal ![(0.15 : ℝ) ^ 2, (0.15 : ℝ) ^ 2] := by
  have hz : ∀ i, spec_z (UKF.ctor (0 : Matrix (Fin n_x_) (Fin (2 * n_aug_ + 1)) ℝ)) i = 0 := by
    intro i
    funext r
    fin_cases r <;> simp [spec_z, UKF.ctor]
  have hp : spec_z_pred (UKF.ctor (0 : Matrix (Fin n_x_) (Fin (2 * n_aug_ + 1)) ℝ)) = 0 := by
    simp [spec_z_pred, hz]
  have h0 : vecMulVec (0 : Fin 2 → ℝ) (0 : Fin 2 → ℝ) = 0 := by
    ext i j
    simp [vecMulVec]
  unfold spec_S spec_Pzz
  simp only [hz, hp]
  simp [UKF.ctor, h0]

theorem spec_S_ctor_zero_det :
    (spec_S (UKF.ctor (0 : Matrix (Fin n_x_) (Fin (2 * n_aug_ + 1)) ℝ))).det ≠ 0 := by
  rw [spec_S_ctor_zero, Matrix.det_diagonal]
  simp [Fin.prod_univ_two]
  norm_num

end Lidar

/-! ## Sigma points and `UKF::Prediction` -/

section Sigma

open Real

variable {K : Type} [LinearOrderedField K]

/-- The fifteen columns are column 0, the seven columns `i + 1` and the seven columns
`i + 1 + n_aug_`. -/
theorem sum_sigma {M : Type} [AddCommMonoid M] (f : Fin (2 * n_aug_ + 1) → M) :
    ∑ i, f i = f 0 + ∑ j, f (colPlus j) + ∑ j, f (colMinus j) := by
  have h1 : ∑ i, f i = f 0 + ∑ i : Fin (7 + 7), f i.succ := Fin.sum_univ_succ f
  have h2 : ∑ i : Fin (7 + 7), f i.succ
      = ∑ j : Fin 7, f (Fin.castAdd 7 j).succ + ∑ j : Fin 7, f (Fin.natAdd 7 j).succ :=
    Fin.sum_univ_add _
  have h3 : ∀ j : Fin 7, (Fin.castAdd 7 j).succ = colPlus j := fun j => by
    apply Fin.ext
    simp [colPlus]
  have h4 : ∀ j : Fin 7, (Fin.natAdd 7 j).succ = colMinus j := fun j => by
    apply Fin.ext
    simp only [colMinus, Fin.val_succ, Fin.coe_natAdd, n_aug_]
    omega
  rw [h1, h2, add_assoc]
  simp only [h3, h4]

theorem Xsig_aug_zero (sqrt : K → K)
    (llt : Matrix (Fin n_aug_) (Fin n_aug_) K → Matrix (Fin n_aug_) (Fin n_aug_) K)
    (s : UKF K) (r : Fin n_aug_) : s.Xsig_aug sqrt llt r 0 = s.x_aug r := by
  simp [UKF.Xsig_aug]

theorem Xsig_aug_plus (sqrt : K → K)
    (llt : Matrix (Fin n_aug_) (Fin n_aug_) K → Matrix (Fin n_aug_) (Fin n_aug_) K)
    (s : UKF K) (r j : Fin n_aug_) :
    s.Xsig_aug sqrt llt r (colPlus j)
      = s.x_aug r + sqrt (s.lambda_ + (n_aug_ : K)) * llt s.P_aug r j := by
  have h : (colPlus j).val - 1 < n_aug_ := by simp [colPlus]
  simp only [UKF.Xsig_aug, dif_pos h]
  simp [colPlus]

theorem Xsig_aug_minus (sqrt : K → K)
    (llt : Matrix (Fin n_aug_) (Fin n_aug_) K → Matrix (Fin n_aug_) (Fin n_aug_) K)
    (s : UKF K) (r j : Fin n_aug_) :
    s.Xsig_aug sqrt llt r (colMinus j)
      = s.x_aug r - sqrt (s.lambda_ + (n_aug_ : K)) * llt s.P_aug r j := by
  have h : ¬ (colMinus j).val - 1 < n_aug_ := by
    simp only [colMinus, n_aug_]
    omega
  have h0 : ¬ (colMinus j).val = 0 := by simp [colMinus]
  have h1 : (⟨(colMinus j).val - 1 - n_aug_, by
      have := (colMinus j).isLt; simp only [n_aug_] at this ⊢; omega⟩ : Fin n_aug_) = j := by
    apply Fin.ext
    simp only [colMinus, n_aug_]
    omega
  simp only [UKF.Xsig_aug, dif_neg h, if_neg h0, h1]

theorem x_aug_head (s : UKF K) (r : Fin n_x_) : s.x_aug (headIdx r) = s.x_ r := by
  simp [UKF.x_aug, headIdx]

theorem P_aug_head (s : UKF K) (a b : Fin n_x_) :
    s.P_aug (headIdx a) (headIdx b) = s.P_ a b := by
  simp [UKF.P_aug, headIdx]

theorem ctorWeights_zero : setWeights n_aug_ (3 - (n_aug_ : K)) 0 = -4 / 3 := by
  simp [setWeights]
  norm_num

theorem ctorWeights_plus (j : Fin n_aug_) :
    setWeights n_aug_ (3 - (n_aug_ : K)) (colPlus j) = 1 / 6 := by
  simp [setWeights, colPlus]
  norm_num

theorem ctorWeights_minus (j : Fin n_aug_) :
    setWeights n_aug_ (3 - (n_aug_ : K)) (colMinus j) = 1 / 6 := by
  simp [setWeights, colMinus]
  norm_num

theorem ofState_weights (x : Fin n_x_ → K) (P : Matrix (Fin n_x_) (Fin n_x_) K)
    (X : Matrix (Fin n_x_) (Fin (2 * n_aug_ + 1)) K) :
    (UKF.ofState x P X).weights_ = setWeights n_aug_ (3 - (n_aug_ : K)) := rfl

theorem ofState_lambda (x : Fin n_x_ → K) (P : Matrix (Fin n_x_) (Fin n_x_) K)
    (X : Matrix (Fin n_x_) (Fin (2 * n_aug_ + 1)) K) :
    (UKF.ofState x P X).lambda_ + (n_aug_ : K) = 3 := by
  simp [UKF.ofState, UKF.ctor]

/-- With `delta_t = 0` the process model returns the first five components unchanged. -/
theorem predictSigmaPoint_zero (sin cos : K → K) (xa : Fin n_aug_ → K) (r : Fin n_x_) :
    predictSigmaPoint sin cos 0 xa r = xa (headIdx r) := by
  unfold predictSigmaPoint
  split_ifs <;> fin_cases r <;> simp [headIdx] <;> rfl

theorem predictSigmaPoints_zero (sqrt sin cos : K → K)
    (llt : Matrix (Fin n_aug_) (Fin n_aug_) K → Matrix (Fin n_aug_) (Fin n_aug_) K)
    (s : UKF K) (r : Fin n_x_) (i : Fin (2 * n_aug_ + 1)) :
    s.predictSigmaPoints sqrt sin cos llt 0 r i = s.Xsig_aug sqrt llt (headIdx r) i := by
  unfold UKF.predictSigmaPoints
  exact predictSigmaPoint_zero sin cos _ r

/-- What `Prediction` returns once the fifteen yaw differences are normalised. -/
theorem Prediction_eq (pi : K) (sqrt sin cos : K → K)
    (llt : Matrix (Fin n_aug_) (Fin n_aug_) K → Matrix (Fin n_aug_) (Fin n_aug_) K)
    (fuel : ℕ) (s : UKF K) (delta_t : K) (yaw : Fin (2 * n_aug_ + 1) → K)
    (hy : ∀ i, normalizeAngle pi fuel
      (s.predictSigmaPoints sqrt sin cos llt delta_t 3 i
        - weightedMean s.weights_ (s.predictSigmaPoints sqrt sin cos llt delta_t) 3)
      = some (yaw i)) :
    s.Prediction pi sqrt sin cos llt fuel delta_t =
      some { s with
        x_ := weightedMean s.weights_ (s.predictSigmaPoints sqrt sin cos llt delta_t)
        P_ := spec_P s.weights_ (s.predictSigmaPoints sqrt sin cos llt delta_t)
          (weightedMean s.weights_ (s.predictSigmaPoints sqrt sin cos llt delta_t)) yaw
        Xsig_pred_ := s.predictSigmaPoints sqrt sin cos llt delta_t } := by
  simp only [UKF.Prediction]
  rw [predictCovariance_eq_sum pi fuel s.weights_ _ _
    (fun i => Function.update (fun r => s.predictSigmaPoints sqrt sin cos llt delta_t r i
      - weightedMean s.weights_ (s.predictSigmaPoints sqrt sin cos llt delta_t) r) 3 (yaw i))
    (fun i => by simp [normalizeYaw, hy i])]
  rfl

/-- If `Prediction` returns, the yaw differences were normalised and the result is the one
of `Prediction_eq`. -/
theorem Prediction_some (pi : K) (sqrt sin cos : K → K)
    (llt : Matrix (Fin n_aug_) (Fin n_aug_) K → Matrix (Fin n_aug_) (Fin n_aug_) K)
    (fuel : ℕ) (s s' : UKF K) (delta_t : K)
    (h : s.Prediction pi sqrt sin cos llt fuel delta_t = some s') :
    ∃ yaw : Fin (2 * n_aug_ + 1) → K,
      (∀ i, normalizeAngle pi fuel
        (s.predictSigmaPoints sqrt sin cos llt delta_t 3 i
          - weightedMean s.weights_ (s.predictSigmaPoints sqrt sin cos llt delta_t) 3)
        = some (yaw i)) ∧
      s' = { s with
        x_ := weightedMean s.weights_ (s.predictSigmaPoints sqrt sin cos llt delta_t)
        P_ := spec_P s.weights_ (s.predictSigmaPoints sqrt sin cos llt delta_t)
          (weightedMean s.weights_ (s.predictSigmaPoints sqrt sin cos llt delta_t)) yaw
        Xsig_pred_ := s.predictSigmaPoints sqrt sin cos llt delta_t } := by
  have h' := h
  simp only [UKF.Prediction, Option.map_eq_some'] at h'
  obtain ⟨P, hP, -⟩ := h'
  unfold predictCovariance at hP
  obtain ⟨nd, hnd⟩ := foldlM_finRange_isSome _ _ _ hP
  have hyaw : ∀ i, ∃ a, normalizeAngle pi fuel
      (s.predictSigmaPoints sqrt sin cos llt delta_t 3 i
        - weightedMean s.weights_ (s.predictSigmaPoints sqrt sin cos llt delta_t) 3)
      = some a := by
    intro i
    have := hnd i
    simp only [normalizeYaw, Option.map_eq_some'] at this
    obtain ⟨a, ha, -⟩ := this
    exact ⟨a, ha⟩
  choose yaw hy using hyaw
  refine ⟨yaw, hy, ?_⟩
  have := Prediction_eq pi sqrt sin cos llt fuel s delta_t yaw hy
  rw [h] at this
  exact Option.some.inj this

/-- Over the reals enough fuel normalises the fifteen yaw differences of `Prediction`. -/
theorem Prediction_returns (sqrt sin cos : ℝ → ℝ)
    (llt : Matrix (Fin n_aug_) (Fin n_aug_) ℝ → Matrix (Fin n_aug_) (Fin n_aug_) ℝ)
    (s : UKF ℝ) (delta_t : ℝ) :
    ∃ N, ∃ yaw : Fin (2 * n_aug_ + 1) → ℝ, ∀ fuel, N ≤ fuel →
      s.Prediction π sqrt sin cos llt fuel delta_t =
        some { s with
          x_ := weightedMean s.weights_ (s.predictSigmaPoints sqrt sin cos llt delta_t)
          P_ := spec_P s.weights_ (s.predictSigmaPoints sqrt sin cos llt delta_t)
            (weightedMean s.weights_ (s.predictSigmaPoints sqrt sin cos llt delta_t)) yaw
          Xsig_pred_ := s.predictSigmaPoints sqrt sin cos llt delta_t } := by
  obtain ⟨N, yaw, h⟩ := normalizeAngle_family (fun i =>
    s.predictSigmaPoints sqrt sin cos llt delta_t 3 i
      - weightedMean s.weights_ (s.predictSigmaPoints sqrt sin cos llt delta_t) 3)
  exact ⟨N, yaw, fun fuel hf => Prediction_eq π sqrt sin cos llt fuel s delta_t yaw (h fuel hf)⟩

/-- The mean of the sigma points of a constructor-configured filter at `delta_t = 0`. -/
theorem weightedMean_zero (sqrt sin cos : K → K)
    (llt : Matrix (Fin n_aug_) (Fin n_aug_) K → Matrix (Fin n_aug_) (Fin n_aug_) K)
    (x : Fin n_x_ → K) (P : Matrix (Fin n_x_) (Fin n_x_) K)
    (X : Matrix (Fin n_x_) (Fin (2 * n_aug_ + 1)) K) :
    weightedMean (UKF.ofState x P X).weights_
      ((UKF.ofState x P X).predictSigmaPoints sqrt sin cos llt 0) = x := by
  funext r
  rw [weightedMean_apply, sum_sigma]
  simp only [ofState_weights, ctorWeights_zero, ctorWeights_plus, ctorWeights_minus,
    predictSigmaPoints_zero, Xsig_aug_zero, Xsig_aug_plus, Xsig_aug_minus, x_aug_head]
  rw [add_assoc, ← Finset.sum_add_distrib]
  have hx : (UKF.ofState x P X).x_ r = x r := rfl
  have : ∀ j : Fin n_aug_,
      1 / 6 * ((UKF.ofState x P X).x_ r
          + sqrt ((UKF.ofState x P X).lambda_ + (n_aug_ : K))
            * llt (UKF.ofState x P X).P_aug (headIdx r) j)
        + 1 / 6 * ((UKF.ofState x P X).x_ r
          - sqrt ((UKF.ofState x P X).lambda_ + (n_aug_ : K))
            * llt (UKF.ofState x P X).P_aug (headIdx r) j)
      = x r / 3 := by
    intro j
    rw [hx]
    ring
  rw [Finset.sum_congr rfl (fun j _ => this j), hx, Finset.sum_const, Finset.card_univ,
    Fintype.card_fin, nsmul_eq_mul]
  push_cast
  ring

/-- C3: for every mean `x_` and covariance `P_` (symmetric positive definite or not) and
every Cholesky routine, `Prediction(0)` returns, given enough fuel, with `x_` equal to the
input mean, and column `i` of `Xsig_pred_` equal to the first five components of augmented
sigma point `i`. -/
theorem Prediction_zero_mean
    (llt : Matrix (Fin n_aug_) (Fin n_aug_) ℝ → Matrix (Fin n_aug_) (Fin n_aug_) ℝ)
    (x : Fin n_x_ → ℝ) (P : Matrix (Fin n_x_) (Fin n_x_) ℝ)
    (X : Matrix (Fin n_x_) (Fin (2 * n_aug_ + 1)) ℝ) :
    EventuallyReturns
      (fun fuel => (UKF.ofState x P X).Prediction π Real.sqrt Real.sin Real.cos llt fuel 0)
      (fun s' => s'.x_ = x ∧
        ∀ r i, s'.Xsig_pred_ r i
          = (UKF.ofState x P X).Xsig_aug Real.sqrt llt (headIdx r) i) := by
  obtain ⟨N, yaw, h⟩ :=
    Prediction_returns Real.sqrt Real.sin Real.cos llt (UKF.ofState x P X) 0
  refine ⟨N, fun fuel hf => ⟨_, h fuel hf, ?_, ?_⟩⟩
  · exact weightedMean_zero Real.sqrt Real.sin Real.cos llt x P X
  · intro r i
    exact predictSigmaPoints_zero Real.sqrt Real.sin Real.cos llt _ r i

end Sigma

/-! ## The weights -/

section Weights

open Real

theorem setWeights_sum {K : Type} [LinearOrderedField K] (n_aug : ℕ) (lambda : K)
    (h : lambda + (n_aug : K) ≠ 0) : ∑ i, setWeights n_aug lambda i = 1 := by
  rw [Fin.sum_univ_succ]
  simp only [setWeights, Fin.val_zero, if_true, Fin.val_succ, Nat.succ_ne_zero, if_false,
    Finset.sum_const, Finset.card_univ, Fintype.card_fin, nsmul_eq_mul]
  push_cast
  field_simp
  ring

/-- C4: for every augmented dimension `n_aug ≥ 1` and spread `lambda` with
`lambda + n_aug ≠ 0` the weights `lambda/(lambda+n_aug)`, `0.5/(lambda+n_aug)` (`2*n_aug`
times) sum to 1; the constructor's fifteen weights are `-4/3` and fourteen times `1/6`, and
sum to 1. -/
theorem weights_sum_to_one (n_aug : ℕ) (lambda : ℝ) (_hn : 1 ≤ n_aug)
    (h : lambda + (n_aug : ℝ) ≠ 0) :
    (setWeights n_aug lambda 0 = lambda / (lambda + n_aug) ∧
      (∀ i, i ≠ 0 → setWeights n_aug lambda i = 0.5 / (lambda + n_aug)) ∧
      ∑ i, setWeights n_aug lambda i = 1) ∧
    ∀ X : Matrix (Fin n_x_) (Fin (2 * n_aug_ + 1)) ℝ,
      (UKF.ctor X).lambda_ = 3 - 7 ∧
      (UKF.ctor X).weights_ 0 = -4 / 3 ∧
      (∀ i, i ≠ 0 → (UKF.ctor X).weights_ i = 1 / 6) ∧
      ∑ i, (UKF.ctor X).weights_ i = 1 := by
  refine ⟨⟨by simp [setWeights], ?_, setWeights_sum n_aug lambda h⟩, fun X => ⟨?_, ?_, ?_, ?_⟩⟩
  · intro i hi
    have : i.val ≠ 0 := fun h0 => hi (Fin.ext h0)
    simp [setWeights, this]
  · simp [UKF.ctor]
  · exact ctorWeights_zero
  · intro i hi
    have : i.val ≠ 0 := fun h0 => hi (Fin.ext h0)
    simp [UKF.ctor, setWeights, this]
    norm_num
  · exact setWeights_sum n_aug_ _ (by norm_num)

/-- Witness for C4: the constructor's `n_aug = 7`, `lambda = -4`. -/
theorem weights_sum_to_one_witness :
    (1 ≤ 7 ∧ (-4 : ℝ) + ((7 : ℕ) : ℝ) ≠ 0) ∧ ∑ i, setWeights 7 (-4 : ℝ) i = 1 :=
  ⟨⟨by norm_num, by norm_num⟩,
    (weights_sum_to_one 7 (-4) (by norm_num) (by norm_num)).1.2.2⟩

end Weights

/-! ## The range of the normalisation loops -/

section AngleRange

open Real

/-- C5 (the code at the failing input): on the angle difference `-π` neither loop runs,
whatever the fuel, so the value returned is `-π`, which is not in `(-π, π]`. -/
theorem normalizeAngle_neg_pi (fuel : ℕ) :
    normalizeAngle π fuel (-π) = some (-π) ∧ (-π) ∉ Set.Ioc (-π) π := by
  refine ⟨normalizeAngle_of_mem fuel le_rfl (by linarith [pi_pos]), ?_⟩
  simp

/-- The example of the specification: `3.5` is normalised to `3.5 - 2π`. -/
theorem normalizeAngle_three_and_a_half (fuel : ℕ) (hf : 1 ≤ fuel) :
    normalizeAngle π fuel 3.5 = some (3.5 - 2 * π) := by
  obtain ⟨f, rfl⟩ : ∃ f, fuel = f + 1 := ⟨fuel - 1, by omega⟩
  have h1 : (3.5 : ℝ) > π := by
    have := pi_lt_d2
    norm_num at this ⊢
    linarith
  have h2 : (3.5 : ℝ) - 2 * π ≤ π := by
    have := pi_gt_three
    norm_num
    linarith
  have h3 : -π ≤ (3.5 : ℝ) - 2 * π := by
    have := pi_lt_d2
    norm_num at this ⊢
    linarith
  simp only [normalizeAngle, whileSub, if_pos h1, whileSub_of_le f h2, Option.some_bind,
    whileAdd_of_le (f + 1) h3]

end AngleRange

/-! ## The covariance round trip at `delta_t = 0` -/

section RoundTrip

open Real

theorem sigma_cases (i : Fin (2 * n_aug_ + 1)) :
    i = 0 ∨ (∃ j, i = colPlus j) ∨ (∃ j, i = colMinus j) := by
  have hi := i.isLt
  simp only [n_aug_] at hi
  by_cases h0 : i.val = 0
  · exact Or.inl (Fin.ext h0)
  · by_cases h1 : i.val ≤ 7
    · refine Or.inr (Or.inl ⟨⟨i.val - 1, by simp only [n_aug_]; omega⟩, Fin.ext ?_⟩)
      simp only [colPlus]
      omega
    · refine Or.inr (Or.inr ⟨⟨i.val - 8, by simp only [n_aug_]; omega⟩, Fin.ext ?_⟩)
      simp only [colMinus, n_aug_]
      omega

theorem sqrt_three_mul_self : Real.sqrt 3 * Real.sqrt 3 = 3 :=
  Real.mul_self_sqrt (by norm_num)

theorem sqrt_three_lt_two : Real.sqrt 3 < 2 := by
  rw [Real.sqrt_lt' (by norm_num)]
  norm_num

theorem spec_P_apply {K : Type} [LinearOrderedField K] (w : Fin (2 * n_aug_ + 1) → K)
    (X : Matrix (Fin n_x_) (Fin (2 * n_aug_ + 1)) K)
    (x : Fin n_x_ → K) (yaw : Fin (2 * n_aug_ + 1) → K) (a b : Fin n_x_) :
    spec_P w X x yaw a b
      = ∑ i, w i * (Function.update (fun r => X r i - x r) 3 (yaw i) a
          * Function.update (fun r => X r i - x r) 3 (yaw i) b) := by
  unfold spec_P
  rw [Matrix.sum_apply]
  simp [vecMulVec]

/-- The yaw variance that `Prediction` leaves is at most `7π²/3`: the normalised yaw
differences lie in `[-π, π]` and the only weight above `1/6` is negative. -/
theorem Prediction_yaw_variance_le (sqrt sin cos : ℝ → ℝ)
    (llt : Matrix (Fin n_aug_) (Fin n_aug_) ℝ → Matrix (Fin n_aug_) (Fin n_aug_) ℝ)
    (x : Fin n_x_ → ℝ) (P : Matrix (Fin n_x_) (Fin n_x_) ℝ)
    (X : Matrix (Fin n_x_) (Fin (2 * n_aug_ + 1)) ℝ) (delta_t : ℝ) (fuel : ℕ) (s' : UKF ℝ)
    (h : (UKF.ofState x P X).Prediction π sqrt sin cos llt fuel delta_t = some s') :
    s'.P_ 3 3 ≤ 7 / 3 * π ^ 2 := by
  obtain ⟨yaw, hy, rfl⟩ := Prediction_some _ _ _ _ _ _ _ _ _ h
  have hb : ∀ i, yaw i * yaw i ≤ π ^ 2 := by
    intro i
    have := normalizeAngle_bounds (hy i)
    nlinarith [this.1, this.2]
  have h0 : 0 ≤ yaw 0 * yaw 0 := mul_self_nonneg _
  simp only [spec_P_apply, Function.update_same]
  rw [sum_sigma]
  simp only [ofState_weights, ctorWeights_zero, ctorWeights_plus, ctorWeights_minus]
  have h1 : ∑ j : Fin n_aug_, (1 / 6 : ℝ) * (yaw (colPlus j) * yaw (colPlus j))
      ≤ ∑ _j : Fin n_aug_, (1 / 6 : ℝ) * π ^ 2 :=
    Finset.sum_le_sum (fun j _ => by have := hb (colPlus j); linarith)
  have h2 : ∑ j : Fin n_aug_, (1 / 6 : ℝ) * (yaw (colMinus j) * yaw (colMinus j))
      ≤ ∑ _j : Fin n_aug_, (1 / 6 : ℝ) * π ^ 2 :=
    Finset.sum_le_sum (fun j _ => by have := hb (colMinus j); linarith)
  rw [Finset.sum_const, Finset.card_univ, Fintype.card_fin, nsmul_eq_mul] at h1 h2
  push_cast at h1 h2
  linarith

theorem roundTripCov_posDef : (roundTripCov : Matrix (Fin n_x_) (Fin n_x_) ℝ).PosDef := by
  unfold roundTripCov
  apply Matrix.PosDef.diagonal
  intro i
  fin_cases i <;> simp

/-- C2 (counterexample): with mean `0` and the symmetric positive-definite covariance
`diag(1, 1, 1, 25, 1)`, whatever factor the Cholesky routine returns, `Prediction(0)`
returns, given enough fuel, a covariance whose heading variance is below `25`, so not the
input covariance. -/
theorem Prediction_zero_covariance_counterexample :
    (roundTripCov : Matrix (Fin n_x_) (Fin n_x_) ℝ).PosDef ∧
    ∀ llt : Matrix (Fin n_aug_) (Fin n_aug_) ℝ → Matrix (Fin n_aug_) (Fin n_aug_) ℝ,
      EventuallyReturns
        (fun fuel => (UKF.ofState 0 roundTripCov 0).Prediction π Real.sqrt Real.sin Real.cos
          llt fuel 0)
        (fun s' => s'.P_ 3 3 < 25 ∧ s'.P_ ≠ roundTripCov) := by
  refine ⟨roundTripCov_posDef, fun llt => ?_⟩
  obtain ⟨N, yaw, h⟩ :=
    Prediction_returns Real.sqrt Real.sin Real.cos llt (UKF.ofState 0 roundTripCov 0) 0
  refine ⟨N, fun fuel hf => ⟨_, h fuel hf, ?_⟩⟩
  have hle := Prediction_yaw_variance_le Real.sqrt Real.sin Real.cos llt 0 roundTripCov 0 0
    fuel _ (h fuel hf)
  have hpi : π ^ 2 < 10 := by nlinarith [pi_lt_d2, pi_gt_three]
  have hlt : ∀ v : ℝ, v ≤ 7 / 3 * π ^ 2 → v < 25 := fun v hv => by linarith
  refine ⟨hlt _ hle, fun heq => ?_⟩
  have h25 : (roundTripCov : Matrix (Fin n_x_) (Fin n_x_) ℝ) 3 3 = 25 := by
    simp [roundTripCov]
  have := hlt _ hle
  rw [heq, h25] at this
  exact lt_irrefl _ this

/-- The differences between the sigma points at `delta_t = 0` and the mean. -/
theorem predictSigmaPoints_zero_diff (sin cos : ℝ → ℝ)
    (llt : Matrix (Fin n_aug_) (Fin n_aug_) ℝ → Matrix (Fin n_aug_) (Fin n_aug_) ℝ)
    (x : Fin n_x_ → ℝ) (P : Matrix (Fin n_x_) (Fin n_x_) ℝ)
    (X : Matrix (Fin n_x_) (Fin (2 * n_aug_ + 1)) ℝ) (r : Fin n_x_) :
    (UKF.ofState x P X).predictSigmaPoints Real.sqrt sin cos llt 0 r 0 - x r = 0 ∧
    (∀ j, (UKF.ofState x P X).predictSigmaPoints Real.sqrt sin cos llt 0 r (colPlus j) - x r
      = Real.sqrt 3 * llt (UKF.ofState x P X).P_aug (headIdx r) j) ∧
    (∀ j, (UKF.ofState x P X).predictSigmaPoints Real.sqrt sin cos llt 0 r (colMinus j) - x r
      = -(Real.sqrt 3 * llt (UKF.ofState x P X).P_aug (headIdx r) j)) := by
  have hx : (UKF.ofState x P X).x_ r = x r := rfl
  refine ⟨?_, fun j => ?_, fun j => ?_⟩
  · rw [predictSigmaPoints_zero, Xsig_aug_zero, x_aug_head, hx, sub_self]
  · rw [predictSigmaPoints_zero, Xsig_aug_plus, x_aug_head, hx, ofState_lambda]
    ring
  · rw [predictSigmaPoints_zero, Xsig_aug_minus, x_aug_head, hx, ofState_lambda]
    ring

/-- C2 (amended): when the factor `A` returned by the Cholesky routine satisfies
`A A^T = P_aug` and no sigma point is more than `π` away from the mean in heading
(`|sqrt 3 * A(3, j)| ≤ π` for every column `j`), `Prediction(0)` returns, for every amount
of fuel, and leaves `P_` equal to the input covariance. -/
theorem Prediction_zero_covariance
    (llt : Matrix (Fin n_aug_) (Fin n_aug_) ℝ → Matrix (Fin n_aug_) (Fin n_aug_) ℝ)
    (x : Fin n_x_ → ℝ) (P : Matrix (Fin n_x_) (Fin n_x_) ℝ)
    (X : Matrix (Fin n_x_) (Fin (2 * n_aug_ + 1)) ℝ)
    (hA : llt (UKF.ofState x P X).P_aug * (llt (UKF.ofState x P X).P_aug)ᵀ
      = (UKF.ofState x P X).P_aug)
    (hyaw : ∀ j, |Real.sqrt 3 * llt (UKF.ofState x P X).P_aug 3 j| ≤ π) (fuel : ℕ) :
    ∃ s', (UKF.ofState x P X).Prediction π Real.sqrt Real.sin Real.cos llt fuel 0 = some s' ∧
      s'.P_ = P := by
  have hm := weightedMean_zero Real.sqrt Real.sin Real.cos llt x P X
  have hd := predictSigmaPoints_zero_diff Real.sin Real.cos llt x P X
  have h3 : headIdx 3 = (3 : Fin n_aug_) := rfl
  have hy : ∀ i, normalizeAngle π fuel
      ((UKF.ofState x P X).predictSigmaPoints Real.sqrt Real.sin Real.cos llt 0 3 i
        - weightedMean (UKF.ofState x P X).weights_
            ((UKF.ofState x P X).predictSigmaPoints Real.sqrt Real.sin Real.cos llt 0) 3)
      = some ((UKF.ofState x P X).predictSigmaPoints Real.sqrt Real.sin Real.cos llt 0 3 i
        - x 3) := by
    intro i
    rw [hm]
    rcases sigma_cases i with rfl | ⟨j, rfl⟩ | ⟨j, rfl⟩
    · rw [(hd 3).1]
      exact normalizeAngle_of_mem fuel (by linarith [pi_pos]) (by linarith [pi_pos])
    · rw [(hd 3).2.1 j, h3]
      have := abs_le.mp (hyaw j)
      exact normalizeAngle_of_mem fuel this.1 this.2
    · rw [(hd 3).2.2 j, h3]
      have := abs_le.mp (hyaw j)
      exact normalizeAngle_of_mem fuel (by linarith [this.2]) (by linarith [this.1])
  refine ⟨_, Prediction_eq π Real.sqrt Real.sin Real.cos llt fuel _ 0 _ hy, ?_⟩
  ext a b
  simp only [spec_P_apply, hm, Function.update_eq_self]
  rw [sum_sigma]
  simp only [ofState_weights, ctorWeights_zero, ctorWeights_plus, ctorWeights_minus,
    (hd a).1, (hd b).1, (hd a).2.1, (hd b).2.1, (hd a).2.2, (hd b).2.2]
  have hP : P a b = (UKF.ofState x P X).P_aug (headIdx a) (headIdx b) :=
    (P_aug_head (UKF.ofState x P X) a b).symm
  have hAab := congrFun (congrFun hA (headIdx a)) (headIdx b)
  rw [hP, ← hAab, Matrix.mul_apply, add_assoc, ← Finset.sum_add_distrib, mul_zero, mul_zero,
    zero_add]
  refine Finset.sum_congr rfl (fun j _ => ?_)
  rw [Matrix.transpose_apply]
  linear_combination
    (1 / 3 * llt (UKF.ofState x P X).P_aug (headIdx a) j
      * llt (UKF.ofState x P X).P_aug (headIdx b) j) * sqrt_three_mul_self

/-- The augmented covariance of a filter with identity covariance is
`diag(1, 1, 1, 1, 1, 900, 900)`, the square of `ctorCholesky`. -/
theorem ctorCholesky_mul_transpose (x : Fin n_x_ → ℝ)
    (X : Matrix (Fin n_x_) (Fin (2 * n_aug_ + 1)) ℝ) :
    (ctorCholesky : Matrix (Fin n_aug_) (Fin n_aug_) ℝ) * ctorCholeskyᵀ
      = (UKF.ofState x 1 X).P_aug := by
  ext i j
  rw [Matrix.mul_apply]
  simp only [Matrix.transpose_apply, ctorCholesky]
  fin_cases i <;> fin_cases j <;>
    simp [Fin.sum_univ_succ, UKF.P_aug, UKF.ofState, UKF.ctor, Matrix.one_apply,
      Fin.ext_iff] <;>
    norm_num

theorem ctorCholesky_yaw (j : Fin n_aug_) :
    |Real.sqrt 3 * (ctorCholesky : Matrix (Fin n_aug_) (Fin n_aug_) ℝ) 3 j| ≤ π := by
  have h2 := sqrt_three_lt_two
  have h0 := Real.sqrt_nonneg 3
  have h3 := pi_gt_three
  unfold ctorCholesky
  by_cases h : (3 : Fin n_aug_) = j
  · subst h
    have h5 : ((3 : Fin n_aug_) : ℕ) < n_x_ := by decide
    simp only [if_true, if_pos h5, mul_one]
    rw [abs_of_nonneg h0]
    linarith
  · simp only [if_neg h, mul_zero, abs_zero]
    linarith

/-- Witness for C2 (amended): mean `0`, identity covariance, whose augmented covariance has
the factor `diag(1, 1, 1, 1, 1, 30, 30)`. -/
theorem Prediction_zero_covariance_witness :
    ((ctorCholesky : Matrix (Fin n_aug_) (Fin n_aug_) ℝ) * ctorCholeskyᵀ
        = (UKF.ofState 0 1 0).P_aug ∧
      ∀ j, |Real.sqrt 3 * (ctorCholesky : Matrix (Fin n_aug_) (Fin n_aug_) ℝ) 3 j| ≤ π) ∧
    ∃ s', (UKF.ofState 0 1 0).Prediction π Real.sqrt Real.sin Real.cos
        (fun _ => ctorCholesky) 0 0 = some s' ∧ s'.P_ = 1 :=
  ⟨⟨ctorCholesky_mul_transpose 0 0, ctorCholesky_yaw⟩,
    Prediction_zero_covariance (fun _ => ctorCholesky) 0 1 0
      (ctorCholesky_mul_transpose 0 0) ctorCholesky_yaw 0⟩

end RoundTrip

/-! ## Symmetry of the covariance -/

section Symmetry

open Real

variable {K : Type} [LinearOrderedField K]

theorem spec_P_isSymm (w : Fin (2 * n_aug_ + 1) → K)
    (X : Matrix (Fin n_x_) (Fin (2 * n_aug_ + 1)) K)
    (x : Fin n_x_ → K) (yaw : Fin (2 * n_aug_ + 1) → K) : (spec_P w X x yaw).IsSymm := by
  ext a b
  rw [Matrix.transpose_apply, spec_P_apply, spec_P_apply]
  exact Finset.sum_congr rfl (fun i _ => by ring)

theorem spec_Pzz_isSymm (s : UKF K) : (spec_Pzz s).IsSymm := by
  ext a b
  unfold spec_Pzz
  rw [Matrix.transpose_apply, Matrix.sum_apply, Matrix.sum_apply]
  refine Finset.sum_congr rfl (fun i _ => ?_)
  simp only [Matrix.smul_apply, vecMulVec_apply, smul_eq_mul]
  ring

theorem spec_S_isSymm (s : UKF K) : (spec_S s).IsSymm := by
  unfold spec_S
  exact (spec_Pzz_isSymm s).add (Matrix.isSymm_diagonal _)

/-- The covariance update `P - K S K^T` keeps a symmetric `P` symmetric. -/
theorem update_isSymm (s : UKF K) (Kg : Matrix (Fin n_x_) (Fin 2) K) (hP : s.P_.IsSymm) :
    (s.P_ - Kg * spec_S s * Kgᵀ).IsSymm := by
  apply Matrix.IsSymm.sub hP
  unfold Matrix.IsSymm
  rw [Matrix.transpose_mul, Matrix.transpose_mul, Matrix.transpose_transpose,
    (spec_S_isSymm s).eq, Matrix.mul_assoc]

/-- If `UpdateLidar` returns, the measurement had two entries, the yaw differences were
normalised, `S` is invertible and the result is the one of `UpdateLidar_eq`. -/
theorem UpdateLidar_some (pi : K) (fuel : ℕ) (s s' : UKF K) (m : MeasurementPackage K)
    (h : s.UpdateLidar pi fuel m = some s') :
    ∃ z_px z_py, m.raw_measurements_ = [z_px, z_py] ∧
    ∃ yaw : Fin (2 * n_aug_ + 1) → K,
      (∀ i, normalizeAngle pi fuel (s.Xsig_pred_ 3 i - s.x_ 3) = some (yaw i)) ∧
      (spec_S s).det ≠ 0 ∧
      s' = { s with
        x_ := s.x_ + (spec_Tc s yaw * (spec_S s)⁻¹) *ᵥ (![z_px, z_py] - spec_z_pred s)
        P_ := s.P_ - (spec_Tc s yaw * (spec_S s)⁻¹) * spec_S s
                * (spec_Tc s yaw * (spec_S s)⁻¹)ᵀ } := by
  obtain ⟨t, ty, raw⟩ := m
  match raw, h with
  | [z_px, z_py], h =>
    refine ⟨z_px, z_py, rfl, ?_⟩
    have h' := h
    simp only [UKF.UpdateLidar, Option.bind_eq_some, Option.map_eq_some'] at h'
    obtain ⟨Tc, hTc, Sinv, hSinv, -⟩ := h'
    unfold crossCorrelation at hTc
    obtain ⟨nd, hnd⟩ := foldlM_finRange_isSome _ _ _ hTc
    have hyaw : ∀ i, ∃ a, normalizeAngle pi fuel (s.Xsig_pred_ 3 i - s.x_ 3) = some a := by
      intro i
      have := hnd i
      simp only [normalizeYaw, Option.map_eq_some'] at this
      obtain ⟨a, ha, -⟩ := this
      exact ⟨a, ha⟩
    choose yaw hy using hyaw
    have hdet : (spec_S s).det ≠ 0 := by
      intro h0
      rw [innovationCovariance_eq_spec, inverse_eq_none _ h0] at hSinv
      exact Option.noConfusion hSinv
    refine ⟨yaw, hy, hdet, ?_⟩
    have := UpdateLidar_eq pi fuel s yaw hy hdet t ty z_px z_py
    rw [h] at this
    exact Option.some.inj this

/-- C7: the covariance left by `Prediction` is symmetric for every input (it returns given
enough fuel, and whenever it returns), and for every state with symmetric `P_` and
invertible `S` the covariance `P_ - K S K^T` left by `UpdateLidar` is symmetric. -/
theorem covariance_stays_symmetric
    (llt : Matrix (Fin n_aug_) (Fin n_aug_) ℝ → Matrix (Fin n_aug_) (Fin n_aug_) ℝ)
    (s₁ : UKF ℝ) (delta_t : ℝ) (s₂ : UKF ℝ) (t : ℤ) (ty : SensorType) (z_px z_py : ℝ)
    (hP : s₂.P_.IsSymm) (hS : (spec_S s₂).det ≠ 0) :
    (EventuallyReturns
        (fun fuel => s₁.Prediction π Real.sqrt Real.sin Real.cos llt fuel delta_t)
        (fun s' => s'.P_.IsSymm) ∧
      ∀ fuel s', s₁.Prediction π Real.sqrt Real.sin Real.cos llt fuel delta_t = some s' →
        s'.P_.IsSymm) ∧
    (EventuallyReturns (fun fuel => s₂.UpdateLidar π fuel ⟨t, ty, [z_px, z_py]⟩)
        (fun s' => s'.P_.IsSymm) ∧
      ∀ fuel s', s₂.UpdateLidar π fuel ⟨t, ty, [z_px, z_py]⟩ = some s' → s'.P_.IsSymm) := by
  refine ⟨⟨?_, ?_⟩, ?_, ?_⟩
  · obtain ⟨N, yaw, h⟩ := Prediction_returns Real.sqrt Real.sin Real.cos llt s₁ delta_t
    exact ⟨N, fun fuel hf => ⟨_, h fuel hf, spec_P_isSymm _ _ _ _⟩⟩
  · intro fuel s' h
    obtain ⟨yaw, -, rfl⟩ := Prediction_some _ _ _ _ _ _ _ _ _ h
    exact spec_P_isSymm _ _ _ _
  · obtain ⟨N, yaw, h⟩ := normalizeAngle_family (fun i => s₂.Xsig_pred_ 3 i - s₂.x_ 3)
    exact ⟨N, fun fuel hf => ⟨_, UpdateLidar_eq π fuel s₂ yaw (h fuel hf) hS t ty z_px z_py,
      update_isSymm s₂ _ hP⟩⟩
  · intro fuel s' h
    obtain ⟨_, _, -, yaw, -, -, rfl⟩ := UpdateLidar_some _ _ _ _ _ h
    exact update_isSymm s₂ _ hP

/-- Witness for C7: the freshly constructed filter with zeroed sigma points. -/
theorem covariance_stays_symmetric_witness :
    ((UKF.ofState (0 : Fin n_x_ → ℝ) 1 0).P_.IsSymm ∧
      (spec_S (UKF.ofState (0 : Fin n_x_ → ℝ) 1 0)).det ≠ 0) ∧
    EventuallyReturns
      (fun fuel => (UKF.ofState (0 : Fin n_x_ → ℝ) 1 0).UpdateLidar π fuel
        ⟨0, SensorType.LASER, [1, 1]⟩)
      (fun s' => s'.P_.IsSymm) :=
  ⟨⟨Matrix.isSymm_one, spec_S_ctor_zero_det⟩,
    (covariance_stays_symmetric (fun M => M) (UKF.ofState 0 1 0) 0 (UKF.ofState 0 1 0) 0
      SensorType.LASER 1 1 Matrix.isSymm_one spec_S_ctor_zero_det).2.1⟩

end Symmetry

/-! ## Invertibility of the innovation covariance -/

section Invertibility

open Real

theorem UpdateLidar_none_of_det {K : Type} [LinearOrderedField K] (pi : K) (fuel : ℕ)
    (s : UKF K) (m : MeasurementPackage K) (h : (spec_S s).det = 0) :
    s.UpdateLidar pi fuel m = none := by
  cases hres : s.UpdateLidar pi fuel m with
  | none => rfl
  | some s' =>
    obtain ⟨_, _, -, _, -, hdet, -⟩ := UpdateLidar_some _ _ _ _ _ hres
    exact absurd h hdet

theorem laser_noise_posDef (x : Fin n_x_ → ℝ) (P : Matrix (Fin n_x_) (Fin n_x_) ℝ)
    (X : Matrix (Fin n_x_) (Fin (2 * n_aug_ + 1)) ℝ) :
    (diagonal ![(UKF.ofState x P X).std_laspx_ ^ 2, (UKF.ofState x P X).std_laspy_ ^ 2]
      : Matrix (Fin 2) (Fin 2) ℝ).PosDef := by
  apply Matrix.PosDef.diagonal
  intro i
  fin_cases i <;> simp [UKF.ofState, UKF.ctor] <;> norm_num

theorem spec_Pzz_zero (x : Fin n_x_ → ℝ) (P : Matrix (Fin n_x_) (Fin n_x_) ℝ) :
    spec_Pzz (UKF.ofState x P 0) = 0 := by
  have hz : ∀ i, spec_z (UKF.ofState x P 0) i = 0 := by
    intro i
    funext r
    fin_cases r <;> simp [spec_z, UKF.ofState, UKF.ctor]
  have hp : spec_z_pred (UKF.ofState x P 0) = 0 := by
    simp [spec_z_pred, hz]
  have h0 : vecMulVec (0 : Fin 2 → ℝ) (0 : Fin 2 → ℝ) = 0 := by
    ext i j
    simp [vecMulVec]
  unfold spec_Pzz
  simp only [hz, hp]
  simp [h0]

end Invertibility

/-! ## The scenario: `Prediction(0.1)` then `UpdateLidar` with `(1.1, 1.0)` -/

section Scenario

open Real

/-- A Cholesky factor of `diag(d_i²)` with `d_i > 0` is `diag(d_i)`. -/
theorem cholesky_diagonal_unique (A : Matrix (Fin n_aug_) (Fin n_aug_) ℝ)
    (d : Fin n_aug_ → ℝ) (hd : ∀ i, 0 < d i)
    (h : IsCholeskyFactor A (diagonal (fun i => d i * d i))) : A = diagonal d := by
  obtain ⟨hlow, hpos, hmul⟩ := h
  have hentry : ∀ i j, ∑ k, A i k * A j k = if i = j then d i * d i else 0 := by
    intro i j
    have := congrFun (congrFun hmul i) j
    rw [Matrix.mul_apply] at this
    simpa [Matrix.diagonal_apply] using this
  have key : ∀ n : ℕ, ∀ j : Fin n_aug_, j.val = n → ∀ i, i ≠ j → A i j = 0 := by
    intro n
    induction n using Nat.strong_induction_on with
    | _ n ih =>
      intro j hj i hij
      rcases lt_or_gt_of_ne hij with hlt | hgt
      · exact hlow i j hlt
      · have hsum : ∑ k, A i k * A j k = A i j * A j j := by
          apply Finset.sum_eq_single j
          · intro k _ hk
            rcases lt_or_gt_of_ne hk with hkj | hkj
            · have : A j k = 0 := ih k.val (by rw [← hj]; exact hkj) k rfl j (ne_of_gt hkj)
              rw [this, mul_zero]
            · rw [hlow j k hkj, mul_zero]
          · intro hj'
            exact absurd (Finset.mem_univ j) hj'
        have h0 := hentry i j
        rw [if_neg hij, hsum] at h0
        rcases mul_eq_zero.mp h0 with h1 | h1
        · exact h1
        · exact absurd h1 (ne_of_gt (hpos j))
  have hoff : ∀ i j, i ≠ j → A i j = 0 := fun i j hij => key j.val j rfl i hij
  have hdiag : ∀ i, A i i = d i := by
    intro i
    have hsum : ∑ k, A i k * A i k = A i i * A i i := by
      apply Finset.sum_eq_single i
      · intro k _ hk
        rw [hoff i k (Ne.symm hk), mul_zero]
      · intro hi
        exact absurd (Finset.mem_univ i) hi
    have h0 := hentry i i
    rw [if_pos rfl, hsum] at h0
    have h1 := hpos i
    have h2 := hd i
    nlinarith
  ext i j
  by_cases hij : i = j
  · subst hij
    rw [hdiag, Matrix.diagonal_apply_eq]
  · rw [hoff i j hij, Matrix.diagonal_apply_ne _ hij]

theorem ctorCholesky_eq_diagonal :
    (ctorCholesky : Matrix (Fin n_aug_) (Fin n_aug_) ℝ)
      = diagonal (fun i => if i.val < n_x_ then 1 else 30) := by
  ext i j
  by_cases hij : i = j
  · subst hij
    simp [ctorCholesky]
  · simp [ctorCholesky, hij, Matrix.diagonal_apply_ne _ hij]

/-- With the identity covariance the Cholesky routine returns
`diag(1, 1, 1, 1, 1, 30, 30)`. -/
theorem llt_identity (x : Fin n_x_ → ℝ) (X : Matrix (Fin n_x_) (Fin (2 * n_aug_ + 1)) ℝ)
    (A : Matrix (Fin n_aug_) (Fin n_aug_) ℝ)
    (h : IsCholeskyFactor A (UKF.ofState x 1 X).P_aug) : A = ctorCholesky := by
  rw [ctorCholesky_eq_diagonal]
  apply cholesky_diagonal_unique
  · intro i
    split_ifs <;> norm_num
  · rw [← ctorCholesky_mul_transpose x X, ctorCholesky_eq_diagonal, Matrix.diagonal_transpose,
      Matrix.diagonal_mul_diagonal] at h
    exact h

theorem scenarioStart_eq (X : Matrix (Fin n_x_) (Fin (2 * n_aug_ + 1)) ℝ) :
    scenarioStart X = UKF.ofState ![1, 1, 0, 0, 0] 1 X := by
  have hP : (UKF.ctor X).P_ = 1 := by
    ext i j
    fin_cases i <;> fin_cases j <;> rfl
  unfold scenarioStart UKF.ofState
  rw [← hP]

theorem x_aug_vals {K : Type} [LinearOrderedField K] (s : UKF K) :
    s.x_aug 0 = s.x_ 0 ∧ s.x_aug 1 = s.x_ 1 ∧ s.x_aug 2 = s.x_ 2 ∧ s.x_aug 3 = s.x_ 3 ∧
    s.x_aug 4 = s.x_ 4 ∧ s.x_aug 5 = 0 ∧ s.x_aug 6 = 0 :=
  ⟨rfl, rfl, rfl, rfl, rfl, rfl, rfl⟩

theorem fin_aug_val : ((3 : Fin n_aug_) : ℕ) = 3 ∧ ((4 : Fin n_aug_) : ℕ) = 4 ∧
    ((5 : Fin n_aug_) : ℕ) = 5 ∧ ((6 : Fin n_aug_) : ℕ) = 6 := ⟨rfl, rfl, rfl, rfl⟩

theorem scenario_px_zero
    (llt : Matrix (Fin n_aug_) (Fin n_aug_) ℝ → Matrix (Fin n_aug_) (Fin n_aug_) ℝ)
    (X : Matrix (Fin n_x_) (Fin (2 * n_aug_ + 1)) ℝ) :
    (scenarioStart X).predictSigmaPoints Real.sqrt Real.sin Real.cos llt 0.1 0 0
      = 1 := by
  rw [scenarioStart_eq]
  obtain ⟨h0, h1, h2, h3, h4, h5, h6⟩ :=
    x_aug_vals (UKF.ofState ![1, 1, 0, 0, 0] 1 X : UKF ℝ)
  unfold UKF.predictSigmaPoints predictSigmaPoint
  simp only [Xsig_aug_zero, h0, h1, h2, h3, h4, h5, h6]
  simp [UKF.ofState]

theorem scenario_py_zero
    (llt : Matrix (Fin n_aug_) (Fin n_aug_) ℝ → Matrix (Fin n_aug_) (Fin n_aug_) ℝ)
    (X : Matrix (Fin n_x_) (Fin (2 * n_aug_ + 1)) ℝ) :
    (scenarioStart X).predictSigmaPoints Real.sqrt Real.sin Real.cos llt 0.1 1 0
      = 1 := by
  rw [scenarioStart_eq]
  obtain ⟨h0, h1, h2, h3, h4, h5, h6⟩ :=
    x_aug_vals (UKF.ofState ![1, 1, 0, 0, 0] 1 X : UKF ℝ)
  unfold UKF.predictSigmaPoints predictSigmaPoint
  simp only [Xsig_aug_zero, h0, h1, h2, h3, h4, h5, h6]
  simp [UKF.ofState]

theorem scenario_px_plus
    (llt : Matrix (Fin n_aug_) (Fin n_aug_) ℝ → Matrix (Fin n_aug_) (Fin n_aug_) ℝ)
    (X : Matrix (Fin n_x_) (Fin (2 * n_aug_ + 1)) ℝ)
    (h : IsCholeskyFactor (llt (scenarioStart X).P_aug) (scenarioStart X).P_aug) (j : Fin n_aug_) :
    (scenarioStart X).predictSigmaPoints Real.sqrt Real.sin Real.cos llt 0.1 0 (colPlus j)
      = 1 + Real.sqrt 3 * scenarioDx j := by
  rw [scenarioStart_eq] at h ⊢
  obtain ⟨h0, h1, h2, h3, h4, h5, h6⟩ :=
    x_aug_vals (UKF.ofState ![1, 1, 0, 0, 0] 1 X : UKF ℝ)
  unfold UKF.predictSigmaPoints predictSigmaPoint
  simp only [Xsig_aug_plus, llt_identity _ _ _ h, ofState_lambda, h0, h1, h2, h3, h4, h5, h6]
  fin_cases j <;>
    simp [ctorCholesky, scenarioDx, scenarioDy, UKF.ofState, Fin.ext_iff, fin_aug_val.1,
      fin_aug_val.2.1, fin_aug_val.2.2.1, fin_aug_val.2.2.2] <;>
    norm_num [n_x_] <;> ring_nf

theorem scenario_px_minus
    (llt : Matrix (Fin n_aug_) (Fin n_aug_) ℝ → Matrix (Fin n_aug_) (Fin n_aug_) ℝ)
    (X : Matrix (Fin n_x_) (Fin (2 * n_aug_ + 1)) ℝ)
    (h : IsCholeskyFactor (llt (scenarioStart X).P_aug) (scenarioStart X).P_aug) (j : Fin n_aug_) :
    (scenarioStart X).predictSigmaPoints Real.sqrt Real.sin Real.cos llt 0.1 0 (colMinus j)
      = 1 - Real.sqrt 3 * scenarioDx j := by
  rw [scenarioStart_eq] at h ⊢
  obtain ⟨h0, h1, h2, h3, h4, h5, h6⟩ :=
    x_aug_vals (UKF.ofState ![1, 1, 0, 0, 0] 1 X : UKF ℝ)
  unfold UKF.predictSigmaPoints predictSigmaPoint
  simp only [Xsig_aug_minus, llt_identity _ _ _ h, ofState_lambda, h0, h1, h2, h3, h4, h5, h6]
  fin_cases j <;>
    simp [ctorCholesky, scenarioDx, scenarioDy, UKF.ofState, Fin.ext_iff, fin_aug_val.1,
      fin_aug_val.2.1, fin_aug_val.2.2.1, fin_aug_val.2.2.2] <;>
    norm_num [n_x_] <;> ring_nf

theorem scenario_py_plus
    (llt : Matrix (Fin n_aug_) (Fin n_aug_) ℝ → Matrix (Fin n_aug_) (Fin n_aug_) ℝ)
    (X : Matrix (Fin n_x_) (Fin (2 * n_aug_ + 1)) ℝ)
    (h : IsCholeskyFactor (llt (scenarioStart X).P_aug) (scenarioStart X).P_aug) (j : Fin n_aug_) :
    (scenarioStart X).predictSigmaPoints Real.sqrt Real.sin Real.cos llt 0.1 1 (colPlus j)
      = 1 + Real.sqrt 3 * scenarioDy j := by
  rw [scenarioStart_eq] at h ⊢
  obtain ⟨h0, h1, h2, h3, h4, h5, h6⟩ :=
    x_aug_vals (UKF.ofState ![1, 1, 0, 0, 0] 1 X : UKF ℝ)
  unfold UKF.predictSigmaPoints predictSigmaPoint
  simp only [Xsig_aug_plus, llt_identity _ _ _ h, ofState_lambda, h0, h1, h2, h3, h4, h5, h6]
  fin_cases j <;>
    simp [ctorCholesky, scenarioDx, scenarioDy, UKF.ofState, Fin.ext_iff, fin_aug_val.1,
      fin_aug_val.2.1, fin_aug_val.2.2.1, fin_aug_val.2.2.2] <;>
    norm_num [n_x_] <;> ring_nf

theorem scenario_py_minus
    (llt : Matrix (Fin n_aug_) (Fin n_aug_) ℝ → Matrix (Fin n_aug_) (Fin n_aug_) ℝ)
    (X : Matrix (Fin n_x_) (Fin (2 * n_aug_ + 1)) ℝ)
    (h : IsCholeskyFactor (llt (scenarioStart X).P_aug) (scenarioStart X).P_aug) (j : Fin n_aug_) :
    (scenarioStart X).predictSigmaPoints Real.sqrt Real.sin Real.cos llt 0.1 1 (colMinus j)
      = 1 - Real.sqrt 3 * scenarioDy j := by
  rw [scenarioStart_eq] at h ⊢
  obtain ⟨h0, h1, h2, h3, h4, h5, h6⟩ :=
    x_aug_vals (UKF.ofState ![1, 1, 0, 0, 0] 1 X : UKF ℝ)
  unfold UKF.predictSigmaPoints predictSigmaPoint
  simp only [Xsig_aug_minus, llt_identity _ _ _ h, ofState_lambda, h0, h1, h2, h3, h4, h5, h6]
  fin_cases j <;>
    simp [ctorCholesky, scenarioDx, scenarioDy, UKF.ofState, Fin.ext_iff, fin_aug_val.1,
      fin_aug_val.2.1, fin_aug_val.2.2.1, fin_aug_val.2.2.2] <;>
    norm_num [n_x_] <;> ring_nf

/-- The weighted mean of a symmetric sigma set `a`, `a + e_j`, `a - e_j` is `a`. -/
theorem sigma_mean (Y : Fin (2 * n_aug_ + 1) → ℝ) (a : ℝ) (e : Fin n_aug_ → ℝ)
    (h0 : Y 0 = a) (hp : ∀ j, Y (colPlus j) = a + e j) (hm : ∀ j, Y (colMinus j) = a - e j) :
    ∑ i, setWeights n_aug_ (3 - (n_aug_ : ℝ)) i * Y i = a := by
  rw [sum_sigma]
  simp only [ctorWeights_zero, ctorWeights_plus, ctorWeights_minus, h0, hp, hm]
  rw [add_assoc, ← Finset.sum_add_distrib]
  have : ∀ j : Fin n_aug_, 1 / 6 * (a + e j) + 1 / 6 * (a - e j) = a / 3 := fun j => by ring
  rw [Finset.sum_congr rfl (fun j _ => this j), Finset.sum_const, Finset.card_univ,
    Fintype.card_fin, nsmul_eq_mul]
  push_cast
  ring

/-- The weighted covariance of two symmetric sigma sets is a third of the sum of the
products of their offsets. -/
theorem sigma_cov (Y Z : Fin (2 * n_aug_ + 1) → ℝ) (a b : ℝ) (e f : Fin n_aug_ → ℝ)
    (h0 : Y 0 = a) (hp : ∀ j, Y (colPlus j) = a + e j) (hm : ∀ j, Y (colMinus j) = a - e j)
    (g0 : Z 0 = b) (gp : ∀ j, Z (colPlus j) = b + f j) (gm : ∀ j, Z (colMinus j) = b - f j) :
    ∑ i, setWeights n_aug_ (3 - (n_aug_ : ℝ)) i * ((Y i - a) * (Z i - b))
      = 1 / 3 * ∑ j, e j * f j := by
  rw [sum_sigma]
  simp only [ctorWeights_zero, ctorWeights_plus, ctorWeights_minus, h0, hp, hm, g0, gp, gm]
  rw [add_assoc, ← Finset.sum_add_distrib, Finset.mul_sum, sub_self, zero_mul, mul_zero,
    zero_add]
  exact Finset.sum_congr rfl (fun j _ => by ring)

theorem scenarioDx_sq : ∑ j, (Real.sqrt 3 * scenarioDx j) * (Real.sqrt 3 * scenarioDx j)
    = 3 * (1.0325 : ℝ) := by
  have h3 := sqrt_three_mul_self
  have : ∀ j : Fin n_aug_, (Real.sqrt 3 * scenarioDx j) * (Real.sqrt 3 * scenarioDx j)
      = 3 * (scenarioDx j * scenarioDx j : ℝ) := fun j => by
    linear_combination (scenarioDx j * scenarioDx j : ℝ) * h3
  rw [Finset.sum_congr rfl (fun j _ => this j), ← Finset.mul_sum]
  simp [Fin.sum_univ_succ, scenarioDx]
  norm_num

theorem scenarioDy_sq : ∑ j, (Real.sqrt 3 * scenarioDy j) * (Real.sqrt 3 * scenarioDy j)
    = 3 * (1 : ℝ) := by
  have h3 := sqrt_three_mul_self
  have : ∀ j : Fin n_aug_, (Real.sqrt 3 * scenarioDy j) * (Real.sqrt 3 * scenarioDy j)
      = 3 * (scenarioDy j * scenarioDy j : ℝ) := fun j => by
    linear_combination (scenarioDy j * scenarioDy j : ℝ) * h3
  rw [Finset.sum_congr rfl (fun j _ => this j), ← Finset.mul_sum]
  simp [Fin.sum_univ_succ, scenarioDy]

theorem scenarioDx_Dy : ∑ j, (Real.sqrt 3 * scenarioDx j) * (Real.sqrt 3 * scenarioDy j)
    = (0 : ℝ) := by
  simp [Fin.sum_univ_succ, scenarioDx, scenarioDy]

theorem scenario_innovation (s : UKF ℝ)
    (hw : s.weights_ = setWeights n_aug_ (3 - (n_aug_ : ℝ)))
    (hsx : s.std_laspx_ = 0.15) (hsy : s.std_laspy_ = 0.15)
    (hx0 : s.Xsig_pred_ 0 0 = 1)
    (hxp : ∀ j, s.Xsig_pred_ 0 (colPlus j) = 1 + Real.sqrt 3 * scenarioDx j)
    (hxm : ∀ j, s.Xsig_pred_ 0 (colMinus j) = 1 - Real.sqrt 3 * scenarioDx j)
    (hy0 : s.Xsig_pred_ 1 0 = 1)
    (hyp : ∀ j, s.Xsig_pred_ 1 (colPlus j) = 1 + Real.sqrt 3 * scenarioDy j)
    (hym : ∀ j, s.Xsig_pred_ 1 (colMinus j) = 1 - Real.sqrt 3 * scenarioDy j)
    (hmean : s.x_ 0 = 1) :
    spec_z_pred s = ![1, 1] ∧ spec_S s = !![1.055, 0; 0, 1.0225] ∧
    ∀ yaw, spec_Tc s yaw 0 0 = 1.0325 ∧ spec_Tc s yaw 0 1 = 0 := by
  have hzp : spec_z_pred s = ![1, 1] := by
    funext r
    unfold spec_z_pred
    rw [Finset.sum_apply, hw]
    fin_cases r
    · simpa [spec_z] using sigma_mean (fun i => s.Xsig_pred_ 0 i) 1 _ hx0 hxp hxm
    · simpa [spec_z] using sigma_mean (fun i => s.Xsig_pred_ 1 i) 1 _ hy0 hyp hym
  have hxx := sigma_cov (fun i => s.Xsig_pred_ 0 i) (fun i => s.Xsig_pred_ 0 i) 1 1 _ _
    hx0 hxp hxm hx0 hxp hxm
  have hxy := sigma_cov (fun i => s.Xsig_pred_ 0 i) (fun i => s.Xsig_pred_ 1 i) 1 1 _ _
    hx0 hxp hxm hy0 hyp hym
  have hyx := sigma_cov (fun i => s.Xsig_pred_ 1 i) (fun i => s.Xsig_pred_ 0 i) 1 1 _ _
    hy0 hyp hym hx0 hxp hxm
  have hyy := sigma_cov (fun i => s.Xsig_pred_ 1 i) (fun i => s.Xsig_pred_ 1 i) 1 1 _ _
    hy0 hyp hym hy0 hyp hym
  rw [scenarioDx_sq] at hxx
  rw [scenarioDx_Dy] at hxy
  rw [scenarioDy_sq] at hyy
  have hyx' : ∑ j, (Real.sqrt 3 * scenarioDy j) * (Real.sqrt 3 * scenarioDx j) = (0 : ℝ) := by
    rw [← scenarioDx_Dy]
    exact Finset.sum_congr rfl (fun j _ => by ring)
  rw [hyx'] at hyx
  norm_num at hxx hxy hyx hyy
  refine ⟨hzp, ?_, fun yaw => ⟨?_, ?_⟩⟩
  · ext a b
    unfold spec_S spec_Pzz
    rw [hzp, Matrix.add_apply, Matrix.sum_apply, hw, hsx, hsy]
    fin_cases a <;> fin_cases b <;> simp [vecMulVec, spec_z] <;> norm_num <;> linarith
  · unfold spec_Tc
    rw [hzp, Matrix.sum_apply, hw]
    simp [vecMulVec, spec_z, hmean]
    norm_num
    linarith
  · unfold spec_Tc
    rw [hzp, Matrix.sum_apply, hw]
    simp [vecMulVec, spec_z, hmean]
    norm_num
    linarith
/-- With `S` symmetric and invertible, `K S K^T = Tc S⁻¹ Tc^T` for `K = Tc S⁻¹`. -/
theorem gain_quadratic (S : Matrix (Fin 2) (Fin 2) ℝ) (Tc : Matrix (Fin n_x_) (Fin 2) ℝ)
    (hsymm : S.IsSymm) (hdet : IsUnit S.det) :
    (Tc * S⁻¹) * S * (Tc * S⁻¹)ᵀ = Tc * S⁻¹ * Tcᵀ := by
  rw [Matrix.transpose_mul, Matrix.transpose_nonsing_inv, hsymm.eq, Matrix.mul_assoc Tc S⁻¹ S,
    Matrix.nonsing_inv_mul _ hdet, Matrix.mul_one, Matrix.mul_assoc]

theorem trace_quadratic (M : Matrix (Fin 2) (Fin 2) ℝ) (Tc : Matrix (Fin n_x_) (Fin 2) ℝ) :
    Matrix.trace (Tc * M * Tcᵀ) = ∑ a, (Tc a) ⬝ᵥ (M *ᵥ (Tc a)) := by
  unfold Matrix.trace
  refine Finset.sum_congr rfl (fun a _ => ?_)
  simp only [Matrix.diag_apply, Matrix.mul_apply, Matrix.transpose_apply, dotProduct,
    Matrix.mulVec, Fin.sum_univ_two]
  ring

/-- The trace of `P - K S K^T` is at most the trace of `P` when `S` is positive definite,
and smaller when `Tc ≠ 0`. -/
theorem update_trace (s : UKF ℝ) (Tc : Matrix (Fin n_x_) (Fin 2) ℝ)
    (hS : (spec_S s).PosDef) :
    Matrix.trace (s.P_ - (Tc * (spec_S s)⁻¹) * spec_S s * (Tc * (spec_S s)⁻¹)ᵀ)
        ≤ Matrix.trace s.P_ ∧
    (Tc ≠ 0 →
      Matrix.trace (s.P_ - (Tc * (spec_S s)⁻¹) * spec_S s * (Tc * (spec_S s)⁻¹)ᵀ)
        < Matrix.trace s.P_) := by
  have hinv : ((spec_S s)⁻¹).PosDef := hS.inv
  have hterm : ∀ a, 0 ≤ (Tc a) ⬝ᵥ ((spec_S s)⁻¹ *ᵥ (Tc a)) := fun a => by
    have := hinv.posSemidef.2 (Tc a)
    simpa using this
  rw [gain_quadratic _ Tc (spec_S_isSymm s) (isUnit_iff_ne_zero.mpr (ne_of_gt hS.det_pos)),
    Matrix.trace_sub, trace_quadratic]
  refine ⟨?_, fun hTc => ?_⟩
  · have := Finset.sum_nonneg (fun a (_ : a ∈ Finset.univ) => hterm a)
    linarith
  · obtain ⟨a, ha⟩ : ∃ a, Tc a ≠ 0 := by
      by_contra hall
      push_neg at hall
      exact hTc (funext hall)
    have hpos : 0 < (Tc a) ⬝ᵥ ((spec_S s)⁻¹ *ᵥ (Tc a)) := by
      have := hinv.2 (Tc a) ha
      simpa using this
    have := Finset.sum_pos' (fun a (_ : a ∈ Finset.univ) => hterm a)
      ⟨a, Finset.mem_univ a, hpos⟩
    linarith
theorem scenario_S_inv :
    (!![1.055, 0; 0, 1.0225] : Matrix (Fin 2) (Fin 2) ℝ)⁻¹ = !![1 / 1.055, 0; 0, 1 / 1.0225] := by
  apply Matrix.inv_eq_right_inv
  ext i j
  fin_cases i <;> fin_cases j <;> simp [Matrix.mul_apply, Fin.sum_univ_two] <;> norm_num

theorem scenario_S_posDef : (!![1.055, 0; 0, 1.0225] : Matrix (Fin 2) (Fin 2) ℝ).PosDef := by
  have : (!![1.055, 0; 0, 1.0225] : Matrix (Fin 2) (Fin 2) ℝ) = diagonal ![1.055, 1.0225] := by
    ext i j
    fin_cases i <;> fin_cases j <;> simp
  rw [this]
  apply Matrix.PosDef.diagonal
  intro i
  fin_cases i <;> simp <;> norm_num

/-- The run of the scenario: with enough fuel `Prediction(0.1)` returns a state `s₁` with
`px = 1`, `z_pred = (1, 1)`, `S = diag(1.055, 1.0225)` and first row of `Tc` equal to
`(1.0325, 0)`, and `UpdateLidar` on `s₁` returns the state of `UpdateLidar_eq`. -/
theorem scenario_run
    (llt : Matrix (Fin n_aug_) (Fin n_aug_) ℝ → Matrix (Fin n_aug_) (Fin n_aug_) ℝ)
    (X : Matrix (Fin n_x_) (Fin (2 * n_aug_ + 1)) ℝ) (t : ℤ)
    (h : IsCholeskyFactor (llt (scenarioStart X).P_aug) (scenarioStart X).P_aug) :
    ∃ N, ∀ fuel, N ≤ fuel → ∃ s₁ yaw,
      (scenarioStart X).Prediction π Real.sqrt Real.sin Real.cos llt fuel 0.1 = some s₁ ∧
      s₁.x_ 0 = 1 ∧ spec_z_pred s₁ = ![1, 1] ∧ spec_S s₁ = !![1.055, 0; 0, 1.0225] ∧
      spec_Tc s₁ yaw 0 0 = 1.0325 ∧ spec_Tc s₁ yaw 0 1 = 0 ∧
      s₁.UpdateLidar π fuel (scenarioMeasurement t) =
        some { s₁ with
          x_ := s₁.x_ + (spec_Tc s₁ yaw * (spec_S s₁)⁻¹) *ᵥ (![1.1, 1.0] - spec_z_pred s₁)
          P_ := s₁.P_ - (spec_Tc s₁ yaw * (spec_S s₁)⁻¹) * spec_S s₁
                  * (spec_Tc s₁ yaw * (spec_S s₁)⁻¹)ᵀ } := by
  obtain ⟨N₁, yaw₁, h₁⟩ :=
    Prediction_returns Real.sqrt Real.sin Real.cos llt (scenarioStart X) 0.1
  obtain ⟨N₂, yaw, h₂⟩ := normalizeAngle_family (fun i =>
    (scenarioStart X).predictSigmaPoints Real.sqrt Real.sin Real.cos llt 0.1 3 i
      - weightedMean (scenarioStart X).weights_
          ((scenarioStart X).predictSigmaPoints Real.sqrt Real.sin Real.cos llt 0.1) 3)
  have hmean : weightedMean (scenarioStart X).weights_
      ((scenarioStart X).predictSigmaPoints Real.sqrt Real.sin Real.cos llt 0.1) 0 = 1 := by
    rw [weightedMean_apply]
    exact sigma_mean _ 1 _ (scenario_px_zero llt X) (scenario_px_plus llt X h)
      (scenario_px_minus llt X h)
  refine ⟨max N₁ N₂, fun fuel hf => ⟨_, yaw, h₁ fuel (le_trans (le_max_left _ _) hf), hmean,
    ?_⟩⟩
  obtain ⟨hzp, hS, hTc⟩ := scenario_innovation
    ({ scenarioStart X with
        x_ := weightedMean (scenarioStart X).weights_
          ((scenarioStart X).predictSigmaPoints Real.sqrt Real.sin Real.cos llt 0.1)
        P_ := spec_P (scenarioStart X).weights_
          ((scenarioStart X).predictSigmaPoints Real.sqrt Real.sin Real.cos llt 0.1)
          (weightedMean (scenarioStart X).weights_
            ((scenarioStart X).predictSigmaPoints Real.sqrt Real.sin Real.cos llt 0.1)) yaw₁
        Xsig_pred_ := (scenarioStart X).predictSigmaPoints Real.sqrt Real.sin Real.cos llt 0.1 }
      : UKF ℝ)
    rfl rfl rfl (scenario_px_zero llt X) (scenario_px_plus llt X h)
    (scenario_px_minus llt X h) (scenario_py_zero llt X) (scenario_py_plus llt X h)
    (scenario_py_minus llt X h) hmean
  refine ⟨hzp, hS, (hTc yaw).1, (hTc yaw).2, ?_⟩
  have hdet : ∀ S : Matrix (Fin 2) (Fin 2) ℝ, S = !![1.055, 0; 0, 1.0225] → S.det ≠ 0 := by
    intro S hS'
    rw [hS', Matrix.det_fin_two]
    simp
    norm_num
  exact UpdateLidar_eq π fuel _ yaw (h₂ fuel (le_trans (le_max_right _ _) hf))
    (hdet _ hS) t SensorType.LASER 1.1 1.0

theorem ctorCholesky_isCholeskyFactor (X : Matrix (Fin n_x_) (Fin (2 * n_aug_ + 1)) ℝ) :
    IsCholeskyFactor (ctorCholesky : Matrix (Fin n_aug_) (Fin n_aug_) ℝ)
      (scenarioStart X).P_aug := by
  refine ⟨fun i j hij => ?_, fun i => ?_, ?_⟩
  · simp [ctorCholesky, ne_of_lt hij]
  · simp only [ctorCholesky, if_true]
    split_ifs <;> norm_num
  · rw [scenarioStart_eq]
    exact ctorCholesky_mul_transpose _ X

/-- C9: starting from the mean `(1, 1, 0, 0, 0)` with the constructor's covariance, weights
and noise parameters, `Prediction(0.1)` followed by `UpdateLidar` with the measurement
`(1.1, 1.0)` returns, given enough fuel, a state whose `px` is strictly between `1.0` and
`1.1`. -/
theorem scenario_px_between
    (llt : Matrix (Fin n_aug_) (Fin n_aug_) ℝ → Matrix (Fin n_aug_) (Fin n_aug_) ℝ)
    (X : Matrix (Fin n_x_) (Fin (2 * n_aug_ + 1)) ℝ) (t : ℤ)
    (h : IsCholeskyFactor (llt (scenarioStart X).P_aug) (scenarioStart X).P_aug) :
    EventuallyReturns
      (fun fuel =>
        ((scenarioStart X).Prediction π Real.sqrt Real.sin Real.cos llt fuel 0.1).bind
          (fun s₁ => s₁.UpdateLidar π fuel (scenarioMeasurement t)))
      (fun s₂ => 1.0 < s₂.x_ 0 ∧ s₂.x_ 0 < 1.1) := by
  obtain ⟨N, hN⟩ := scenario_run llt X t h
  refine ⟨N, fun fuel hf => ?_⟩
  obtain ⟨s₁, yaw, hpred, hx, hzp, hS, hT0, hT1, hupd⟩ := hN fuel hf
  refine ⟨_, (by simp only [hpred, Option.some_bind]; exact hupd), ?_⟩
  have hval : (s₁.x_ + (spec_Tc s₁ yaw * (spec_S s₁)⁻¹) *ᵥ (![1.1, 1.0] - spec_z_pred s₁)) 0
      = 1 + 1.0325 / 1.055 * 0.1 := by
    rw [hS, scenario_S_inv, hzp]
    simp [Matrix.mulVec, dotProduct, Matrix.mul_apply, Fin.sum_univ_two, hT0, hT1, hx]
    norm_num
  show 1.0 < (s₁.x_ + (spec_Tc s₁ yaw * (spec_S s₁)⁻¹) *ᵥ (![1.1, 1.0] - spec_z_pred s₁)) 0 ∧
    (s₁.x_ + (spec_Tc s₁ yaw * (spec_S s₁)⁻¹) *ᵥ (![1.1, 1.0] - spec_z_pred s₁)) 0 < 1.1
  rw [hval]
  constructor <;> norm_num

/-- Witness for C9: the Cholesky routine returns `diag(1, 1, 1, 1, 1, 30, 30)`. -/
theorem scenario_px_between_witness :
    IsCholeskyFactor (ctorCholesky : Matrix (Fin n_aug_) (Fin n_aug_) ℝ)
      (scenarioStart (0 : Matrix (Fin n_x_) (Fin (2 * n_aug_ + 1)) ℝ)).P_aug ∧
    EventuallyReturns
      (fun fuel =>
        ((scenarioStart (0 : Matrix (Fin n_x_) (Fin (2 * n_aug_ + 1)) ℝ)).Prediction π
            Real.sqrt Real.sin Real.cos (fun _ => ctorCholesky) fuel 0.1).bind
          (fun s₁ => s₁.UpdateLidar π fuel (scenarioMeasurement 0)))
      (fun s₂ => 1.0 < s₂.x_ 0 ∧ s₂.x_ 0 < 1.1) :=
  ⟨ctorCholesky_isCholeskyFactor 0,
    scenario_px_between (fun _ => ctorCholesky) 0 0 (ctorCholesky_isCholeskyFactor 0)⟩

/-- C10: for every state and measurement for which the innovation covariance `S` is
positive definite, `UpdateLidar` returns, given enough fuel, a covariance whose trace is at
most the trace of the covariance it was given, and smaller when the cross correlation `Tc`
is not 0; in the scenario (mean `(1, 1, 0, 0, 0)`, constructor covariance,
`Prediction(0.1)`, measurement `(1.1, 1.0)`) the trace after the update is smaller than
after the prediction. -/
theorem update_reduces_trace (s : UKF ℝ) (t : ℤ) (ty : SensorType) (z_px z_py : ℝ)
    (hS : (spec_S s).PosDef) :
    (∃ N, ∃ yaw : Fin (2 * n_aug_ + 1) → ℝ, ∀ fuel, N ≤ fuel →
      crossCorrelation π fuel s.weights_ s.Xsig_pred_ s.x_ (measurementSigma s.Xsig_pred_)
        (weightedMean s.weights_ (measurementSigma s.Xsig_pred_)) = some (spec_Tc s yaw) ∧
      ∃ s', s.UpdateLidar π fuel ⟨t, ty, [z_px, z_py]⟩ = some s' ∧
        Matrix.trace s'.P_ ≤ Matrix.trace s.P_ ∧
        (spec_Tc s yaw ≠ 0 → Matrix.trace s'.P_ < Matrix.trace s.P_)) ∧
    (∀ (llt : Matrix (Fin n_aug_) (Fin n_aug_) ℝ → Matrix (Fin n_aug_) (Fin n_aug_) ℝ)
      (X : Matrix (Fin n_x_) (Fin (2 * n_aug_ + 1)) ℝ) (t₀ : ℤ),
      IsCholeskyFactor (llt (scenarioStart X).P_aug) (scenarioStart X).P_aug →
      EventuallyReturns
        (fun fuel =>
          ((scenarioStart X).Prediction π Real.sqrt Real.sin Real.cos llt fuel 0.1).bind
            (fun s₁ => (s₁.UpdateLidar π fuel (scenarioMeasurement t₀)).map
              (fun s₂ => (s₁, s₂))))
        (fun p => Matrix.trace p.2.P_ < Matrix.trace p.1.P_)) := by
  constructor
  · obtain ⟨N, yaw, h⟩ := normalizeAngle_family (fun i => s.Xsig_pred_ 3 i - s.x_ 3)
    refine ⟨N, yaw, fun fuel hf => ⟨crossCorrelation_eq_spec π fuel s yaw (h fuel hf), _,
      UpdateLidar_eq π fuel s yaw (h fuel hf) (ne_of_gt hS.det_pos) t ty z_px z_py, ?_⟩⟩
    exact update_trace s (spec_Tc s yaw) hS
  · intro llt X t₀ h
    obtain ⟨N, hN⟩ := scenario_run llt X t₀ h
    refine ⟨N, fun fuel hf => ?_⟩
    obtain ⟨s₁, yaw, hpred, hx, hzp, hS₁, hT0, hT1, hupd⟩ := hN fuel hf
    refine ⟨(s₁, _), (by simp only [hpred, Option.some_bind, hupd, Option.map_some']; rfl), ?_⟩
    have hpd : (spec_S s₁).PosDef := by
      rw [hS₁]
      exact scenario_S_posDef
    have hne : spec_Tc s₁ yaw ≠ 0 := by
      intro h0
      rw [h0] at hT0
      norm_num at hT0
    exact (update_trace s₁ (spec_Tc s₁ yaw) hpd).2 hne

theorem spec_S_zero_posDef :
    (spec_S (UKF.ofState (0 : Fin n_x_ → ℝ) 1 0)).PosDef := by
  unfold spec_S
  rw [spec_Pzz_zero, zero_add]
  exact laser_noise_posDef 0 1 0

/-- Witness for C10: the freshly constructed filter with zeroed sigma points. -/
theorem update_reduces_trace_witness :
    (spec_S (UKF.ofState (0 : Fin n_x_ → ℝ) 1 0)).PosDef ∧
    ∃ N, ∃ yaw : Fin (2 * n_aug_ + 1) → ℝ, ∀ fuel, N ≤ fuel →
      crossCorrelation π fuel (UKF.ofState (0 : Fin n_x_ → ℝ) 1 0).weights_
        (UKF.ofState (0 : Fin n_x_ → ℝ) 1 0).Xsig_pred_ (UKF.ofState (0 : Fin n_x_ → ℝ) 1 0).x_
        (measurementSigma (UKF.ofState (0 : Fin n_x_ → ℝ) 1 0).Xsig_pred_)
        (weightedMean (UKF.ofState (0 : Fin n_x_ → ℝ) 1 0).weights_
          (measurementSigma (UKF.ofState (0 : Fin n_x_ → ℝ) 1 0).Xsig_pred_))
        = some (spec_Tc (UKF.ofState (0 : Fin n_x_ → ℝ) 1 0) yaw) ∧
      ∃ s', (UKF.ofState (0 : Fin n_x_ → ℝ) 1 0).UpdateLidar π fuel
          ⟨0, SensorType.LASER, [1, 1]⟩ = some s' ∧
        Matrix.trace s'.P_ ≤ Matrix.trace (UKF.ofState (0 : Fin n_x_ → ℝ) 1 0).P_ ∧
        (spec_Tc (UKF.ofState (0 : Fin n_x_ → ℝ) 1 0) yaw ≠ 0 →
          Matrix.trace s'.P_ < Matrix.trace (UKF.ofState (0 : Fin n_x_ → ℝ) 1 0).P_) :=
  ⟨spec_S_zero_posDef,
    (update_reduces_trace (UKF.ofState 0 1 0) 0 SensorType.LASER 1 1 spec_S_zero_posDef).1⟩

end Scenario

/-! ## Positive semi-definiteness of the predicted covariance -/

section Definiteness

open Real

theorem sqrt_three_pos : 0 < Real.sqrt 3 := Real.sqrt_pos.mpr (by norm_num)

theorem wrapCholesky_isCholeskyFactor (X : Matrix (Fin n_x_) (Fin (2 * n_aug_ + 1)) ℝ) :
    IsCholeskyFactor (wrapCholesky π (Real.sqrt 3))
      (UKF.ofState wrapMean (wrapCov π (Real.sqrt 3)) X).P_aug := by
  have hr := sqrt_three_pos
  have hp := pi_pos
  refine ⟨fun i j hij => ?_, fun i => ?_, ?_⟩
  · have h1 : i.val < j.val := hij
    have h2 : i ≠ j := ne_of_lt hij
    unfold wrapCholesky
    by_cases h3 : i.val = 3
    · have : ¬ j.val ≤ 3 := by omega
      simp [h3, this]
    · simp [h3, h2]
  · unfold wrapCholesky
    by_cases h3 : i.val = 3
    · simp only [h3, if_true, le_refl]
      positivity
    · simp only [h3, if_false, if_true]
      split_ifs <;> positivity
  · ext i j
    rw [Matrix.mul_apply]
    simp only [Matrix.transpose_apply, wrapCholesky]
    fin_cases i <;> fin_cases j <;>
      simp [Fin.sum_univ_succ, UKF.P_aug, UKF.ofState, UKF.ctor, wrapCov, Fin.ext_iff, n_x_,
        fin_aug_val.1, fin_aug_val.2.1, fin_aug_val.2.2.1, fin_aug_val.2.2.2] <;>
      ring
theorem wrapCov_posDef : (wrapCov π (Real.sqrt 3)).PosDef := by
  have hs : π / Real.sqrt 3 ≠ 0 := div_ne_zero pi_ne_zero (ne_of_gt sqrt_three_pos)
  have hq : 1 / (1000 * Real.sqrt 3) ≠ 0 :=
    div_ne_zero one_ne_zero (mul_ne_zero (by norm_num) (ne_of_gt sqrt_three_pos))
  refine ⟨?_, fun x hx => ?_⟩
  · ext i j
    fin_cases i <;> fin_cases j <;> simp [wrapCov, Matrix.conjTranspose_apply]
  · have key : star x ⬝ᵥ (wrapCov π (Real.sqrt 3) *ᵥ x)
        = (x 0 + π / Real.sqrt 3 * x 3) ^ 2 + (x 1 + π / Real.sqrt 3 * x 3) ^ 2
          + (x 2 + π / Real.sqrt 3 * x 3) ^ 2 + (π / Real.sqrt 3 * x 3) ^ 2
          + (1 / (1000 * Real.sqrt 3) * x 4) ^ 2 := by
      simp only [dotProduct, Matrix.mulVec, Fin.sum_univ_five, wrapCov, star_trivial,
        Pi.star_apply]
      simp
      ring
    rw [key]
    by_contra hle
    have h1 := sq_nonneg (x 0 + π / Real.sqrt 3 * x 3)
    have h2 := sq_nonneg (x 1 + π / Real.sqrt 3 * x 3)
    have h3 := sq_nonneg (x 2 + π / Real.sqrt 3 * x 3)
    have h4 := sq_nonneg (π / Real.sqrt 3 * x 3)
    have h5 := sq_nonneg (1 / (1000 * Real.sqrt 3) * x 4)
    have e4 : π / Real.sqrt 3 * x 3 = 0 := by
      have : (π / Real.sqrt 3 * x 3) ^ 2 = 0 := by linarith
      exact pow_eq_zero_iff (by norm_num) |>.mp this
    have e5 : 1 / (1000 * Real.sqrt 3) * x 4 = 0 := by
      have : (1 / (1000 * Real.sqrt 3) * x 4) ^ 2 = 0 := by linarith
      exact pow_eq_zero_iff (by norm_num) |>.mp this
    have e1 : x 0 + π / Real.sqrt 3 * x 3 = 0 := by
      have : (x 0 + π / Real.sqrt 3 * x 3) ^ 2 = 0 := by linarith
      exact pow_eq_zero_iff (by norm_num) |>.mp this
    have e2 : x 1 + π / Real.sqrt 3 * x 3 = 0 := by
      have : (x 1 + π / Real.sqrt 3 * x 3) ^ 2 = 0 := by linarith
      exact pow_eq_zero_iff (by norm_num) |>.mp this
    have e3 : x 2 + π / Real.sqrt 3 * x 3 = 0 := by
      have : (x 2 + π / Real.sqrt 3 * x 3) ^ 2 = 0 := by linarith
      exact pow_eq_zero_iff (by norm_num) |>.mp this
    have x3 : x 3 = 0 := (mul_eq_zero.mp e4).resolve_left hs
    have x4 : x 4 = 0 := (mul_eq_zero.mp e5).resolve_left hq
    rw [e4, add_zero] at e1 e2 e3
    apply hx
    funext i
    fin_cases i
    · exact e1
    · exact e2
    · exact e3
    · exact x3
    · exact x4

theorem wrap_sqrt_mul : Real.sqrt 3 * (π / Real.sqrt 3) = π ∧
    Real.sqrt 3 * (1 / (1000 * Real.sqrt 3)) = 1 / 1000 := by
  have hr := ne_of_gt sqrt_three_pos
  constructor <;> field_simp
  ring

theorem wrap_px_zero (X : Matrix (Fin n_x_) (Fin (2 * n_aug_ + 1)) ℝ) :
    (UKF.ofState wrapMean (wrapCov π (Real.sqrt 3)) X).predictSigmaPoints Real.sqrt Real.sin
        Real.cos (fun _ => wrapCholesky π (Real.sqrt 3)) 1 0 0
      = 12 := by
  obtain ⟨h0, h1, h2, h3, h4, h5, h6⟩ :=
    x_aug_vals (UKF.ofState wrapMean (wrapCov π (Real.sqrt 3)) X : UKF ℝ)
  unfold UKF.predictSigmaPoints predictSigmaPoint
  simp only [Xsig_aug_zero, h0, h1, h2, h3, h4, h5, h6]
  simp [wrapMean, UKF.ofState]
  norm_num

theorem wrap_px_plus (X : Matrix (Fin n_x_) (Fin (2 * n_aug_ + 1)) ℝ) (j : Fin n_aug_) :
    (UKF.ofState wrapMean (wrapCov π (Real.sqrt 3)) X).predictSigmaPoints Real.sqrt Real.sin
        Real.cos (fun _ => wrapCholesky π (Real.sqrt 3)) 1 0 (colPlus j)
      = wrapPxPlus (Real.sqrt 3) j := by
  have hs := wrap_sqrt_mul
  obtain ⟨h0, h1, h2, h3, h4, h5, h6⟩ :=
    x_aug_vals (UKF.ofState wrapMean (wrapCov π (Real.sqrt 3)) X : UKF ℝ)
  unfold UKF.predictSigmaPoints predictSigmaPoint
  simp only [Xsig_aug_plus, ofState_lambda, h0, h1, h2, h3, h4, h5, h6]
  fin_cases j <;>
    simp [wrapCholesky, wrapPxPlus, wrapPxMinus, wrapMean, UKF.ofState, Fin.ext_iff,
      fin_aug_val.1, fin_aug_val.2.1, fin_aug_val.2.2.1, fin_aug_val.2.2.2, hs.1, hs.2] <;>
    norm_num <;> ring_nf
  all_goals
    rw [if_neg (by rw [abs_of_pos (by norm_num)]; norm_num)]
    simp

theorem wrap_px_minus (X : Matrix (Fin n_x_) (Fin (2 * n_aug_ + 1)) ℝ) (j : Fin n_aug_) :
    (UKF.ofState wrapMean (wrapCov π (Real.sqrt 3)) X).predictSigmaPoints Real.sqrt Real.sin
        Real.cos (fun _ => wrapCholesky π (Real.sqrt 3)) 1 0 (colMinus j)
      = wrapPxMinus (Real.sqrt 3) j := by
  have hs := wrap_sqrt_mul
  obtain ⟨h0, h1, h2, h3, h4, h5, h6⟩ :=
    x_aug_vals (UKF.ofState wrapMean (wrapCov π (Real.sqrt 3)) X : UKF ℝ)
  unfold UKF.predictSigmaPoints predictSigmaPoint
  simp only [Xsig_aug_minus, ofState_lambda, h0, h1, h2, h3, h4, h5, h6]
  fin_cases j <;>
    simp [wrapCholesky, wrapPxPlus, wrapPxMinus, wrapMean, UKF.ofState, Fin.ext_iff,
      fin_aug_val.1, fin_aug_val.2.1, fin_aug_val.2.2.1, fin_aug_val.2.2.2, hs.1, hs.2] <;>
    norm_num <;> ring_nf
  all_goals
    rw [if_neg (by rw [abs_of_pos (by norm_num)]; norm_num)]
    simp

theorem wrap_mean_px (X : Matrix (Fin n_x_) (Fin (2 * n_aug_ + 1)) ℝ) :
    weightedMean (UKF.ofState wrapMean (wrapCov π (Real.sqrt 3)) X).weights_
      ((UKF.ofState wrapMean (wrapCov π (Real.sqrt 3)) X).predictSigmaPoints Real.sqrt
        Real.sin Real.cos (fun _ => wrapCholesky π (Real.sqrt 3)) 1) 0 = -20 := by
  rw [weightedMean_apply, sum_sigma]
  simp only [ofState_weights, ctorWeights_zero, ctorWeights_plus, ctorWeights_minus,
    wrap_px_zero, wrap_px_plus, wrap_px_minus]
  simp [Fin.sum_univ_succ, wrapPxPlus, wrapPxMinus]
  ring

/-- In the counterexample the variance of `px` after `Prediction(1)` is `-29`. -/
theorem wrap_px_variance (X : Matrix (Fin n_x_) (Fin (2 * n_aug_ + 1)) ℝ)
    (yaw : Fin (2 * n_aug_ + 1) → ℝ) :
    spec_P (UKF.ofState wrapMean (wrapCov π (Real.sqrt 3)) X).weights_
      ((UKF.ofState wrapMean (wrapCov π (Real.sqrt 3)) X).predictSigmaPoints Real.sqrt
        Real.sin Real.cos (fun _ => wrapCholesky π (Real.sqrt 3)) 1)
      (weightedMean (UKF.ofState wrapMean (wrapCov π (Real.sqrt 3)) X).weights_
        ((UKF.ofState wrapMean (wrapCov π (Real.sqrt 3)) X).predictSigmaPoints Real.sqrt
          Real.sin Real.cos (fun _ => wrapCholesky π (Real.sqrt 3)) 1)) yaw 0 0 = -29 := by
  have h03 : (0 : Fin n_x_) ≠ 3 := by decide
  rw [spec_P_apply]
  simp only [Function.update_noteq h03, wrap_mean_px]
  rw [sum_sigma]
  simp only [ofState_weights, ctorWeights_zero, ctorWeights_plus, ctorWeights_minus,
    wrap_px_zero, wrap_px_plus, wrap_px_minus]
  simp [Fin.sum_univ_succ, wrapPxPlus, wrapPxMinus]
  linear_combination (227 / 3 : ℝ) * sqrt_three_mul_self

theorem posSemidef_diag_nonneg (M : Matrix (Fin n_x_) (Fin n_x_) ℝ) (h : M.PosSemidef) :
    0 ≤ M 0 0 := by
  have := h.2 (Pi.single 0 1)
  simpa [dotProduct, Matrix.mulVec, Pi.single_apply] using this

/-- C6 (counterexample): with the symmetric positive-definite covariance `wrapCov`, the
mean `(0, 0, 12, 0, 0)`, the Cholesky factor `wrapCholesky` of the augmented covariance and
`delta_t = 1 ≥ 0`, `Prediction` returns, given enough fuel, a covariance whose first
diagonal entry is `-29`: it is not positive semi-definite. -/
theorem Prediction_not_posSemidef_counterexample :
    (wrapCov π (Real.sqrt 3)).PosDef ∧ (0 : ℝ) ≤ 1 ∧
    IsCholeskyFactor (wrapCholesky π (Real.sqrt 3))
      (UKF.ofState wrapMean (wrapCov π (Real.sqrt 3)) 0).P_aug ∧
    EventuallyReturns
      (fun fuel => (UKF.ofState wrapMean (wrapCov π (Real.sqrt 3)) 0).Prediction π Real.sqrt
        Real.sin Real.cos (fun _ => wrapCholesky π (Real.sqrt 3)) fuel 1)
      (fun s' => s'.P_ 0 0 = -29 ∧ ¬ s'.P_.PosSemidef) := by
  refine ⟨wrapCov_posDef, by norm_num, wrapCholesky_isCholeskyFactor 0, ?_⟩
  obtain ⟨N, yaw, h⟩ := Prediction_returns Real.sqrt Real.sin Real.cos
    (fun _ => wrapCholesky π (Real.sqrt 3)) (UKF.ofState wrapMean (wrapCov π (Real.sqrt 3)) 0) 1
  refine ⟨N, fun fuel hf => ⟨_, h fuel hf, wrap_px_variance 0 yaw, fun hpsd => ?_⟩⟩
  have h0 := posSemidef_diag_nonneg _ hpsd
  have h1 := wrap_px_variance 0 yaw
  have h2 : (0 : ℝ) ≤ -29 := by
    rw [← h1]
    exact h0
  norm_num at h2

/-- The quadratic form of the predicted covariance: `v^T P v = Σ w_i (d_i · v)²`. -/
theorem spec_P_quadratic (w : Fin (2 * n_aug_ + 1) → ℝ)
    (X : Matrix (Fin n_x_) (Fin (2 * n_aug_ + 1)) ℝ)
    (x : Fin n_x_ → ℝ) (yaw : Fin (2 * n_aug_ + 1) → ℝ) (v : Fin n_x_ → ℝ) :
    v ⬝ᵥ (spec_P w X x yaw *ᵥ v)
      = ∑ i, w i * (Function.update (fun r => X r i - x r) 3 (yaw i) ⬝ᵥ v) ^ 2 := by
  simp only [dotProduct, Matrix.mulVec, spec_P_apply, Fin.sum_univ_five, Finset.mul_sum,
    Finset.sum_mul, ← Finset.sum_add_distrib]
  exact Finset.sum_congr rfl (fun i _ => by ring)

/-- With the constructor's weights the predicted covariance is positive semi-definite when
the difference vector of column 0 vanishes. -/
theorem spec_P_posSemidef (X : Matrix (Fin n_x_) (Fin (2 * n_aug_ + 1)) ℝ)
    (x : Fin n_x_ → ℝ) (yaw : Fin (2 * n_aug_ + 1) → ℝ)
    (h0 : Function.update (fun r => X r 0 - x r) 3 (yaw 0) = 0) :
    (spec_P (setWeights n_aug_ (3 - (n_aug_ : ℝ))) X x yaw).PosSemidef := by
  refine ⟨?_, fun v => ?_⟩
  · rw [Matrix.IsHermitian, Matrix.conjTranspose_eq_transpose_of_trivial]
    exact spec_P_isSymm _ _ _ _
  · rw [star_trivial, spec_P_quadratic, sum_sigma]
    simp only [ctorWeights_zero, ctorWeights_plus, ctorWeights_minus, h0, Matrix.zero_dotProduct]
    have h1 : 0 ≤ ∑ j : Fin n_aug_, (1 / 6 : ℝ)
        * (Function.update (fun r => X r (colPlus j) - x r) 3 (yaw (colPlus j)) ⬝ᵥ v) ^ 2 :=
      Finset.sum_nonneg (fun j _ => by positivity)
    have h2 : 0 ≤ ∑ j : Fin n_aug_, (1 / 6 : ℝ)
        * (Function.update (fun r => X r (colMinus j) - x r) 3 (yaw (colMinus j)) ⬝ᵥ v) ^ 2 :=
      Finset.sum_nonneg (fun j _ => by positivity)
    norm_num
    linarith

theorem Prediction_posSemidef_of_some
    (llt : Matrix (Fin n_aug_) (Fin n_aug_) ℝ → Matrix (Fin n_aug_) (Fin n_aug_) ℝ)
    (x : Fin n_x_ → ℝ) (P : Matrix (Fin n_x_) (Fin n_x_) ℝ)
    (X : Matrix (Fin n_x_) (Fin (2 * n_aug_ + 1)) ℝ) (delta_t : ℝ)
    (hc : ∀ r,
      (UKF.ofState x P X).predictSigmaPoints Real.sqrt Real.sin Real.cos llt delta_t r 0
        = weightedMean (UKF.ofState x P X).weights_
            ((UKF.ofState x P X).predictSigmaPoints Real.sqrt Real.sin Real.cos llt delta_t) r)
    (fuel : ℕ) (s' : UKF ℝ)
    (h : (UKF.ofState x P X).Prediction π Real.sqrt Real.sin Real.cos llt fuel delta_t
      = some s') :
    s'.P_.PosSemidef := by
  obtain ⟨yaw, hy, rfl⟩ := Prediction_some _ _ _ _ _ _ _ _ _ h
  have hy0 := hy 0
  rw [hc 3, sub_self, normalizeAngle_of_mem fuel (by linarith [pi_pos]) (by linarith [pi_pos])]
    at hy0
  have hyaw : yaw 0 = 0 := (Option.some.inj hy0).symm
  apply spec_P_posSemidef
  funext r
  by_cases hr : r = 3
  · subst hr
    simp [hyaw]
  · simp [Function.update_noteq hr, hc r]

theorem predictSigmaPoints_zero_central
    (llt : Matrix (Fin n_aug_) (Fin n_aug_) ℝ → Matrix (Fin n_aug_) (Fin n_aug_) ℝ)
    (x : Fin n_x_ → ℝ) (P : Matrix (Fin n_x_) (Fin n_x_) ℝ)
    (X : Matrix (Fin n_x_) (Fin (2 * n_aug_ + 1)) ℝ) (r : Fin n_x_) :
    (UKF.ofState x P X).predictSigmaPoints Real.sqrt Real.sin Real.cos llt 0 r 0
      = weightedMean (UKF.ofState x P X).weights_
          ((UKF.ofState x P X).predictSigmaPoints Real.sqrt Real.sin Real.cos llt 0) r := by
  rw [weightedMean_zero, predictSigmaPoints_zero, Xsig_aug_zero, x_aug_head]
  rfl

/-- C6 (amended): for every mean `x_`, covariance `P_` and `delta_t` for which the
propagated central sigma point (column 0 of `Xsig_pred_`) equals the predicted mean, the
covariance left by `Prediction(delta_t)`, computed with the constructor's weights, is
positive semi-definite (`Prediction` returns given enough fuel, and the covariance is
positive semi-definite whenever it returns); this is the case for `delta_t = 0`. -/
theorem Prediction_posSemidef_of_central
    (llt : Matrix (Fin n_aug_) (Fin n_aug_) ℝ → Matrix (Fin n_aug_) (Fin n_aug_) ℝ)
    (x : Fin n_x_ → ℝ) (P : Matrix (Fin n_x_) (Fin n_x_) ℝ)
    (X : Matrix (Fin n_x_) (Fin (2 * n_aug_ + 1)) ℝ) (delta_t : ℝ)
    (hc : ∀ r,
      (UKF.ofState x P X).predictSigmaPoints Real.sqrt Real.sin Real.cos llt delta_t r 0
        = weightedMean (UKF.ofState x P X).weights_
            ((UKF.ofState x P X).predictSigmaPoints Real.sqrt Real.sin Real.cos llt delta_t)
            r) :
    EventuallyReturns
      (fun fuel => (UKF.ofState x P X).Prediction π Real.sqrt Real.sin Real.cos llt fuel
        delta_t)
      (fun s' => s'.P_.PosSemidef) ∧
    (∀ fuel s',
      (UKF.ofState x P X).Prediction π Real.sqrt Real.sin Real.cos llt fuel delta_t = some s' →
      s'.P_.PosSemidef) ∧
    EventuallyReturns
      (fun fuel => (UKF.ofState x P X).Prediction π Real.sqrt Real.sin Real.cos llt fuel 0)
      (fun s' => s'.P_.PosSemidef) := by
  refine ⟨?_, fun fuel s' h => Prediction_posSemidef_of_some llt x P X delta_t hc fuel s' h, ?_⟩
  · obtain ⟨N, yaw, h⟩ :=
      Prediction_returns Real.sqrt Real.sin Real.cos llt (UKF.ofState x P X) delta_t
    exact ⟨N, fun fuel hf => ⟨_, h fuel hf,
      Prediction_posSemidef_of_some llt x P X delta_t hc fuel _ (h fuel hf)⟩⟩
  · obtain ⟨N, yaw, h⟩ :=
      Prediction_returns Real.sqrt Real.sin Real.cos llt (UKF.ofState x P X) 0
    exact ⟨N, fun fuel hf => ⟨_, h fuel hf,
      Prediction_posSemidef_of_some llt x P X 0
        (predictSigmaPoints_zero_central llt x P X) fuel _ (h fuel hf)⟩⟩

/-- Witness for C6 (amended): mean `0`, identity covariance, `delta_t = 0`. -/
theorem Prediction_posSemidef_of_central_witness :
    (∀ r, (UKF.ofState (0 : Fin n_x_ → ℝ) 1 0).predictSigmaPoints Real.sqrt Real.sin Real.cos
        (fun _ => ctorCholesky) 0 r 0
      = weightedMean (UKF.ofState (0 : Fin n_x_ → ℝ) 1 0).weights_
          ((UKF.ofState (0 : Fin n_x_ → ℝ) 1 0).predictSigmaPoints Real.sqrt Real.sin Real.cos
            (fun _ => ctorCholesky) 0) r) ∧
    EventuallyReturns
      (fun fuel => (UKF.ofState (0 : Fin n_x_ → ℝ) 1 0).Prediction π Real.sqrt Real.sin
        Real.cos (fun _ => ctorCholesky) fuel 0)
      (fun s' => s'.P_.PosSemidef) :=
  ⟨predictSigmaPoints_zero_central (fun _ => ctorCholesky) 0 1 0,
    (Prediction_posSemidef_of_central (fun _ => ctorCholesky) 0 1 0 0
      (predictSigmaPoints_zero_central (fun _ => ctorCholesky) 0 1 0)).1⟩

end Definiteness

/-! ## The normalisation loops: termination and the angle they return -/

section AngleLoops

open Real

theorem whileSub_shift (fuel : ℕ) : ∀ {d a : ℝ}, whileSub π fuel d = some a →
    ∃ k : ℕ, a = d - k * (2 * π) := by
  induction fuel with
  | zero =>
    intro d a h
    by_cases hd : d > π
    · simp [whileSub, hd] at h
    · simp only [whileSub, if_neg hd, Option.some.injEq] at h
      exact ⟨0, by simp [h]⟩
  | succ f ih =>
    intro d a h
    by_cases hd : d > π
    · simp only [whileSub, if_pos hd] at h
      obtain ⟨k, hk⟩ := ih h
      exact ⟨k + 1, by rw [hk]; push_cast; ring⟩
    · simp only [whileSub, if_neg hd, Option.some.injEq] at h
      exact ⟨0, by simp [h]⟩

theorem whileAdd_shift (fuel : ℕ) : ∀ {d a : ℝ}, whileAdd π fuel d = some a →
    ∃ k : ℕ, a = d + k * (2 * π) := by
  induction fuel with
  | zero =>
    intro d a h
    by_cases hd : d < -π
    · simp [whileAdd, hd] at h
    · simp only [whileAdd, if_neg hd, Option.some.injEq] at h
      exact ⟨0, by simp [h]⟩
  | succ f ih =>
    intro d a h
    by_cases hd : d < -π
    · simp only [whileAdd, if_pos hd] at h
      obtain ⟨k, hk⟩ := ih h
      exact ⟨k + 1, by rw [hk]; push_cast; ring⟩
    · simp only [whileAdd, if_neg hd, Option.some.injEq] at h
      exact ⟨0, by simp [h]⟩

/-- Whatever the two loops return differs from the input by an integer multiple of `2π`. -/
theorem normalizeAngle_shift {fuel : ℕ} {d a : ℝ} (h : normalizeAngle π fuel d = some a) :
    ∃ k : ℤ, a = d + k * (2 * π) := by
  unfold normalizeAngle at h
  cases h1 : whileSub π fuel d with
  | none => simp [h1] at h
  | some b =>
    rw [h1] at h
    obtain ⟨k₁, hk₁⟩ := whileSub_shift fuel h1
    obtain ⟨k₂, hk₂⟩ := whileAdd_shift fuel h
    exact ⟨(k₂ : ℤ) - k₁, by rw [hk₂, hk₁]; push_cast; ring⟩

/-- C18: for every real `d` the two loops return, given enough fuel, a value that differs
from `d` by an integer multiple of `2π` and that a second normalisation leaves unchanged;
and for every `d'` with `-π ≤ d' ≤ π` they return `d'` itself, whatever the fuel. -/
theorem normalizeAngle_preserves_angle (d d' : ℝ) (h₁ : -π ≤ d') (h₂ : d' ≤ π) :
    EventuallyReturns (fun fuel => normalizeAngle π fuel d)
      (fun a => (∃ k : ℤ, a = d + k * (2 * π)) ∧
        ∀ fuel, normalizeAngle π fuel a = some a) ∧
    ∀ fuel, normalizeAngle π fuel d' = some d' := by
  refine ⟨?_, fun fuel => normalizeAngle_of_mem fuel h₁ h₂⟩
  obtain ⟨N, a, h⟩ := normalizeAngle_total d
  refine ⟨N, fun fuel hf => ⟨a, h fuel hf, normalizeAngle_shift (h fuel hf), fun fuel' => ?_⟩⟩
  have hb := normalizeAngle_bounds (h fuel hf)
  exact normalizeAngle_of_mem fuel' hb.1 hb.2

/-- Witness for C18: the angle `7` is normalised, and `0` is left as it is. -/
theorem normalizeAngle_preserves_angle_witness :
    (-π ≤ (0 : ℝ) ∧ (0 : ℝ) ≤ π) ∧
    EventuallyReturns (fun fuel => normalizeAngle π fuel 7)
      (fun a => (∃ k : ℤ, a = 7 + k * (2 * π)) ∧
        ∀ fuel, normalizeAngle π fuel a = some a) ∧
    ∀ fuel, normalizeAngle π fuel (0 : ℝ) = some 0 :=
  ⟨⟨by linarith [pi_pos], by linarith [pi_pos]⟩,
    normalizeAngle_preserves_angle 7 0 (by linarith [pi_pos]) (by linarith [pi_pos])⟩

/-- In exact arithmetic the two loops stop: for every real `d` there is a number `N` of
iterations such that, with fuel `N` or more, the first loop stops with a value `b ≤ π` and
the second loop, started from `b`, stops with a value `a` that is still at most `π` (and at
least `-π`). -/
theorem normalizeAngle_terminates (d : ℝ) :
    ∃ N b a, ∀ fuel, N ≤ fuel →
      whileSub π fuel d = some b ∧ b ≤ π ∧
      whileAdd π fuel b = some a ∧ a ≤ π ∧ -π ≤ a ∧
      normalizeAngle π fuel d = some a := by
  obtain ⟨N₁, b, h₁⟩ := whileSub_total d
  obtain ⟨N₂, a, h₂⟩ := whileAdd_total b
  refine ⟨max N₁ N₂, b, a, fun fuel hf => ?_⟩
  have hs := h₁ fuel (le_trans (le_max_left _ _) hf)
  have ha := h₂ fuel (le_trans (le_max_right _ _) hf)
  have hb := whileSub_le fuel hs
  have hab := whileAdd_bounds fuel hb ha
  refine ⟨hs, hb, ha, hab.2, hab.1, ?_⟩
  simp [normalizeAngle, hs, ha]

end AngleLoops

/-! ## The stubs: `UpdateRadar` and `ProcessMeasurement` -/

section Stubs

open Real

/-- C20: for every filter state and every measurement record `UpdateRadar` returns the
state it was given: `x_`, `P_`, `Xsig_pred_` and every other field are unchanged. -/
theorem UpdateRadar_unchanged (s : UKF ℝ) (m : MeasurementPackage ℝ) :
    s.UpdateRadar m = s ∧
    (s.UpdateRadar m).x_ = s.x_ ∧ (s.UpdateRadar m).P_ = s.P_ ∧
    (s.UpdateRadar m).Xsig_pred_ = s.Xsig_pred_ ∧
    (s.UpdateRadar m).weights_ = s.weights_ ∧
    (s.UpdateRadar m).is_initialized_ = s.is_initialized_ :=
  ⟨rfl, rfl, rfl, rfl, rfl, rfl⟩

/-- C12 (counterexample): on a freshly constructed filter, `ProcessMeasurement` with the
position measurement `(1, 2)` at time `5` leaves the mean at `(0, 0, 0, 0, 0)`, not
`(1, 2, 0, 0, 0)`, and leaves `is_initialized_` false. -/
theorem ProcessMeasurement_counterexample :
    ((UKF.ctor (0 : Matrix (Fin n_x_) (Fin (2 * n_aug_ + 1)) ℝ)).ProcessMeasurement
        ⟨5, SensorType.LASER, [1, 2]⟩).x_ ≠ ![1, 2, 0, 0, 0] ∧
    ((UKF.ctor (0 : Matrix (Fin n_x_) (Fin (2 * n_aug_ + 1)) ℝ)).ProcessMeasurement
        ⟨5, SensorType.LASER, [1, 2]⟩).is_initialized_ = false := by
  refine ⟨fun h => ?_, rfl⟩
  have h0 := congrFun h 0
  simp [UKF.ProcessMeasurement, UKF.ctor] at h0

/-- C12 (amended): for every measurement record, `ProcessMeasurement` on a freshly
constructed filter returns the filter as the constructor left it: the mean stays
`(0, 0, 0, 0, 0)` and `is_initialized_` stays false. -/
theorem ProcessMeasurement_unchanged (X : Matrix (Fin n_x_) (Fin (2 * n_aug_ + 1)) ℝ)
    (m : MeasurementPackage ℝ) :
    (UKF.ctor X).ProcessMeasurement m = UKF.ctor X ∧
    ((UKF.ctor X).ProcessMeasurement m).x_ = ![0, 0, 0, 0, 0] ∧
    ((UKF.ctor X).ProcessMeasurement m).is_initialized_ = false :=
  ⟨rfl, rfl, rfl⟩

end Stubs

/-! ## Negative elapsed time -/

section NegativeTime

open Real

theorem rewind_px_zero
    (llt : Matrix (Fin n_aug_) (Fin n_aug_) ℝ → Matrix (Fin n_aug_) (Fin n_aug_) ℝ) :
    (UKF.ofState wrapMean 1 0 : UKF ℝ).predictSigmaPoints Real.sqrt Real.sin Real.cos llt
      (-1) 0 0 = -12 := by
  obtain ⟨h0, h1, h2, h3, h4, h5, h6⟩ := x_aug_vals (UKF.ofState wrapMean 1 0 : UKF ℝ)
  unfold UKF.predictSigmaPoints predictSigmaPoint
  simp only [Xsig_aug_zero, h0, h1, h2, h3, h4, h5, h6]
  simp [wrapMean, UKF.ofState]
  norm_num

/-- C13 (counterexample): with mean `(0, 0, 12, 0, 0)`, identity covariance, zeroed sigma
points and `delta_t = -1 < 0`, whatever the Cholesky routine returns, `Prediction` reports
no error: given enough fuel it returns a state whose central sigma point has moved
backwards to `px = -12`, so `Xsig_pred_` (and with it `x_` and `P_`) is overwritten. -/
theorem Prediction_negative_time_counterexample :
    (-1 : ℝ) < 0 ∧
    ∀ llt : Matrix (Fin n_aug_) (Fin n_aug_) ℝ → Matrix (Fin n_aug_) (Fin n_aug_) ℝ,
      EventuallyReturns
        (fun fuel => (UKF.ofState wrapMean 1 0 : UKF ℝ).Prediction π Real.sqrt Real.sin
          Real.cos llt fuel (-1))
        (fun s' => s'.Xsig_pred_ 0 0 = -12 ∧
          s'.Xsig_pred_ ≠ (UKF.ofState wrapMean 1 0 : UKF ℝ).Xsig_pred_) := by
  refine ⟨by norm_num, fun llt => ?_⟩
  obtain ⟨N, yaw, h⟩ := Prediction_returns Real.sqrt Real.sin Real.cos llt
    (UKF.ofState wrapMean 1 0 : UKF ℝ) (-1)
  refine ⟨N, fun fuel hf => ⟨_, h fuel hf, rewind_px_zero llt, fun heq => ?_⟩⟩
  have h0 := congrFun (congrFun heq 0) 0
  have h1 : (UKF.ofState wrapMean 1 0 : UKF ℝ).predictSigmaPoints Real.sqrt Real.sin Real.cos
      llt (-1) 0 0 = 0 := h0
  rw [rewind_px_zero] at h1
  norm_num at h1

/-- C13 (amended): for every `delta_t < 0`, as for every other `delta_t`,
`Prediction(delta_t)` reports no error and runs the motion model: given enough fuel it
returns the state whose `Xsig_pred_` holds the sigma points propagated over `delta_t`,
whose `x_` is their weighted mean and whose `P_` is their weighted covariance. -/
theorem Prediction_negative_time
    (llt : Matrix (Fin n_aug_) (Fin n_aug_) ℝ → Matrix (Fin n_aug_) (Fin n_aug_) ℝ)
    (s : UKF ℝ) (delta_t : ℝ) (_h : delta_t < 0) :
    ∃ N, ∃ yaw : Fin (2 * n_aug_ + 1) → ℝ, ∀ fuel, N ≤ fuel →
      (∀ i, normalizeAngle π fuel
        (s.predictSigmaPoints Real.sqrt Real.sin Real.cos llt delta_t 3 i
          - weightedMean s.weights_
              (s.predictSigmaPoints Real.sqrt Real.sin Real.cos llt delta_t) 3)
        = some (yaw i)) ∧
      s.Prediction π Real.sqrt Real.sin Real.cos llt fuel delta_t =
        some { s with
          x_ := weightedMean s.weights_
            (s.predictSigmaPoints Real.sqrt Real.sin Real.cos llt delta_t)
          P_ := spec_P s.weights_ (s.predictSigmaPoints Real.sqrt Real.sin Real.cos llt delta_t)
            (weightedMean s.weights_
              (s.predictSigmaPoints Real.sqrt Real.sin Real.cos llt delta_t)) yaw
          Xsig_pred_ := s.predictSigmaPoints Real.sqrt Real.sin Real.cos llt delta_t } := by
  obtain ⟨N, yaw, h⟩ := normalizeAngle_family (fun i =>
    s.predictSigmaPoints Real.sqrt Real.sin Real.cos llt delta_t 3 i
      - weightedMean s.weights_ (s.predictSigmaPoints Real.sqrt Real.sin Real.cos llt delta_t) 3)
  exact ⟨N, yaw, fun fuel hf => ⟨h fuel hf,
    Prediction_eq π Real.sqrt Real.sin Real.cos llt fuel s delta_t yaw (h fuel hf)⟩⟩

/-- Witness for C13 (amended): `delta_t = -1`. -/
theorem Prediction_negative_time_witness :
    (-1 : ℝ) < 0 ∧
    ∃ N, ∀ fuel, N ≤ fuel → ∃ s',
      (UKF.ofState wrapMean 1 0 : UKF ℝ).Prediction π Real.sqrt Real.sin Real.cos
        (fun _ => ctorCholesky) fuel (-1) = some s' := by
  refine ⟨by norm_num, ?_⟩
  obtain ⟨N, yaw, h⟩ := Prediction_negative_time (fun _ => ctorCholesky)
    (UKF.ofState wrapMean 1 0 : UKF ℝ) (-1) (by norm_num)
  exact ⟨N, fun fuel hf => ⟨_, (h fuel hf).2⟩⟩

end NegativeTime

/-! ## What `Prediction` and `UpdateLidar` leave unchanged -/

section Frame

open Real

/-- C14: when `Prediction` returns, every field other than `x_`, `P_` and `Xsig_pred_` is
as before; when `UpdateLidar` returns, every field other than `x_` and `P_` is as before,
`Xsig_pred_` included.  (`n_x_` and `n_aug_` are constants of the embedding.)  Both do
return: `Prediction` for every state and `delta_t` given enough fuel, `UpdateLidar` for every
two-entry measurement given enough fuel when `S` is invertible. -/
theorem configuration_framed
    (llt : Matrix (Fin n_aug_) (Fin n_aug_) ℝ → Matrix (Fin n_aug_) (Fin n_aug_) ℝ)
    (s₁ s₁' : UKF ℝ) (delta_t : ℝ) (fuel₁ : ℕ)
    (h₁ : s₁.Prediction π Real.sqrt Real.sin Real.cos llt fuel₁ delta_t = some s₁')
    (s₂ s₂' : UKF ℝ) (m : MeasurementPackage ℝ) (fuel₂ : ℕ)
    (h₂ : s₂.UpdateLidar π fuel₂ m = some s₂') :
    (s₁'.weights_ = s₁.weights_ ∧ s₁'.lambda_ = s₁.lambda_ ∧
      s₁'.std_a_ = s₁.std_a_ ∧ s₁'.std_yawdd_ = s₁.std_yawdd_ ∧
      s₁'.std_laspx_ = s₁.std_laspx_ ∧ s₁'.std_laspy_ = s₁.std_laspy_ ∧
      s₁'.std_radr_ = s₁.std_radr_ ∧ s₁'.std_radphi_ = s₁.std_radphi_ ∧
      s₁'.std_radrd_ = s₁.std_radrd_ ∧
      s₁'.use_laser_ = s₁.use_laser_ ∧ s₁'.use_radar_ = s₁.use_radar_ ∧
      s₁'.is_initialized_ = s₁.is_initialized_) ∧
    (s₂'.weights_ = s₂.weights_ ∧ s₂'.lambda_ = s₂.lambda_ ∧
      s₂'.std_a_ = s₂.std_a_ ∧ s₂'.std_yawdd_ = s₂.std_yawdd_ ∧
      s₂'.std_laspx_ = s₂.std_laspx_ ∧ s₂'.std_laspy_ = s₂.std_laspy_ ∧
      s₂'.std_radr_ = s₂.std_radr_ ∧ s₂'.std_radphi_ = s₂.std_radphi_ ∧
      s₂'.std_radrd_ = s₂.std_radrd_ ∧
      s₂'.use_laser_ = s₂.use_laser_ ∧ s₂'.use_radar_ = s₂.use_radar_ ∧
      s₂'.is_initialized_ = s₂.is_initialized_ ∧
      s₂'.Xsig_pred_ = s₂.Xsig_pred_) ∧
    (∃ N, ∀ fuel, N ≤ fuel →
      ∃ s', s₁.Prediction π Real.sqrt Real.sin Real.cos llt fuel delta_t = some s') ∧
    (∀ (t : ℤ) (ty : SensorType) (z_px z_py : ℝ), (spec_S s₂).det ≠ 0 →
      ∃ N, ∀ fuel, N ≤ fuel → ∃ s', s₂.UpdateLidar π fuel ⟨t, ty, [z_px, z_py]⟩ = some s') := by
  have hret₁ : ∃ N, ∀ fuel, N ≤ fuel →
      ∃ s', s₁.Prediction π Real.sqrt Real.sin Real.cos llt fuel delta_t = some s' := by
    obtain ⟨N, yaw, h⟩ := Prediction_returns Real.sqrt Real.sin Real.cos llt s₁ delta_t
    exact ⟨N, fun fuel hf => ⟨_, h fuel hf⟩⟩
  have hret₂ : ∀ (t : ℤ) (ty : SensorType) (z_px z_py : ℝ), (spec_S s₂).det ≠ 0 →
      ∃ N, ∀ fuel, N ≤ fuel →
        ∃ s', s₂.UpdateLidar π fuel ⟨t, ty, [z_px, z_py]⟩ = some s' := by
    intro t ty z_px z_py hS
    obtain ⟨N, yaw, h⟩ := normalizeAngle_family (fun i => s₂.Xsig_pred_ 3 i - s₂.x_ 3)
    exact ⟨N, fun fuel hf => ⟨_, UpdateLidar_eq π fuel s₂ yaw (h fuel hf) hS t ty z_px z_py⟩⟩
  obtain ⟨yaw₁, -, rfl⟩ := Prediction_some _ _ _ _ _ _ _ _ _ h₁
  obtain ⟨_, _, -, yaw₂, -, -, rfl⟩ := UpdateLidar_some _ _ _ _ _ h₂
  exact ⟨⟨rfl, rfl, rfl, rfl, rfl, rfl, rfl, rfl, rfl, rfl, rfl, rfl⟩,
    ⟨rfl, rfl, rfl, rfl, rfl, rfl, rfl, rfl, rfl, rfl, rfl, rfl, rfl⟩, hret₁, hret₂⟩

/-- Witness for C14: a prediction and a position update of the freshly constructed filter
with zeroed sigma points. -/
theorem configuration_framed_witness :
    ∃ (fuel₁ : ℕ) (s₁' : UKF ℝ) (fuel₂ : ℕ) (s₂' : UKF ℝ),
      (UKF.ofState (0 : Fin n_x_ → ℝ) 1 0).Prediction π Real.sqrt Real.sin Real.cos
        (fun _ => ctorCholesky) fuel₁ 0 = some s₁' ∧
      (UKF.ofState (0 : Fin n_x_ → ℝ) 1 0).UpdateLidar π fuel₂
        ⟨0, SensorType.LASER, [1, 1]⟩ = some s₂' ∧
      s₁'.weights_ = (UKF.ofState (0 : Fin n_x_ → ℝ) 1 0).weights_ ∧
      s₂'.Xsig_pred_ = (UKF.ofState (0 : Fin n_x_ → ℝ) 1 0).Xsig_pred_ := by
  obtain ⟨N₁, yaw₁, h₁⟩ := Prediction_returns Real.sqrt Real.sin Real.cos
    (fun _ => ctorCholesky) (UKF.ofState (0 : Fin n_x_ → ℝ) 1 0) 0
  obtain ⟨N₂, yaw₂, h₂⟩ := normalizeAngle_family (fun i =>
    (UKF.ofState (0 : Fin n_x_ → ℝ) 1 0).Xsig_pred_ 3 i
      - (UKF.ofState (0 : Fin n_x_ → ℝ) 1 0).x_ 3)
  have hu := UpdateLidar_eq π N₂ (UKF.ofState (0 : Fin n_x_ → ℝ) 1 0) yaw₂ (h₂ N₂ le_rfl)
    spec_S_ctor_zero_det 0 SensorType.LASER 1 1
  have hf := configuration_framed (fun _ => ctorCholesky) _ _ 0 N₁ (h₁ N₁ le_rfl) _ _ _ N₂ hu
  exact ⟨N₁, _, N₂, _, h₁ N₁ le_rfl, hu, hf.1.1, hf.2.1.2.2.2.2.2.2.2.2.2.2.2.2⟩

end Frame

/-! ## The two branches of the process model -/

section Branches

open Real Filter Topology

variable {K : Type} [LinearOrderedField K]

/-- The loop body of lines 154-195 is the sigma point plus the increment of the branch
selected by the guard plus the noise contribution. -/
theorem predictSigmaPoint_eq (sin cos : K → K) (delta_t : K) (xa : Fin n_aug_ → K) :
    predictSigmaPoint sin cos delta_t xa
      = ![xa 0, xa 1, xa 2, xa 3, xa 4]
        + (if |xa 4| > 1e-3 then arcMotion sin cos delta_t (xa 2) (xa 3) (xa 4)
            else lineMotion sin cos delta_t (xa 2) (xa 3) (xa 4))
        + processNoise sin cos delta_t (xa 3) (xa 5) (xa 6) := rfl

theorem hasDerivAt_sin_arc (psi dt : ℝ) :
    HasDerivAt (fun p : ℝ => Real.sin (psi + p * dt)) (Real.cos psi * dt) 0 := by
  have h : HasDerivAt (fun p : ℝ => psi + p * dt) dt 0 := by
    simpa using ((hasDerivAt_id (0 : ℝ)).mul_const dt).const_add psi
  simpa using h.sin

theorem hasDerivAt_cos_arc (psi dt : ℝ) :
    HasDerivAt (fun p : ℝ => -Real.cos (psi + p * dt)) (Real.sin psi * dt) 0 := by
  have h : HasDerivAt (fun p : ℝ => psi + p * dt) dt 0 := by
    simpa using ((hasDerivAt_id (0 : ℝ)).mul_const dt).const_add psi
  simpa using h.cos.neg

/-- C11: for every speed `v`, heading `psi` and elapsed time `dt`, the two position
increments of the arc branch, `v/psi_d * (sin(psi + psi_d*dt) - sin(psi))` and
`v/psi_d * (-cos(psi + psi_d*dt) + cos(psi))`, tend, as `psi_d → 0` with `psi_d ≠ 0`, to
the increments `v*cos(psi)*dt` and `v*sin(psi)*dt` of the straight-line branch. -/
theorem arcMotion_tendsto_lineMotion (v psi dt q : ℝ) :
    Tendsto (fun psi_d => arcMotion Real.sin Real.cos dt v psi psi_d 0) (𝓝[≠] 0)
      (𝓝 (lineMotion Real.sin Real.cos dt v psi q 0)) ∧
    Tendsto (fun psi_d => arcMotion Real.sin Real.cos dt v psi psi_d 1) (𝓝[≠] 0)
      (𝓝 (lineMotion Real.sin Real.cos dt v psi q 1)) ∧
    lineMotion Real.sin Real.cos dt v psi q 0 = v * Real.cos psi * dt ∧
    lineMotion Real.sin Real.cos dt v psi q 1 = v * Real.sin psi * dt := by
  have h0 := ((hasDerivAt_sin_arc psi dt).tendsto_slope_zero).const_mul v
  have h1 := ((hasDerivAt_cos_arc psi dt).tendsto_slope_zero).const_mul v
  refine ⟨?_, ?_, by simp [lineMotion], by simp [lineMotion]⟩
  · have e : (fun psi_d => arcMotion Real.sin Real.cos dt v psi psi_d 0)
        = fun t : ℝ => v * (t⁻¹ • (Real.sin (psi + (0 + t) * dt) - Real.sin (psi + 0 * dt))) := by
      funext t
      simp [arcMotion, div_eq_mul_inv]
      ring
    have e' : lineMotion Real.sin Real.cos dt v psi q 0 = v * (Real.cos psi * dt) := by
      simp [lineMotion]
      ring
    rw [e, e']
    exact h0
  · have e : (fun psi_d => arcMotion Real.sin Real.cos dt v psi psi_d 1)
        = fun t : ℝ =>
          v * (t⁻¹ • (-Real.cos (psi + (0 + t) * dt) - -Real.cos (psi + 0 * dt))) := by
      funext t
      simp [arcMotion, div_eq_mul_inv]
      ring
    have e' : lineMotion Real.sin Real.cos dt v psi q 1 = v * (Real.sin psi * dt) := by
      simp [lineMotion]
      ring
    rw [e, e']
    exact h1

theorem predictSigmaPointChecked_eq (sin cos : K → K) (delta_t : K) (xa : Fin n_aug_ → K) :
    predictSigmaPointChecked sin cos delta_t xa
      = some (predictSigmaPoint sin cos delta_t xa) := by
  unfold predictSigmaPointChecked predictSigmaPoint
  by_cases h : |xa 4| > 1e-3
  · have hne : xa 4 ≠ 0 := by
      intro h0
      rw [h0, abs_zero] at h
      norm_num at h
    simp [checkedDiv, h, hne]
  · simp [h]

/-- C15: for every sigma point and every `delta_t` the loop body with checked divisions
returns the value of the loop body, so no division by 0 is evaluated; the increment is the
straight-line one exactly when `|psi_d| ≤ 1e-3`, which includes `psi_d = 0`, and the arc one
(the only one that divides by `psi_d`) otherwise, where `psi_d ≠ 0`.  The same holds for
each of the fifteen sigma points of `Prediction`. -/
theorem turn_rate_guard
    (llt : Matrix (Fin n_aug_) (Fin n_aug_) ℝ → Matrix (Fin n_aug_) (Fin n_aug_) ℝ)
    (s : UKF ℝ) (delta_t : ℝ) (xa : Fin n_aug_ → ℝ) :
    predictSigmaPointChecked Real.sin Real.cos delta_t xa
      = some (predictSigmaPoint Real.sin Real.cos delta_t xa) ∧
    predictSigmaPoint Real.sin Real.cos delta_t xa
      = ![xa 0, xa 1, xa 2, xa 3, xa 4]
        + (if |xa 4| ≤ 1e-3 then lineMotion Real.sin Real.cos delta_t (xa 2) (xa 3) (xa 4)
            else arcMotion Real.sin Real.cos delta_t (xa 2) (xa 3) (xa 4))
        + processNoise Real.sin Real.cos delta_t (xa 3) (xa 5) (xa 6) ∧
    ¬ (|xa 4| > 1e-3 ∧ xa 4 = 0) ∧
    |(0 : ℝ)| ≤ 1e-3 ∧
    ∀ i, predictSigmaPointChecked Real.sin Real.cos delta_t
        (fun k => s.Xsig_aug Real.sqrt llt k i)
      = some (fun r => s.predictSigmaPoints Real.sqrt Real.sin Real.cos llt delta_t r i) := by
  refine ⟨predictSigmaPointChecked_eq _ _ _ _, ?_, ?_, by norm_num, fun i => ?_⟩
  · rw [predictSigmaPoint_eq]
    by_cases h : |xa 4| > 1e-3
    · rw [if_pos h, if_neg (not_le.mpr h)]
    · rw [if_neg h, if_pos (not_lt.mp h)]
  · rintro ⟨h, h0⟩
    rw [h0, abs_zero] at h
    norm_num at h
  · exact predictSigmaPointChecked_eq _ _ _ _

end Branches

/-! ## The position update as a linear Kalman update -/

section LinearKalman

open Real

theorem fin_x_val : ((3 : Fin n_x_) : ℕ) = 3 ∧ ((4 : Fin n_x_) : ℕ) = 4 := ⟨rfl, rfl⟩

theorem measurementMatrix_mulVec (v : Fin n_x_ → ℝ) :
    (measurementMatrix : Matrix (Fin 2) (Fin n_x_) ℝ) *ᵥ v = ![v 0, v 1] := by
  funext r
  fin_cases r <;> simp [measurementMatrix, Matrix.mulVec, dotProduct, Fin.sum_univ_five, fin_x_val.1,
    fin_x_val.2]

theorem mul_measurementMatrix_transpose {ι : Type} (M : Matrix ι (Fin n_x_) ℝ) (r : ι) :
    (M * (measurementMatrix : Matrix (Fin 2) (Fin n_x_) ℝ)ᵀ) r 0 = M r 0 ∧
    (M * (measurementMatrix : Matrix (Fin 2) (Fin n_x_) ℝ)ᵀ) r 1 = M r 1 := by
  constructor <;>
    simp [measurementMatrix, Matrix.mul_apply, Fin.sum_univ_five, fin_x_val.1, fin_x_val.2]

theorem measurementMatrix_mul {ι : Type} (M : Matrix (Fin n_x_) ι ℝ) (c : ι) :
    ((measurementMatrix : Matrix (Fin 2) (Fin n_x_) ℝ) * M) 0 c = M 0 c ∧
    ((measurementMatrix : Matrix (Fin 2) (Fin n_x_) ℝ) * M) 1 c = M 1 c := by
  constructor <;>
    simp [measurementMatrix, Matrix.mul_apply, Fin.sum_univ_five, fin_x_val.1, fin_x_val.2]

theorem weightedCovariance_apply (w : Fin (2 * n_aug_ + 1) → ℝ)
    (X : Matrix (Fin n_x_) (Fin (2 * n_aug_ + 1)) ℝ) (x : Fin n_x_ → ℝ) (a b : Fin n_x_) :
    weightedCovariance w X x a b = ∑ i, w i * ((X a i - x a) * (X b i - x b)) := by
  unfold weightedCovariance
  rw [Matrix.sum_apply]
  simp [vecMulVec]

theorem weightedCovariance_isSymm (w : Fin (2 * n_aug_ + 1) → ℝ)
    (X : Matrix (Fin n_x_) (Fin (2 * n_aug_ + 1)) ℝ) (x : Fin n_x_ → ℝ) :
    (weightedCovariance w X x).IsSymm := by
  ext a b
  rw [Matrix.transpose_apply, weightedCovariance_apply, weightedCovariance_apply]
  exact Finset.sum_congr rfl (fun i _ => by ring)

theorem measurementMatrix_conj (M : Matrix (Fin n_x_) (Fin n_x_) ℝ) :
    (measurementMatrix : Matrix (Fin 2) (Fin n_x_) ℝ) * M
      * (measurementMatrix : Matrix (Fin 2) (Fin n_x_) ℝ)ᵀ = !![M 0 0, M 0 1; M 1 0, M 1 1] := by
  ext a b
  fin_cases a <;> fin_cases b
  · show ((measurementMatrix : Matrix (Fin 2) (Fin n_x_) ℝ) * M * (measurementMatrix : Matrix (Fin 2) (Fin n_x_) ℝ)ᵀ) 0 0 = M 0 0
    rw [(mul_measurementMatrix_transpose _ _).1, (measurementMatrix_mul _ _).1]
  · show ((measurementMatrix : Matrix (Fin 2) (Fin n_x_) ℝ) * M * (measurementMatrix : Matrix (Fin 2) (Fin n_x_) ℝ)ᵀ) 0 1 = M 0 1
    rw [(mul_measurementMatrix_transpose _ _).2, (measurementMatrix_mul _ _).1]
  · show ((measurementMatrix : Matrix (Fin 2) (Fin n_x_) ℝ) * M * (measurementMatrix : Matrix (Fin 2) (Fin n_x_) ℝ)ᵀ) 1 0 = M 1 0
    rw [(mul_measurementMatrix_transpose _ _).1, (measurementMatrix_mul _ _).2]
  · show ((measurementMatrix : Matrix (Fin 2) (Fin n_x_) ℝ) * M * (measurementMatrix : Matrix (Fin 2) (Fin n_x_) ℝ)ᵀ) 1 1 = M 1 1
    rw [(mul_measurementMatrix_transpose _ _).2, (measurementMatrix_mul _ _).2]

theorem spec_z_pred_eq_of_mean (s : UKF ℝ)
    (hx : s.x_ = weightedMean s.weights_ s.Xsig_pred_) :
    spec_z_pred s = ![s.x_ 0, s.x_ 1] := by
  funext r
  unfold spec_z_pred
  rw [Finset.sum_apply, hx]
  fin_cases r <;> simp [spec_z, weightedMean_apply]

theorem spec_Pzz_eq_of_cov (s : UKF ℝ)
    (hx : s.x_ = weightedMean s.weights_ s.Xsig_pred_)
    (hP : s.P_ = weightedCovariance s.weights_ s.Xsig_pred_ s.x_) :
    spec_Pzz s = (measurementMatrix : Matrix (Fin 2) (Fin n_x_) ℝ) * s.P_
      * (measurementMatrix : Matrix (Fin 2) (Fin n_x_) ℝ)ᵀ := by
  have hzp := spec_z_pred_eq_of_mean s hx
  have h00 := weightedCovariance_apply s.weights_ s.Xsig_pred_ s.x_ 0 0
  have h01 := weightedCovariance_apply s.weights_ s.Xsig_pred_ s.x_ 0 1
  have h10 := weightedCovariance_apply s.weights_ s.Xsig_pred_ s.x_ 1 0
  have h11 := weightedCovariance_apply s.weights_ s.Xsig_pred_ s.x_ 1 1
  rw [← hP] at h00 h01 h10 h11
  rw [measurementMatrix_conj]
  ext a b
  unfold spec_Pzz
  rw [hzp, Matrix.sum_apply]
  fin_cases a <;> fin_cases b <;> simp [vecMulVec, spec_z, h00, h01, h10, h11]

theorem spec_Tc_eq_of_cov (s : UKF ℝ)
    (hx : s.x_ = weightedMean s.weights_ s.Xsig_pred_)
    (hP : s.P_ = weightedCovariance s.weights_ s.Xsig_pred_ s.x_) :
    spec_Tc s (fun i => s.Xsig_pred_ 3 i - s.x_ 3)
      = s.P_ * (measurementMatrix : Matrix (Fin 2) (Fin n_x_) ℝ)ᵀ := by
  have hzp := spec_z_pred_eq_of_mean s hx
  ext r b
  have hr0 := weightedCovariance_apply s.weights_ s.Xsig_pred_ s.x_ r 0
  have hr1 := weightedCovariance_apply s.weights_ s.Xsig_pred_ s.x_ r 1
  rw [← hP] at hr0 hr1
  unfold spec_Tc
  rw [hzp, Matrix.sum_apply]
  simp only [Function.update_eq_self]
  fin_cases b
  · show _ = (s.P_ * (measurementMatrix : Matrix (Fin 2) (Fin n_x_) ℝ)ᵀ) r 0
    rw [(mul_measurementMatrix_transpose _ _).1, hr0]
    simp [vecMulVec, spec_z]
  · show _ = (s.P_ * (measurementMatrix : Matrix (Fin 2) (Fin n_x_) ℝ)ᵀ) r 1
    rw [(mul_measurementMatrix_transpose _ _).2, hr1]
    simp [vecMulVec, spec_z]

theorem normalizeYaw_of_abs_le (fuel : ℕ) (d : Fin n_x_ → ℝ) (h : |d 3| ≤ π) :
    normalizeYaw π fuel d = some d := by
  have h' := abs_le.mp h
  simp [normalizeYaw, normalizeAngle_of_mem fuel h'.1 h'.2]

theorem linearS_eq_spec_S (s : UKF ℝ)
    (hx : s.x_ = weightedMean s.weights_ s.Xsig_pred_)
    (hP : s.P_ = weightedCovariance s.weights_ s.Xsig_pred_ s.x_) :
    linearS s = spec_S s := by
  unfold linearS spec_S
  rw [spec_Pzz_eq_of_cov s hx hP, UKF.R_eq_diagonal]

/-- C17: whenever `x_` is the weighted mean of `Xsig_pred_`, `P_` is its weighted covariance,
no heading difference exceeds `π` in magnitude and `S = H P_ H^T + R` is invertible, then for
every amount of fuel the covariance loop of `Prediction` computes the plain weighted
covariance, and `UpdateLidar` computes `z_pred = H x_`, `S = H P_ H^T + R` and
`Tc = P_ H^T` for `H = [I_2 | 0]`, and returns the state with
`x_ + P_ H^T S⁻¹ (z - H x_)` and `P_ - P_ H^T S⁻¹ H P_`. -/
theorem UpdateLidar_linear_kalman (s : UKF ℝ) (t : ℤ) (ty : SensorType) (z_px z_py : ℝ)
    (hx : s.x_ = weightedMean s.weights_ s.Xsig_pred_)
    (hP : s.P_ = weightedCovariance s.weights_ s.Xsig_pred_ s.x_)
    (hyaw : ∀ i, |s.Xsig_pred_ 3 i - s.x_ 3| ≤ π)
    (hS : (linearS s).det ≠ 0) (fuel : ℕ) :
    predictCovariance π fuel s.weights_ s.Xsig_pred_ s.x_
      = some (weightedCovariance s.weights_ s.Xsig_pred_ s.x_) ∧
    weightedMean s.weights_ (measurementSigma s.Xsig_pred_)
      = (measurementMatrix : Matrix (Fin 2) (Fin n_x_) ℝ) *ᵥ s.x_ ∧
    innovationCovariance s.weights_ (measurementSigma s.Xsig_pred_)
      ((measurementMatrix : Matrix (Fin 2) (Fin n_x_) ℝ) *ᵥ s.x_) s.R = linearS s ∧
    crossCorrelation π fuel s.weights_ s.Xsig_pred_ s.x_ (measurementSigma s.Xsig_pred_)
      ((measurementMatrix : Matrix (Fin 2) (Fin n_x_) ℝ) *ᵥ s.x_)
      = some (s.P_ * (measurementMatrix : Matrix (Fin 2) (Fin n_x_) ℝ)ᵀ) ∧
    inverse (linearS s) = some (linearS s)⁻¹ ∧
    s.UpdateLidar π fuel ⟨t, ty, [z_px, z_py]⟩ =
      some { s with
        x_ := s.x_ + (s.P_ * (measurementMatrix : Matrix (Fin 2) (Fin n_x_) ℝ)ᵀ
                * (linearS s)⁻¹) *ᵥ
              (![z_px, z_py] - (measurementMatrix : Matrix (Fin 2) (Fin n_x_) ℝ) *ᵥ s.x_)
        P_ := s.P_ - s.P_ * (measurementMatrix : Matrix (Fin 2) (Fin n_x_) ℝ)ᵀ
                * (linearS s)⁻¹ * (measurementMatrix : Matrix (Fin 2) (Fin n_x_) ℝ) * s.P_ } := by
  have hy : ∀ i, normalizeAngle π fuel (s.Xsig_pred_ 3 i - s.x_ 3)
      = some (s.Xsig_pred_ 3 i - s.x_ 3) := fun i =>
    normalizeAngle_of_mem fuel (abs_le.mp (hyaw i)).1 (abs_le.mp (hyaw i)).2
  have hzp : weightedMean s.weights_ (measurementSigma s.Xsig_pred_)
      = (measurementMatrix : Matrix (Fin 2) (Fin n_x_) ℝ) *ᵥ s.x_ := by
    rw [weightedMean_measurementSigma, spec_z_pred_eq_of_mean s hx, measurementMatrix_mulVec]
  have hSeq := linearS_eq_spec_S s hx hP
  have hTc := spec_Tc_eq_of_cov s hx hP
  have hsymm : s.P_.IsSymm := by
    rw [hP]
    exact weightedCovariance_isSymm _ _ _
  have hS' : (spec_S s).det ≠ 0 := hSeq ▸ hS
  refine ⟨?_, hzp, ?_, ?_, inverse_eq_inv _ hS, ?_⟩
  · rw [predictCovariance_eq_sum π fuel s.weights_ s.Xsig_pred_ s.x_
      (fun i r => s.Xsig_pred_ r i - s.x_ r)
      (fun i => normalizeYaw_of_abs_le fuel _ (hyaw i))]
    rfl
  · rw [← hzp, innovationCovariance_eq_spec, hSeq]
  · rw [← hzp, crossCorrelation_eq_spec π fuel s _ hy, hTc]
  · rw [UpdateLidar_eq π fuel s _ hy hS' t ty z_px z_py,
      gain_quadratic _ _ (spec_S_isSymm s) (isUnit_iff_ne_zero.mpr hS'), hTc, ← hSeq,
      Matrix.transpose_mul, Matrix.transpose_transpose, hsymm.eq,
      ← weightedMean_measurementSigma, hzp]
    simp only [Matrix.mul_assoc]

theorem sum_spreadSigma (f : Fin (2 * n_aug_ + 1) → ℝ)
    (h : ∀ i, i.val ≠ 1 → i.val ≠ 8 → f i = 0) :
    ∑ i, setWeights n_aug_ (3 - (n_aug_ : ℝ)) i * f i
      = 1 / 6 * f (colPlus 0) + 1 / 6 * f (colMinus 0) := by
  rw [sum_sigma]
  simp only [ctorWeights_zero, ctorWeights_plus, ctorWeights_minus]
  rw [h 0 (by simp) (by simp), Fin.sum_univ_succ, Fin.sum_univ_succ (fun j => 1 / 6 * f (colMinus j))]
  have hp : ∀ j : Fin 6, f (colPlus j.succ) = 0 := fun j =>
    h _ (by simp [colPlus]) (by have := j.isLt; simp [colPlus]; omega)
  have hm : ∀ j : Fin 6, f (colMinus j.succ) = 0 := fun j =>
    h _ (by simp [colMinus]; omega) (by simp [colMinus, n_aug_])
  simp only [hp, hm]
  simp

theorem spreadSigma_eq_zero (r : Fin n_x_) (i : Fin (2 * n_aug_ + 1))
    (h : r.val ≠ 0 ∨ (i.val ≠ 1 ∧ i.val ≠ 8)) : (spreadSigma : Matrix _ _ ℝ) r i = 0 := by
  unfold spreadSigma
  rcases h with h | h
  · rw [if_neg h]
  · simp [h.1, h.2]

theorem spreadSigma_plus (r : Fin n_x_) :
    (spreadSigma : Matrix _ _ ℝ) r (colPlus 0) = if r.val = 0 then 1 else 0 := by
  unfold spreadSigma
  rw [show (colPlus (0 : Fin n_aug_)).val = 1 from rfl]
  simp

theorem spreadSigma_minus (r : Fin n_x_) :
    (spreadSigma : Matrix _ _ ℝ) r (colMinus 0) = if r.val = 0 then -1 else 0 := by
  unfold spreadSigma
  rw [show (colMinus (0 : Fin n_aug_)).val = 8 from rfl]
  simp

theorem spreadState_mean :
    (spreadState : UKF ℝ).x_ = weightedMean (spreadState : UKF ℝ).weights_
      (spreadState : UKF ℝ).Xsig_pred_ := by
  funext r
  rw [weightedMean_apply]
  show (0 : ℝ) = ∑ i, setWeights n_aug_ (3 - (n_aug_ : ℝ)) i * spreadSigma r i
  rw [sum_spreadSigma _ (fun i h1 h8 => spreadSigma_eq_zero r i (Or.inr ⟨h1, h8⟩)),
    spreadSigma_plus, spreadSigma_minus]
  split_ifs <;> norm_num

theorem spreadState_cov :
    (spreadState : UKF ℝ).P_ = weightedCovariance (spreadState : UKF ℝ).weights_
      (spreadState : UKF ℝ).Xsig_pred_ (spreadState : UKF ℝ).x_ := rfl

theorem spreadState_yaw (i : Fin (2 * n_aug_ + 1)) :
    |(spreadState : UKF ℝ).Xsig_pred_ 3 i - (spreadState : UKF ℝ).x_ 3| ≤ π := by
  have h : (spreadState : UKF ℝ).Xsig_pred_ 3 i = 0 :=
    spreadSigma_eq_zero 3 i (Or.inl (by rw [fin_x_val.1]; norm_num))
  have hx : (spreadState : UKF ℝ).x_ 3 = 0 := rfl
  rw [h, hx, sub_zero, abs_zero]
  exact Real.pi_pos.le

theorem spreadState_P (a b : Fin n_x_) :
    (spreadState : UKF ℝ).P_ a b = if a.val = 0 ∧ b.val = 0 then 1 / 3 else 0 := by
  show weightedCovariance (setWeights n_aug_ (3 - (n_aug_ : ℝ))) spreadSigma 0 a b = _
  rw [weightedCovariance_apply, sum_spreadSigma _ (fun i h1 h8 => by
    rw [spreadSigma_eq_zero a i (Or.inr ⟨h1, h8⟩)]
    simp)]
  simp only [spreadSigma_plus, spreadSigma_minus, Pi.zero_apply, sub_zero]
  by_cases ha : a.val = 0 <;> by_cases hb : b.val = 0 <;> simp [ha, hb]
  norm_num

theorem spreadState_det : (linearS (spreadState : UKF ℝ)).det ≠ 0 := by
  unfold linearS
  have hR : (spreadState : UKF ℝ).R = !![0.15 * 0.15, 0; 0, 0.15 * 0.15] := rfl
  rw [measurementMatrix_conj, Matrix.det_fin_two, hR]
  simp [spreadState_P]
  norm_num

/-- Witness for C17: the filter whose sigma points are spread along `px`, and the
measurement `(1, 2)`. -/
theorem UpdateLidar_linear_kalman_witness :
    (spreadState : UKF ℝ).x_ = weightedMean (spreadState : UKF ℝ).weights_
      (spreadState : UKF ℝ).Xsig_pred_ ∧
    (spreadState : UKF ℝ).P_ = weightedCovariance (spreadState : UKF ℝ).weights_
      (spreadState : UKF ℝ).Xsig_pred_ (spreadState : UKF ℝ).x_ ∧
    (∀ i, |(spreadState : UKF ℝ).Xsig_pred_ 3 i - (spreadState : UKF ℝ).x_ 3| ≤ π) ∧
    (linearS (spreadState : UKF ℝ)).det ≠ 0 ∧
    (spreadState : UKF ℝ).UpdateLidar π 0 ⟨0, SensorType.LASER, [1, 2]⟩ =
      some { (spreadState : UKF ℝ) with
        x_ := (spreadState : UKF ℝ).x_
          + ((spreadState : UKF ℝ).P_ * (measurementMatrix : Matrix (Fin 2) (Fin n_x_) ℝ)ᵀ
              * (linearS (spreadState : UKF ℝ))⁻¹) *ᵥ
            (![1, 2] - (measurementMatrix : Matrix (Fin 2) (Fin n_x_) ℝ) *ᵥ
              (spreadState : UKF ℝ).x_)
        P_ := (spreadState : UKF ℝ).P_
          - (spreadState : UKF ℝ).P_ * (measurementMatrix : Matrix (Fin 2) (Fin n_x_) ℝ)ᵀ
              * (linearS (spreadState : UKF ℝ))⁻¹
              * (measurementMatrix : Matrix (Fin 2) (Fin n_x_) ℝ) * (spreadState : UKF ℝ).P_ } :=
  ⟨spreadState_mean, spreadState_cov, spreadState_yaw, spreadState_det,
    (UpdateLidar_linear_kalman spreadState 0 SensorType.LASER 1 2 spreadState_mean spreadState_cov
      spreadState_yaw spreadState_det 0).2.2.2.2.2⟩

end LinearKalman

/-! ## The Cholesky precondition -/

section Cholesky

theorem sum_aug (f : Fin n_aug_ → ℝ) : ∑ i, f i = ∑ r, f (headIdx r) + f 5 + f 6 := by
  rw [Fin.sum_univ_seven, Fin.sum_univ_five]
  rfl

theorem headIdx_val (r : Fin n_x_) :
    (headIdx r).val < n_x_ ∧ (headIdx r).val ≠ 5 ∧ (headIdx r).val ≠ 6 := by
  have := r.isLt
  simp only [headIdx, n_x_] at this ⊢
  omega

theorem P_aug_head_noise (s : UKF ℝ) (r : Fin n_x_) :
    s.P_aug (headIdx r) 5 = 0 ∧ s.P_aug (headIdx r) 6 = 0 ∧
    s.P_aug 5 (headIdx r) = 0 ∧ s.P_aug 6 (headIdx r) = 0 := by
  obtain ⟨_, h5, h6⟩ := headIdx_val r
  refine ⟨?_, ?_, ?_, ?_⟩ <;>
    simp [UKF.P_aug, fin_aug_val.2.2.1, fin_aug_val.2.2.2, h5, h6, n_x_]

theorem P_aug_noise (s : UKF ℝ) :
    s.P_aug 5 5 = s.std_a_ * s.std_a_ ∧ s.P_aug 6 6 = s.std_yawdd_ * s.std_yawdd_ ∧
    s.P_aug 5 6 = 0 ∧ s.P_aug 6 5 = 0 := by
  refine ⟨?_, ?_, ?_, ?_⟩ <;> simp [UKF.P_aug, fin_aug_val.2.2.1, fin_aug_val.2.2.2, n_x_]

theorem P_aug_quadratic (s : UKF ℝ) (v : Fin n_aug_ → ℝ) :
    v ⬝ᵥ (s.P_aug *ᵥ v)
      = (fun r => v (headIdx r)) ⬝ᵥ (s.P_ *ᵥ fun r => v (headIdx r))
        + s.std_a_ * s.std_a_ * (v 5 * v 5) + s.std_yawdd_ * s.std_yawdd_ * (v 6 * v 6) := by
  simp only [dotProduct, mulVec, sum_aug, P_aug_head, (P_aug_head_noise s _).1,
    (P_aug_head_noise s _).2.1, (P_aug_head_noise s _).2.2.1, (P_aug_head_noise s _).2.2.2,
    (P_aug_noise s).1, (P_aug_noise s).2.1, (P_aug_noise s).2.2.1, (P_aug_noise s).2.2.2]
  simp
  ring

theorem P_aug_isSymm (s : UKF ℝ) (h : s.P_.IsSymm) : s.P_aug.IsSymm := by
  ext i j
  rw [Matrix.transpose_apply]
  unfold UKF.P_aug
  by_cases hij : i.val < n_x_ ∧ j.val < n_x_
  · rw [dif_pos hij, dif_pos ⟨hij.2, hij.1⟩]
    exact congrFun (congrFun h _) _
  · rw [dif_neg hij, dif_neg (fun hji => hij ⟨hji.2, hji.1⟩)]
    have hi := i.isLt
    have hj := j.isLt
    simp only [n_x_, n_aug_] at hij hi hj ⊢
    split_ifs <;> first | rfl | omega

theorem P_aug_posDef (s : UKF ℝ) (hP : s.P_.PosDef) (ha : s.std_a_ ≠ 0)
    (hy : s.std_yawdd_ ≠ 0) : s.P_aug.PosDef := by
  refine ⟨?_, fun v hv => ?_⟩
  · have hsymm : s.P_.IsSymm := by
      have := hP.1
      rwa [Matrix.IsHermitian, Matrix.conjTranspose_eq_transpose_of_trivial] at this
    rw [Matrix.IsHermitian, Matrix.conjTranspose_eq_transpose_of_trivial]
    exact P_aug_isSymm s hsymm
  · rw [star_trivial, P_aug_quadratic]
    have ha2 : 0 < s.std_a_ * s.std_a_ := mul_self_pos.mpr ha
    have hy2 : 0 < s.std_yawdd_ * s.std_yawdd_ := mul_self_pos.mpr hy
    have h5 : 0 ≤ v 5 * v 5 := mul_self_nonneg _
    have h6 : 0 ≤ v 6 * v 6 := mul_self_nonneg _
    by_cases hhead : (fun r => v (headIdx r)) = 0
    · have hne : v 5 ≠ 0 ∨ v 6 ≠ 0 := by
        by_contra hcon
        push_neg at hcon
        apply hv
        funext i
        have hz : ∀ r, v (headIdx r) = 0 := fun r => congrFun hhead r
        fin_cases i
        · exact hz 0
        · exact hz 1
        · exact hz 2
        · exact hz 3
        · exact hz 4
        · exact hcon.1
        · exact hcon.2
      rw [hhead]
      simp only [Matrix.mulVec_zero, dotProduct_zero, zero_add]
      rcases hne with h | h
      · have : 0 < v 5 * v 5 := mul_self_pos.mpr h
        nlinarith [mul_pos ha2 this, mul_nonneg hy2.le h6]
      · have : 0 < v 6 * v 6 := mul_self_pos.mpr h
        nlinarith [mul_pos hy2 this, mul_nonneg ha2.le h5]
    · have := hP.2 _ hhead
      rw [star_trivial] at this
      nlinarith [mul_nonneg ha2.le h5, mul_nonneg hy2.le h6]

theorem ldl_factor {n : Type} [LinearOrder n] [WellFoundedLT n] [LocallyFiniteOrderBot n]
    [Fintype n] (M : Matrix n n ℝ) (hM : M.PosDef) :
    ∃ (L : Matrix n n ℝ) (d : n → ℝ),
      (∀ i j, i < j → L i j = 0) ∧ (∀ i, 0 ≤ d i) ∧ L * diagonal d * Lᵀ = M := by
  have hconj := LDL.lower_conj_diag hM
  have hD := hM.posSemidef.mul_mul_conjTranspose_same (LDL.lowerInv hM)
  rw [← LDL.diag_eq_lowerInv_conj] at hD
  have hd := (Matrix.posSemidef_diagonal_iff).mp hD
  have hL : (LDL.lower hM).BlockTriangular OrderDual.toDual := by
    unfold LDL.lower
    apply blockTriangular_inv_of_blockTriangular
    intro i j hij
    exact LDL.lowerInv_triangular hM hij
  refine ⟨LDL.lower hM, LDL.diagEntries hM, fun i j hij => hL hij, hd, ?_⟩
  rw [Matrix.conjTranspose_eq_transpose_of_trivial] at hconj
  exact hconj

theorem lowerTriangular_factor {n : Type} [LinearOrder n] [WellFoundedLT n]
    [LocallyFiniteOrderBot n] [Fintype n] (M : Matrix n n ℝ) (hM : M.PosDef) :
    ∃ B : Matrix n n ℝ, (∀ i j, i < j → B i j = 0) ∧ B * Bᵀ = M := by
  obtain ⟨L, d, hL, hd, h⟩ := ldl_factor M hM
  refine ⟨L * diagonal (fun i => Real.sqrt (d i)), ?_, ?_⟩
  · intro i j hij
    rw [Matrix.mul_diagonal, hL i j hij, zero_mul]
  · rw [Matrix.transpose_mul, Matrix.diagonal_transpose, Matrix.mul_assoc,
      ← Matrix.mul_assoc (diagonal _) (diagonal _), Matrix.diagonal_mul_diagonal]
    simp only [Real.mul_self_sqrt (hd _)]
    rw [← Matrix.mul_assoc]
    exact h

theorem positive_diagonal_factor {n : Type} [LinearOrder n] [Fintype n]
    (M B : Matrix n n ℝ) (hM : M.PosDef)
    (hB : ∀ i j, i < j → B i j = 0) (h : B * Bᵀ = M) :
    ∃ A : Matrix n n ℝ, (∀ i j, i < j → A i j = 0) ∧ (∀ i, 0 < A i i) ∧
      A * Aᵀ = M := by
  have hdet : B.det ≠ 0 := by
    intro h0
    have := hM.det_pos
    rw [← h, Matrix.det_mul, h0, zero_mul] at this
    exact lt_irrefl _ this
  have hBT : B.BlockTriangular OrderDual.toDual := fun i j hij => hB i j hij
  rw [det_of_lowerTriangular B hBT] at hdet
  have hne : ∀ i, B i i ≠ 0 := fun i => (Finset.prod_ne_zero_iff.mp hdet) i (Finset.mem_univ i)
  have he : ∀ i, (if 0 < B i i then (1 : ℝ) else -1) * (if 0 < B i i then (1 : ℝ) else -1) = 1 := by
    intro i
    split_ifs <;> norm_num
  refine ⟨B * diagonal (fun i => if 0 < B i i then (1 : ℝ) else -1), ?_, ?_, ?_⟩
  · intro i j hij
    rw [Matrix.mul_diagonal, hB i j hij, zero_mul]
  · intro i
    rw [Matrix.mul_diagonal]
    split_ifs with hpos
    · simpa using hpos
    · have := lt_of_le_of_ne (not_lt.mp hpos) (hne i)
      linarith
  · rw [Matrix.transpose_mul, Matrix.diagonal_transpose, Matrix.mul_assoc,
      ← Matrix.mul_assoc (diagonal _) (diagonal _), Matrix.diagonal_mul_diagonal]
    simp only [he]
    rw [Matrix.diagonal_one, Matrix.one_mul, h]

theorem exists_cholesky_fin {n : ℕ} (M : Matrix (Fin n) (Fin n) ℝ) (hM : M.PosDef) :
    ∃ A : Matrix (Fin n) (Fin n) ℝ, (∀ i j, i < j → A i j = 0) ∧ (∀ i, 0 < A i i) ∧
      A * Aᵀ = M := by
  obtain ⟨B, hB, h⟩ := @lowerTriangular_factor (Fin n) (inferInstanceAs (LinearOrder (Fin n)))
    (inferInstanceAs (WellFoundedLT (Fin n))) (inferInstanceAs (LocallyFiniteOrderBot (Fin n)))
    _ M hM
  exact @positive_diagonal_factor (Fin n) (inferInstanceAs (LinearOrder (Fin n))) _ M B hM hB h

/-- C16: for every filter whose covariance `P_` is symmetric positive definite and whose
process noise parameters are the constructor's `std_a_ = std_yawdd_ = 30`, the augmented
covariance built by `Prediction` has `P_` in its top-left block, `900` on its last two
diagonal entries and zero elsewhere, is symmetric and positive definite, and has a Cholesky
factor: a lower-triangular `A` with positive diagonal and `A A^T = P_aug`. -/
theorem P_aug_cholesky_precondition (s : UKF ℝ) (hP : s.P_.PosDef) (ha : s.std_a_ = 30)
    (hy : s.std_yawdd_ = 30) :
    (∀ a b, s.P_aug (headIdx a) (headIdx b) = s.P_ a b) ∧
    s.P_aug 5 5 = 900 ∧ s.P_aug 6 6 = 900 ∧ s.P_aug 5 6 = 0 ∧ s.P_aug 6 5 = 0 ∧
    (∀ r, s.P_aug (headIdx r) 5 = 0 ∧ s.P_aug (headIdx r) 6 = 0 ∧
      s.P_aug 5 (headIdx r) = 0 ∧ s.P_aug 6 (headIdx r) = 0) ∧
    s.P_aug.IsSymm ∧ s.P_aug.PosDef ∧
    ∃ A : Matrix (Fin n_aug_) (Fin n_aug_) ℝ, IsCholeskyFactor A s.P_aug := by
  have hpd : s.P_aug.PosDef :=
    P_aug_posDef s hP (by rw [ha]; norm_num) (by rw [hy]; norm_num)
  have hsymm : s.P_aug.IsSymm := by
    have := hpd.1
    rwa [Matrix.IsHermitian, Matrix.conjTranspose_eq_transpose_of_trivial] at this
  obtain ⟨h55, h66, h56, h65⟩ := P_aug_noise s
  refine ⟨P_aug_head s, ?_, ?_, h56, h65, P_aug_head_noise s, hsymm, hpd,
    exists_cholesky_fin _ hpd⟩
  · rw [h55, ha]
    norm_num
  · rw [h66, hy]
    norm_num

theorem ctor_P_posDef (X : Matrix (Fin n_x_) (Fin (2 * n_aug_ + 1)) ℝ) :
    (UKF.ctor X).P_.PosDef := by
  have hP : (UKF.ctor X).P_ = 1 := by
    ext i j
    fin_cases i <;> fin_cases j <;> rfl
  rw [hP]
  exact Matrix.PosDef.one

/-- Witness for C16: the freshly constructed filter, whose covariance is the identity. -/
theorem P_aug_cholesky_precondition_witness :
    (UKF.ctor (0 : Matrix (Fin n_x_) (Fin (2 * n_aug_ + 1)) ℝ)).P_.PosDef ∧
    (UKF.ctor (0 : Matrix (Fin n_x_) (Fin (2 * n_aug_ + 1)) ℝ)).std_a_ = 30 ∧
    (UKF.ctor (0 : Matrix (Fin n_x_) (Fin (2 * n_aug_ + 1)) ℝ)).std_yawdd_ = 30 ∧
    (UKF.ctor (0 : Matrix (Fin n_x_) (Fin (2 * n_aug_ + 1)) ℝ)).P_aug.PosDef ∧
    ∃ A : Matrix (Fin n_aug_) (Fin n_aug_) ℝ,
      IsCholeskyFactor A (UKF.ctor (0 : Matrix (Fin n_x_) (Fin (2 * n_aug_ + 1)) ℝ)).P_aug :=
  ⟨ctor_P_posDef 0, rfl, rfl,
    (P_aug_cholesky_precondition (UKF.ctor 0) (ctor_P_posDef 0) rfl rfl).2.2.2.2.2.2.2.1,
    (P_aug_cholesky_precondition (UKF.ctor 0) (ctor_P_posDef 0) rfl rfl).2.2.2.2.2.2.2.2⟩

end Cholesky

/-! ## The contract of the position update -/

section LidarContract

open Real

theorem wrappedState_S : spec_S (wrappedState : UKF ℝ) = linearS (spreadState : UKF ℝ) := by
  rw [linearS_eq_spec_S _ spreadState_mean spreadState_cov]
  rfl

theorem wrappedState_det : (spec_S (wrappedState : UKF ℝ)).det ≠ 0 := by
  rw [wrappedState_S]
  exact spreadState_det

theorem wrappedState_heading (i : Fin (2 * n_aug_ + 1)) :
    (wrappedState : UKF ℝ).Xsig_pred_ 3 i - (wrappedState : UKF ℝ).x_ 3 = 3.5 := by
  have h : (wrappedState : UKF ℝ).Xsig_pred_ 3 i = 0 :=
    spreadSigma_eq_zero 3 i (Or.inl (by rw [fin_x_val.1]; norm_num))
  have hx : (wrappedState : UKF ℝ).x_ 3 = -3.5 := rfl
  rw [h, hx]
  norm_num

theorem wrappedState_z_pred : spec_z_pred (wrappedState : UKF ℝ) = 0 := by
  have h : spec_z_pred (wrappedState : UKF ℝ) = spec_z_pred (spreadState : UKF ℝ) := rfl
  rw [h, spec_z_pred_eq_of_mean _ spreadState_mean]
  funext r
  fin_cases r <;> rfl

theorem wrappedState_Tc (yaw : Fin (2 * n_aug_ + 1) → ℝ) :
    spec_Tc (wrappedState : UKF ℝ) yaw 0 0 = 1 / 3 := by
  unfold spec_Tc
  rw [Matrix.sum_apply, wrappedState_z_pred]
  have hne : (0 : Fin n_x_) ≠ 3 := by decide
  simp only [Matrix.smul_apply, vecMulVec, Matrix.of_apply, Function.update_noteq hne,
    sub_zero, smul_eq_mul, Pi.sub_apply, Pi.zero_apply]
  show ∑ i, setWeights n_aug_ (3 - (n_aug_ : ℝ)) i
      * ((spreadSigma 0 i - (![0, 0, 0, -3.5, 0] : Fin n_x_ → ℝ) 0) * spreadSigma 0 i) = 1 / 3
  rw [sum_spreadSigma _ (fun i h1 h8 => by
    rw [spreadSigma_eq_zero 0 i (Or.inr ⟨h1, h8⟩)]
    simp)]
  simp [spreadSigma_plus, spreadSigma_minus]
  norm_num

/-- C1: for every filter state (mean `x_`, covariance `P_`, sigma points `Xsig_pred_`,
weights) and measurement `(z_px, z_py)` for which `S` is invertible, `UpdateLidar`, given
enough fuel for the normalisation loops, computes `z_pred = Σ w_i z_i`,
`S = Σ w_i (z_i - z_pred)(z_i - z_pred)^T + diag(std_laspx², std_laspy²)`,
`Tc = Σ w_i (x_i - x_)(z_i - z_pred)^T` with the heading component of `x_i - x_` replaced by
its normalised value `yaw i` - the value in `[-π, π]` that differs from
`Xsig_pred_(3, i) - x_(3)` by an integer multiple of `2π`, as returned by the two loops -,
`K = Tc S⁻¹`, and returns the state with `x_ + K (z - z_pred)` and `P_ - K S K^T`. -/
theorem UpdateLidar_computes_spec (s : UKF ℝ) (t : ℤ) (ty : SensorType) (z_px z_py : ℝ)
    (hS : (spec_S s).det ≠ 0) :
    ∃ N, ∃ yaw : Fin (2 * n_aug_ + 1) → ℝ,
      (∀ i, -π ≤ yaw i ∧ yaw i ≤ π ∧
        ∃ k : ℤ, yaw i = s.Xsig_pred_ 3 i - s.x_ 3 + k * (2 * π)) ∧
      ∀ fuel, N ≤ fuel →
      (∀ i, normalizeAngle π fuel (s.Xsig_pred_ 3 i - s.x_ 3) = some (yaw i)) ∧
      weightedMean s.weights_ (measurementSigma s.Xsig_pred_) = spec_z_pred s ∧
      innovationCovariance s.weights_ (measurementSigma s.Xsig_pred_) (spec_z_pred s) s.R
        = spec_S s ∧
      crossCorrelation π fuel s.weights_ s.Xsig_pred_ s.x_ (measurementSigma s.Xsig_pred_)
        (spec_z_pred s) = some (spec_Tc s yaw) ∧
      inverse (spec_S s) = some (spec_S s)⁻¹ ∧
      s.UpdateLidar π fuel ⟨t, ty, [z_px, z_py]⟩ =
        some { s with
          x_ := s.x_ + (spec_Tc s yaw * (spec_S s)⁻¹) *ᵥ (![z_px, z_py] - spec_z_pred s)
          P_ := s.P_ - (spec_Tc s yaw * (spec_S s)⁻¹) * spec_S s
                  * (spec_Tc s yaw * (spec_S s)⁻¹)ᵀ } := by
  obtain ⟨N, yaw, h⟩ := normalizeAngle_family (fun i => s.Xsig_pred_ 3 i - s.x_ 3)
  refine ⟨N, yaw, fun i => ?_, fun fuel hf => ⟨h fuel hf, weightedMean_measurementSigma s,
    ?_, ?_, inverse_eq_inv _ hS, UpdateLidar_eq π fuel s yaw (h fuel hf) hS t ty z_px z_py⟩⟩
  · have hb := normalizeAngle_bounds (h N le_rfl i)
    exact ⟨hb.1, hb.2, normalizeAngle_shift (h N le_rfl i)⟩
  · rw [← weightedMean_measurementSigma, innovationCovariance_eq_spec]
  · rw [← weightedMean_measurementSigma]
    exact crossCorrelation_eq_spec π fuel s yaw (h fuel hf)

/-- Witness for C1: the sigma points spread along `px`, every heading difference `3.5`, and
the measurement `(1, 2)`: every normalised heading difference is `3.5 - 2π`, the cross
correlation has the entry `Tc(0, 0) = 1/3`, and the update returns. -/
theorem UpdateLidar_computes_spec_witness :
    (spec_S (wrappedState : UKF ℝ)).det ≠ 0 ∧
    ∃ N, ∃ yaw : Fin (2 * n_aug_ + 1) → ℝ,
      (∀ i, (wrappedState : UKF ℝ).Xsig_pred_ 3 i - (wrappedState : UKF ℝ).x_ 3 = 3.5 ∧
        yaw i = 3.5 - 2 * π) ∧
      spec_Tc (wrappedState : UKF ℝ) yaw 0 0 = 1 / 3 ∧
      ∀ fuel, N ≤ fuel →
        (wrappedState : UKF ℝ).UpdateLidar π fuel ⟨0, SensorType.LASER, [1, 2]⟩ =
          some { (wrappedState : UKF ℝ) with
            x_ := (wrappedState : UKF ℝ).x_
              + (spec_Tc wrappedState yaw * (spec_S (wrappedState : UKF ℝ))⁻¹) *ᵥ
                (![1, 2] - spec_z_pred (wrappedState : UKF ℝ))
            P_ := (wrappedState : UKF ℝ).P_
              - (spec_Tc wrappedState yaw * (spec_S (wrappedState : UKF ℝ))⁻¹)
                * spec_S (wrappedState : UKF ℝ)
                * (spec_Tc wrappedState yaw * (spec_S (wrappedState : UKF ℝ))⁻¹)ᵀ } := by
  refine ⟨wrappedState_det, ?_⟩
  obtain ⟨N, yaw, -, h⟩ := UpdateLidar_computes_spec
    (wrappedState : UKF ℝ) 0 SensorType.LASER 1 2 wrappedState_det
  refine ⟨N, yaw, fun i => ⟨wrappedState_heading i, ?_⟩, wrappedState_Tc yaw,
    fun fuel hf => (h fuel hf).2.2.2.2.2⟩
  have h1 := (h (max N 1) (le_max_left _ _)).1 i
  rw [wrappedState_heading i, normalizeAngle_three_and_a_half _ (le_max_right _ _)] at h1
  exact (Option.some.inj h1).symm

end LidarContract

/-! ## Evaluation of the binary64 rounding -/

section Binary64

theorem roundHalfEven_eq {x : ℚ} {m : ℤ} (h : |x - m| < 1 / 2) : roundHalfEven x = m := by
  obtain ⟨h1, h2⟩ := abs_lt.mp h
  unfold roundHalfEven
  by_cases hx : (m : ℚ) ≤ x
  · have hf : ⌊x⌋ = m := by
      rw [Int.floor_eq_iff]
      constructor <;> linarith
    rw [hf, if_pos (by linarith)]
  · push_neg at hx
    have hf : ⌊x⌋ = m - 1 := by
      rw [Int.floor_eq_iff]
      push_cast
      constructor <;> linarith
    rw [hf]
    push_cast
    rw [if_neg (by linarith), if_pos (by linarith)]
    ring

theorem log_two_eq {q : ℚ} {e : ℤ} (hlo : 2 ^ e ≤ q) (hhi : q < 2 ^ (e + 1)) :
    Int.log 2 q = e := by
  have hpos : 0 < q := lt_of_lt_of_le (by positivity) hlo
  apply le_antisymm
  · have := (Int.lt_zpow_iff_log_lt (b := 2) (by norm_num) hpos).mp (by exact_mod_cast hhi)
    omega
  · exact (Int.zpow_le_iff_le_log (b := 2) (by norm_num) hpos).mp (by exact_mod_cast hlo)

/-- Evaluation of `roundDouble`: in the binade `2^e ≤ |q| < 2^(e+1)` the result is
`m * 2^(e-52)` for the integer `m` within `1/2` of `q / 2^(e-52)`. -/
theorem roundDouble_eq {q : ℚ} (e m : ℤ) (hlo : 2 ^ e ≤ |q|) (hhi : |q| < 2 ^ (e + 1))
    (hm : |q / 2 ^ (e - 52) - m| < 1 / 2) : roundDouble q = m * 2 ^ (e - 52) := by
  have hq : q ≠ 0 := by
    intro h
    rw [h, abs_zero] at hlo
    exact absurd hlo (not_le.mpr (by positivity))
  unfold roundDouble
  rw [if_neg hq, log_two_eq hlo hhi, roundHalfEven_eq hm]

end Binary64

/-! ## The normalisation loops in binary64 arithmetic -/

section AngleBinary64

theorem whileSubFl_id {K : Type} [LinearOrderedField K] (pi : K) (fuel : ℕ) :
    ∀ d, whileSubFl id pi fuel d = whileSub pi fuel d := by
  induction fuel with
  | zero => intro d; rfl
  | succ n ih =>
    intro d
    simp only [whileSubFl, whileSub, id, ih]

theorem whileAddFl_id {K : Type} [LinearOrderedField K] (pi : K) (fuel : ℕ) :
    ∀ d, whileAddFl id pi fuel d = whileAdd pi fuel d := by
  induction fuel with
  | zero => intro d; rfl
  | succ n ih =>
    intro d
    simp only [whileAddFl, whileAdd, id, ih]

/-- A first loop whose subtraction is absorbed by the rounding never stops. -/
theorem whileSubFl_stuck {K : Type} [LinearOrderedField K] (fl : K → K) (pi d : K)
    (hd : d > pi) (hfix : fl (d - fl (2 * pi)) = d) :
    ∀ fuel, whileSubFl fl pi fuel d = none := by
  intro fuel
  induction fuel with
  | zero => simp [whileSubFl, hd]
  | succ n ih => simp [whileSubFl, hd, hfix, ih]

/-- A second loop whose addition is absorbed by the rounding never stops. -/
theorem whileAddFl_stuck {K : Type} [LinearOrderedField K] (fl : K → K) (pi d : K)
    (hd : d < -pi) (hfix : fl (d + fl (2 * pi)) = d) :
    ∀ fuel, whileAddFl fl pi fuel d = none := by
  intro fuel
  induction fuel with
  | zero => simp [whileAddFl, hd]
  | succ n ih => simp [whileAddFl, hd, hfix, ih]

theorem roundDouble_two_M_PI : roundDouble (2 * M_PI) = 2 * M_PI := by
  rw [roundDouble_eq 2 7074237752028440 (by norm_num [M_PI, abs_of_pos])
    (by norm_num [M_PI, abs_of_pos]) (by norm_num [M_PI, abs_lt])]
  norm_num [M_PI]

theorem roundDouble_absorbs_sub : roundDouble (10 ^ 17 - 2 * M_PI) = 10 ^ 17 := by
  rw [roundDouble_eq 56 6250000000000000 (by norm_num [M_PI, abs_of_pos])
    (by norm_num [M_PI, abs_of_pos]) (by norm_num [M_PI, abs_lt])]
  norm_num

theorem roundDouble_absorbs_add : roundDouble (-10 ^ 17 + 2 * M_PI) = -10 ^ 17 := by
  rw [roundDouble_eq 56 (-6250000000000000) (by norm_num [M_PI, abs_of_neg])
    (by norm_num [M_PI, abs_of_neg]) (by norm_num [M_PI, abs_lt])]
  norm_num

/-- C19: in binary64 arithmetic the first loop does not stop at the heading difference
`d = 1e17`.  `1e17` and `2.0 * M_PI` are binary64 numbers, `1e17 > M_PI`, and
`1e17 - 2.0 * M_PI` rounds to `1e17`, so the loop `while (d > M_PI) d -= 2.0 * M_PI` runs
out of every amount of fuel, and so do the two loops in sequence; in the same way the
second loop does not stop at `d = -1e17`. -/
theorem normalizeAngle_diverges :
    roundDouble (10 ^ 17) = 10 ^ 17 ∧
    (10 ^ 17 : ℚ) > M_PI ∧
    roundDouble (2 * M_PI) = 2 * M_PI ∧
    roundDouble (10 ^ 17 - roundDouble (2 * M_PI)) = 10 ^ 17 ∧
    (∀ fuel, whileSubFl roundDouble M_PI fuel (10 ^ 17) = none) ∧
    (∀ fuel, normalizeAngleFl roundDouble M_PI fuel (10 ^ 17) = none) ∧
    (∀ fuel, whileAddFl roundDouble M_PI fuel (-10 ^ 17) = none) := by
  have h0 : roundDouble (10 ^ 17) = 10 ^ 17 := by
    rw [roundDouble_eq 56 6250000000000000 (by norm_num [abs_of_pos])
      (by norm_num [abs_of_pos]) (by norm_num [abs_lt])]
    norm_num
  have h1 : (10 ^ 17 : ℚ) > M_PI := by norm_num [M_PI]
  have h2 : roundDouble (10 ^ 17 - roundDouble (2 * M_PI)) = 10 ^ 17 := by
    rw [roundDouble_two_M_PI, roundDouble_absorbs_sub]
  have h3 : (-10 ^ 17 : ℚ) < -M_PI := by norm_num [M_PI]
  have h4 : roundDouble (-10 ^ 17 + roundDouble (2 * M_PI)) = -10 ^ 17 := by
    rw [roundDouble_two_M_PI, roundDouble_absorbs_add]
  have hsub := whileSubFl_stuck roundDouble M_PI (10 ^ 17) h1 h2
  refine ⟨h0, h1, roundDouble_two_M_PI, h2, hsub, fun fuel => ?_,
    whileAddFl_stuck roundDouble M_PI (-10 ^ 17) h3 h4⟩
  simp [normalizeAngleFl, hsub fuel]

end AngleBinary64

/-! ## The innovation covariance in binary64 arithmetic

The run of lines 268-285 on the sigma points `absorbedSigma`, one rounded operation at a
time: `double_*` are the constructor's weights and the noise, `absorbed_zp_*` the mean
`z_pred`, `absorbed_zd0`, `absorbed_p0`, `absorbed_t0` the term of column `0`,
`absorbed_zd`, `absorbed_p1`, `absorbed_u` the term of every other column, `absorbed_acc*`
the fourteen additions to `S`, and `absorbed_noise` the addition of `R`. -/

section Absorbed

end Absorbed

section AbsorbedNoise

end AbsorbedNoise

/-! ## Invertibility of the innovation covariance -/

section InnovationInvertible

open Real

theorem setWeightsFl_id {K : Type} [LinearOrderedField K] (n_aug : ℕ) (lambda : K) :
    setWeightsFl id n_aug lambda = setWeights n_aug lambda := rfl

theorem weightedMeanFl_id {K : Type} [LinearOrderedField K] {n : ℕ}
    (w : Fin (2 * n_aug_ + 1) → K) (X : Matrix (Fin n) (Fin (2 * n_aug_ + 1)) K) :
    weightedMeanFl id w X = weightedMean w X := by
  have h : (fun (acc : Fin n → K) (i : Fin (2 * n_aug_ + 1)) =>
        fun r => id (acc r + id (w i * X r i)))
      = (fun acc i => acc + w i • (fun r => X r i)) := by
    funext acc i r
    simp
  unfold weightedMeanFl weightedMean
  rw [h]

theorem innovationCovarianceFl_id {K : Type} [LinearOrderedField K]
    (w : Fin (2 * n_aug_ + 1) → K) (Zsig : Matrix (Fin 2) (Fin (2 * n_aug_ + 1)) K)
    (z_pred : Fin 2 → K) (R : Matrix (Fin 2) (Fin 2) K) :
    innovationCovarianceFl id w Zsig z_pred R = innovationCovariance w Zsig z_pred R := by
  have h : (fun (acc : Matrix (Fin 2) (Fin 2) K) (i : Fin (2 * n_aug_ + 1)) =>
        fun a b => id (acc a b + id (id (w i * id (Zsig a i - z_pred a))
          * id (Zsig b i - z_pred b))))
      = (fun acc i => acc + w i • vecMulVec (fun r => Zsig r i - z_pred r)
          (fun r => Zsig r i - z_pred r)) := by
    funext acc i
    ext a b
    simp [vecMulVec, mul_assoc]
  unfold innovationCovarianceFl innovationCovariance
  simp only
  rw [h]
  rfl

end InnovationInvertible
